import Mathlib

/-!
# A verification development for the python-libipld codec core

This file gives a shallow embedding of the codec suite described in the
repository specification: DAG-CBOR (strict canonical CBOR profile), binary
CID parsing, multibase, uvarint, and the CAR v1 reader, together with
theorems settling the specification claims.

The compiled Rust core is not shipped in this source tree (only its Python
tests and the packaged binding are), so every codec definition below is
modelled from the specification, as indicated by the doc comments.  Bytes
are modelled as natural numbers below 256, byte buffers as `List Nat`,
IEEE-754 binary64 floats by their 64-bit bit patterns, and fallible
operations return `Except Err`.
-/

namespace LibIpld

/-! ## Basic byte helpers -/

/-- Big-endian byte encoding of `n` in exactly `k` bytes. -/
def beBytes : Nat → Nat → List Nat
  | 0, _ => []
  | k + 1, n => beBytes k (n / 256) ++ [n % 256]

/-- Big-endian value of a byte list. -/
def beVal (l : List Nat) : Nat := l.foldl (fun a b => a * 256 + b) 0

/-- Split off exactly `n` leading bytes, or fail. -/
def takeN (n : Nat) (l : List Nat) : Option (List Nat × List Nat) :=
  if n ≤ l.length then some (l.take n, l.drop n) else none

/-! ## Error kinds

Modelled from the spec: the error taxonomy of §7.  `fuelOut` is an artifact
of the embedding (the recursion fuel of the decoder, chosen large enough to
never be exhausted); it corresponds to no behaviour of the code. -/

inductive Err where
  | invalidVarint
  | invalidBaseString
  | unknownBaseCode
  | unsupportedDataType
  | invalidCid
  | invalidUtf8
  | invalidDagCbor
  | mapKeyOrder
  | nonStringMapKey
  | integerOutOfRange
  | nonFiniteFloat
  | recursionLimit
  | multipleObjects
  | unexpectedEof
  | unsupportedCarVersion
  | missingHeaderKey
  | emptyRoots
  | invalidCarHeader
  | invalidBlockCid
  | fuelOut
deriving DecidableEq, Repr

/-- Modelled from the spec: representative error messages; §7 requires the
message to include the failing construct, and the host test suite matches
on these substrings. -/
def errMessage : Err → String
  | .invalidVarint => "Invalid uvarint"
  | .invalidBaseString => "Invalid base string"
  | .unknownBaseCode => "Unknown base code"
  | .unsupportedDataType => "Unsupported data type"
  | .invalidCid => "Invalid CID"
  | .invalidUtf8 => "Invalid UTF-8 string: invalid utf-8 sequence"
  | .invalidDagCbor => "Invalid DAG-CBOR data"
  | .mapKeyOrder => "Map keys must be sorted"
  | .nonStringMapKey => "Map keys must be strings"
  | .integerOutOfRange => "Number out of range for u64/i65"
  | .nonFiniteFloat => "Number out of range for f64"
  | .recursionLimit => "Recursion limit exceeded in DAG-CBOR decoding"
  | .multipleObjects => "Decoded multiple objects from a single buffer"
  | .unexpectedEof => "Unexpected end of input"
  | .unsupportedCarVersion => "Version must be 1"
  | .missingHeaderKey => "Missing header key"
  | .emptyRoots => "Roots is empty"
  | .invalidCarHeader => "Invalid CAR header: cannot be converted to expected type"
  | .invalidBlockCid => "Failed to read CID of block"
  | .fuelOut => "unreachable"

/-- `needle` occurs as a contiguous substring of `hay`. -/
def Mentions (needle hay : String) : Prop :=
  ∃ pre post, hay = pre ++ needle ++ post

/-! ## UTF-8 validity

Modelled from the spec: strings must be valid UTF-8 (§4.4, error
InvalidUtf8).  Standard UTF-8 byte-level validation (RFC 3629): no
overlong forms, no surrogates, code points up to U+10FFFF. -/

/-- A UTF-8 continuation byte. -/
def utf8Cont (b : Nat) : Bool := 128 ≤ b && b ≤ 191

/-- UTF-8 validity of a byte sequence. -/
def utf8Valid : List Nat → Bool
  | [] => true
  | b :: rest =>
    if b ≤ 0x7F then utf8Valid rest
    else if 0xC2 ≤ b && b ≤ 0xDF then
      match rest with
      | c1 :: r => utf8Cont c1 && utf8Valid r
      | [] => false
    else if b == 0xE0 then
      match rest with
      | c1 :: c2 :: r => (0xA0 ≤ c1 && c1 ≤ 0xBF) && utf8Cont c2 && utf8Valid r
      | _ => false
    else if 0xE1 ≤ b && b ≤ 0xEC then
      match rest with
      | c1 :: c2 :: r => utf8Cont c1 && utf8Cont c2 && utf8Valid r
      | _ => false
    else if b == 0xED then
      match rest with
      | c1 :: c2 :: r => (0x80 ≤ c1 && c1 ≤ 0x9F) && utf8Cont c2 && utf8Valid r
      | _ => false
    else if 0xEE ≤ b && b ≤ 0xEF then
      match rest with
      | c1 :: c2 :: r => utf8Cont c1 && utf8Cont c2 && utf8Valid r
      | _ => false
    else if b == 0xF0 then
      match rest with
      | c1 :: c2 :: c3 :: r => (0x90 ≤ c1 && c1 ≤ 0xBF) && utf8Cont c2 && utf8Cont c3 && utf8Valid r
      | _ => false
    else if 0xF1 ≤ b && b ≤ 0xF3 then
      match rest with
      | c1 :: c2 :: c3 :: r => utf8Cont c1 && utf8Cont c2 && utf8Cont c3 && utf8Valid r
      | _ => false
    else if b == 0xF4 then
      match rest with
      | c1 :: c2 :: c3 :: r => (0x80 ≤ c1 && c1 ≤ 0x8F) && utf8Cont c2 && utf8Cont c3 && utf8Valid r
      | _ => false
    else false

/-! ## Varint

Modelled from the spec (§4.1): unsigned LEB128, at most 10 bytes, value
must fit `u64`; no canonical-minimal requirement on read. -/

def readUvarintAux : List Nat → Nat → Nat → Except Err (Nat × List Nat)
  | [], _, _ => .error .invalidVarint
  | b :: rest, count, acc =>
    if 10 ≤ count then .error .invalidVarint
    else
      let acc2 := acc + b % 128 * 2 ^ (7 * count)
      if b % 256 < 128 then
        if acc2 < 2 ^ 64 then .ok (acc2, rest) else .error .invalidVarint
      else readUvarintAux rest (count + 1) acc2

/-- `read_uvarint`: read one unsigned LEB128 value from the front of `l`. -/
def readUvarint (l : List Nat) : Except Err (Nat × List Nat) :=
  readUvarintAux l 0 0

def uvarEncAux : Nat → Nat → List Nat
  | 0, _ => []
  | fuel + 1, n => if n < 128 then [n] else (128 + n % 128) :: uvarEncAux fuel (n / 128)

/-- `write_uvarint`: minimal unsigned LEB128 encoding (values below `2^64`
need at most 10 bytes). -/
def uvarEnc (n : Nat) : List Nat := uvarEncAux 10 n

/-! ## Binary CID parsing

Modelled from the spec (§4.3): binary CID = version-varint, codec-varint,
multihash; the 34-byte `12 20 …` form is CIDv0; multihash size is capped
at 64. -/

structure Cid where
  version : Nat
  codec : Nat
  hcode : Nat
  hsize : Nat
  digest : List Nat
deriving DecidableEq, Repr

/-- Parse a binary CID from the front of a buffer (used for CAR block
frames, where the CID has no explicit length prefix). -/
def parseCidPrefix (bs : List Nat) : Except Err (Cid × List Nat) :=
  match readUvarint bs with
  | .error e => .error e
  | .ok (a, r1) =>
    match readUvarint r1 with
    | .error e => .error e
    | .ok (b, r2) =>
      if a == 0x12 && b == 0x20 then
        match takeN 32 r2 with
        | none => .error .invalidCid
        | some (dg, rest) =>
          .ok ({ version := 0, codec := 0x70, hcode := 0x12, hsize := 32, digest := dg }, rest)
      else if a == 1 then
        match readUvarint r2 with
        | .error e => .error e
        | .ok (hc, r3) =>
          match readUvarint r3 with
          | .error e => .error e
          | .ok (hs, r4) =>
            if 64 < hs then .error .invalidCid
            else
              match takeN hs r4 with
              | none => .error .invalidCid
              | some (dg, rest) =>
                .ok ({ version := 1, codec := b, hcode := hc, hsize := hs, digest := dg }, rest)
      else .error .invalidCid

/-- `decode_cid` on raw bytes: parse a binary CID consuming the whole
buffer. -/
def decodeCidBytes (bs : List Nat) : Except Err Cid :=
  if bs.length == 34 && bs.take 2 == [0x12, 0x20] then
    .ok { version := 0, codec := 0x70, hcode := 0x12, hsize := 32, digest := bs.drop 2 }
  else
    match parseCidPrefix bs with
    | .ok (c, []) => .ok c
    | .ok (_, _ :: _) => .error .invalidCid
    | .error e => .error e

/-- The binary multihash of a CID: varint code, varint size, digest. -/
def Cid.mhBytes (c : Cid) : List Nat := uvarEnc c.hcode ++ uvarEnc c.hsize ++ c.digest

/-- The binary form of a CID (CIDv0 is a bare multihash). -/
def Cid.binary (c : Cid) : List Nat :=
  if c.version == 0 then c.mhBytes else uvarEnc c.version ++ uvarEnc c.codec ++ c.mhBytes

/-! ## The IPLD value

Modelled from the spec (§3): tagged union over null, bool, integer
(range `[-2^64, 2^64-1]`), float (finite binary64, here carried as its
64-bit bit pattern), bytes, string (valid UTF-8, carried as its UTF-8
bytes), list, string-keyed map, and CID link (carried as the binary CID
bytes wrapped by tag 42).  Mutual inductives are used instead of nested
`List` so that all functions below are structurally recursive. -/

mutual
inductive Value where
  | vnull
  | vbool (b : Bool)
  | vint (i : Int)
  | vfloat (bits : Nat)
  | vbytes (bs : List Nat)
  | vstr (s : List Nat)
  | vlist (xs : VList)
  | vmap (kvs : VEntries)
  | vlink (cid : List Nat)
deriving DecidableEq, Repr

inductive VList where
  | nil
  | cons (v : Value) (rest : VList)
deriving DecidableEq, Repr

inductive VEntries where
  | nil
  | cons (k : List Nat) (v : Value) (rest : VEntries)
deriving DecidableEq, Repr
end

def VList.toList : VList → List Value
  | .nil => []
  | .cons v r => v :: VList.toList r

def VList.length (l : VList) : Nat := l.toList.length

def VEntries.toList : VEntries → List (List Nat × Value)
  | .nil => []
  | .cons k v r => (k, v) :: VEntries.toList r

def entriesOfList : List (List Nat × Value) → VEntries
  | [] => .nil
  | (k, v) :: r => .cons k v (entriesOfList r)

def VEntries.length (l : VEntries) : Nat := l.toList.length

/-! ## Canonical map key order

Modelled from the spec (glossary "Canonical map order"): keys ascending
primarily by byte length, secondarily by lexicographic byte order of the
UTF-8 encoding. -/

/-- Strict lexicographic byte order. -/
def lexLtB : List Nat → List Nat → Bool
  | [], [] => false
  | [], _ :: _ => true
  | _ :: _, [] => false
  | a :: as, b :: bs => a < b || (a == b && lexLtB as bs)

/-- Strict canonical DAG-CBOR key order: length first, then lexicographic. -/
def keyLtB (a b : List Nat) : Bool :=
  a.length < b.length || (a.length == b.length && lexLtB a b)

/-- The non-strict order used to sort map entries by key; compares only
the key component. -/
def pairKeyLe {α : Type} (p q : List Nat × α) : Prop := keyLtB q.1 p.1 = false

instance {α : Type} : DecidableRel (@pairKeyLe α) :=
  fun p q => inferInstanceAs (Decidable (_ = false))

/-! ## Validity of an IPLD value

Modelled from the spec (§3, §4.4): integers in `[-2^64, 2^64-1]`, finite
floats, valid-UTF-8 strings, string-keyed maps with distinct keys, links
holding a parseable binary CID. -/

/-- Does `k` occur among the keys of `kvs`? -/
def keyMem (k : List Nat) : VEntries → Bool
  | .nil => false
  | .cons k2 _ r => k == k2 || keyMem k r

/-- All keys distinct. -/
def keysDistinct : VEntries → Bool
  | .nil => true
  | .cons k _ r => !keyMem k r && keysDistinct r

/-- All keys are valid UTF-8 byte strings. -/
def keysValid : VEntries → Bool
  | .nil => true
  | .cons k _ r =>
    k.all (· < 256) && utf8Valid k && decide (k.length < 2 ^ 64) && keysValid r

mutual
def validV : Value → Bool
  | .vnull => true
  | .vbool _ => true
  | .vint i => decide (-(2 ^ 64 : Int) ≤ i) && decide (i ≤ 2 ^ 64 - 1)
  | .vfloat bits => decide (bits < 2 ^ 64) && bits / 2 ^ 52 % 2 ^ 11 != 2047
  | .vbytes bs => bs.all (· < 256) && decide (bs.length < 2 ^ 64)
  | .vstr s => s.all (· < 256) && utf8Valid s && decide (s.length < 2 ^ 64)
  | .vlist xs => validL xs && decide (xs.length < 2 ^ 64)
  | .vmap kvs =>
    keysValid kvs && keysDistinct kvs && validE kvs && decide (kvs.length < 2 ^ 64)
  | .vlink cid =>
    cid.all (· < 256) && (decodeCidBytes cid).toOption.isSome &&
      decide (cid.length + 1 < 2 ^ 64)

def validL : VList → Bool
  | .nil => true
  | .cons v r => validV v && validL r

def validE : VEntries → Bool
  | .nil => true
  | .cons _ v r => validV v && validE r
end

/-! ## Nesting depth (arrays and maps only) -/

mutual
def vDepth : Value → Nat
  | .vlist xs => 1 + depthL xs
  | .vmap kvs => 1 + depthE kvs
  | _ => 0

def depthL : VList → Nat
  | .nil => 0
  | .cons v r => max (vDepth v) (depthL r)

def depthE : VEntries → Nat
  | .nil => 0
  | .cons _ v r => max (vDepth v) (depthE r)
end

/-! ## Canonicalisation

`canon v` is `v` with every map entry list put into canonical key order;
it is exactly what decoding an encoding of `v` returns. -/

mutual
def canon : Value → Value
  | .vlist xs => .vlist (canonL xs)
  | .vmap kvs => .vmap (entriesOfList (List.insertionSort pairKeyLe (canonPairs kvs)))
  | v => v

def canonL : VList → VList
  | .nil => .nil
  | .cons v r => .cons (canon v) (canonL r)

def canonPairs : VEntries → List (List Nat × Value)
  | .nil => []
  | .cons k v r => (k, canon v) :: canonPairs r
end

/-! ## DAG-CBOR encoder

Modelled from the spec (§4.4 encoder contract): shortest head for
integers/lengths, binary64 floats only, non-finite floats rejected, map
keys sorted canonically before writing, links written as tag 42 over
`0x00 ‖ binary CID`. -/

/-- Shortest CBOR head for major type `major` and argument `n < 2^64`. -/
def encodeHead (major : Nat) (n : Nat) : List Nat :=
  if n < 24 then [major * 32 + n]
  else if n < 2 ^ 8 then [major * 32 + 24, n]
  else if n < 2 ^ 16 then (major * 32 + 25) :: beBytes 2 n
  else if n < 2 ^ 32 then (major * 32 + 26) :: beBytes 4 n
  else (major * 32 + 27) :: beBytes 8 n

/-- The wire form of one already-encoded map entry: text head for the key,
key bytes, encoded value bytes. -/
def entryWire (p : List Nat × List Nat) : List Nat :=
  encodeHead 3 p.1.length ++ p.1 ++ p.2

mutual
def encodeItem : Value → Except Err (List Nat)
  | .vnull => .ok [0xF6]
  | .vbool false => .ok [0xF4]
  | .vbool true => .ok [0xF5]
  | .vint i =>
    if i < -(2 ^ 64 : Int) || (2 ^ 64 - 1 : Int) < i then .error .integerOutOfRange
    else if 0 ≤ i then .ok (encodeHead 0 i.toNat)
    else .ok (encodeHead 1 (-1 - i).toNat)
  | .vfloat bits =>
    if bits / 2 ^ 52 % 2 ^ 11 == 2047 then .error .nonFiniteFloat
    else .ok (0xFB :: beBytes 8 bits)
  | .vbytes bs => .ok (encodeHead 2 bs.length ++ bs)
  | .vstr s => .ok (encodeHead 3 s.length ++ s)
  | .vlist xs =>
    match encodeSeq xs with
    | .ok body => .ok (encodeHead 4 xs.length ++ body)
    | .error e => .error e
  | .vmap kvs =>
    match encodePairs kvs with
    | .ok pairs =>
      .ok (encodeHead 5 pairs.length ++
        (List.insertionSort pairKeyLe pairs).flatMap entryWire)
    | .error e => .error e
  | .vlink cid =>
    .ok (encodeHead 6 42 ++ encodeHead 2 (cid.length + 1) ++ (0 :: cid))

def encodeSeq : VList → Except Err (List Nat)
  | .nil => .ok []
  | .cons v r =>
    match encodeItem v with
    | .ok b =>
      match encodeSeq r with
      | .ok rest => .ok (b ++ rest)
      | .error e => .error e
    | .error e => .error e

def encodePairs : VEntries → Except Err (List (List Nat × List Nat))
  | .nil => .ok []
  | .cons k v r =>
    match encodeItem v with
    | .ok b =>
      match encodePairs r with
      | .ok rest => .ok ((k, b) :: rest)
      | .error e => .error e
    | .error e => .error e
end

/-- `encode_dag_cbor`. -/
def encode_dag_cbor (v : Value) : Except Err (List Nat) := encodeItem v

/-! ## DAG-CBOR decoder

Modelled from the spec (§4.4 decoder contract and §4.4 state/recursion):
a cursor plus a depth counter; arrays and maps recurse and are the only
constructs counted against the hard recursion cap of 500 frames; map keys
must be major-3 text in strictly ascending canonical order; tag 42 must
wrap a byte string starting `0x00` whose remainder is a parseable binary
CID; only float64 heads yield values and non-finite patterns (in either
the float32 or float64 head) are rejected.

The implementation recurses on an explicit fuel argument so that it is
structurally recursive; `decode_dag_cbor` passes `2 * |buf| + 2` fuel,
which is never exhausted (each recursion step is paid for by input bytes). -/

/-- What the decoder is currently reading. -/
inductive DecMode where
  | item (depth : Nat)
  | seq (depth : Nat) (n : Nat)
  | entries (depth : Nat) (n : Nat) (prev : Option (List Nat))
  | multi
deriving DecidableEq, Repr

/-- Decoder results for the three modes. -/
inductive DecOut where
  | one (v : Value)
  | many (vs : VList)
  | ents (kvs : VEntries)
  | vals (vs : List Value)
deriving DecidableEq, Repr

/-- The hard recursion cap (spec §4.4: 500 frames, arrays and maps only). -/
def maxDepth : Nat := 500

/-- Read `k` big-endian bytes as a number. -/
def readBE (k : Nat) (l : List Nat) : Except Err (Nat × List Nat) :=
  match takeN k l with
  | some (pre, rest) => .ok (beVal pre, rest)
  | none => .error .unexpectedEof

/-- Read a CBOR head argument given the additional-info bits: values 0-23
are immediate, 24/25/26/27 select 1/2/4/8-byte big-endian arguments,
28-31 (including indefinite length 31) are invalid in DAG-CBOR. -/
def readArg (info : Nat) (l : List Nat) : Except Err (Nat × List Nat) :=
  if info < 24 then .ok (info, l)
  else if info == 24 then readBE 1 l
  else if info == 25 then readBE 2 l
  else if info == 26 then readBE 4 l
  else if info == 27 then readBE 8 l
  else .error .invalidDagCbor

def decodeCore : Nat → DecMode → List Nat → Except Err (DecOut × List Nat)
  | 0, _, _ => .error .fuelOut
  | fuel + 1, .item depth, buf =>
    match buf with
    | [] => .error .unexpectedEof
    | b :: rest =>
      let major := b / 32
      let info := b % 32
      if major == 0 then
        match readArg info rest with
        | .ok (n, r) => .ok (.one (.vint (Int.ofNat n)), r)
        | .error e => .error e
      else if major == 1 then
        match readArg info rest with
        | .ok (n, r) => .ok (.one (.vint (-1 - Int.ofNat n)), r)
        | .error e => .error e
      else if major == 2 then
        match readArg info rest with
        | .ok (n, r) =>
          match takeN n r with
          | some (bs, r2) => .ok (.one (.vbytes bs), r2)
          | none => .error .unexpectedEof
        | .error e => .error e
      else if major == 3 then
        match readArg info rest with
        | .ok (n, r) =>
          match takeN n r with
          | some (s, r2) =>
            if utf8Valid s then .ok (.one (.vstr s), r2) else .error .invalidUtf8
          | none => .error .unexpectedEof
        | .error e => .error e
      else if major == 4 then
        match readArg info rest with
        | .ok (n, r) =>
          if maxDepth ≤ depth then .error .recursionLimit
          else
            match decodeCore fuel (.seq (depth + 1) n) r with
            | .ok (.many vs, r2) => .ok (.one (.vlist vs), r2)
            | .ok (_, _) => .error .invalidDagCbor
            | .error e => .error e
        | .error e => .error e
      else if major == 5 then
        match readArg info rest with
        | .ok (n, r) =>
          if maxDepth ≤ depth then .error .recursionLimit
          else
            match decodeCore fuel (.entries (depth + 1) n none) r with
            | .ok (.ents kvs, r2) => .ok (.one (.vmap kvs), r2)
            | .ok (_, _) => .error .invalidDagCbor
            | .error e => .error e
        | .error e => .error e
      else if major == 6 then
        match readArg info rest with
        | .ok (t, r) =>
          if t == 42 then
            match r with
            | [] => .error .unexpectedEof
            | b2 :: r2 =>
              if b2 / 32 == 2 then
                match readArg (b2 % 32) r2 with
                | .ok (n, r3) =>
                  match takeN n r3 with
                  | some (bs, r4) =>
                    match bs with
                    | 0 :: cid =>
                      match decodeCidBytes cid with
                      | .ok _ => .ok (.one (.vlink cid), r4)
                      | .error e => .error e
                    | _ => .error .invalidDagCbor
                  | none => .error .unexpectedEof
                | .error e => .error e
              else .error .invalidDagCbor
          else .error .invalidDagCbor
        | .error e => .error e
      else
        if info == 20 then .ok (.one (.vbool false), rest)
        else if info == 21 then .ok (.one (.vbool true), rest)
        else if info == 22 then .ok (.one .vnull, rest)
        else if info == 26 then
          match readBE 4 rest with
          | .ok (w, _) =>
            if w / 2 ^ 23 % 2 ^ 8 == 255 then .error .nonFiniteFloat
            else .error .invalidDagCbor
          | .error e => .error e
        else if info == 27 then
          match readBE 8 rest with
          | .ok (w, r) =>
            if w / 2 ^ 52 % 2 ^ 11 == 2047 then .error .nonFiniteFloat
            else .ok (.one (.vfloat w), r)
          | .error e => .error e
        else .error .invalidDagCbor
  | fuel + 1, .seq depth n, buf =>
    match n with
    | 0 => .ok (.many .nil, buf)
    | n + 1 =>
      match decodeCore fuel (.item depth) buf with
      | .ok (.one v, r) =>
        match decodeCore fuel (.seq depth n) r with
        | .ok (.many vs, r2) => .ok (.many (.cons v vs), r2)
        | .ok (_, _) => .error .invalidDagCbor
        | .error e => .error e
      | .ok (_, _) => .error .invalidDagCbor
      | .error e => .error e
  | fuel + 1, .entries depth n prev, buf =>
    match n with
    | 0 => .ok (.ents .nil, buf)
    | n + 1 =>
      match buf with
      | [] => .error .unexpectedEof
      | b :: rest =>
        if b / 32 == 3 then
          match readArg (b % 32) rest with
          | .ok (klen, r1) =>
            match takeN klen r1 with
            | some (k, r2) =>
              if utf8Valid k then
                if (match prev with
                    | none => true
                    | some p => keyLtB p k) then
                  match decodeCore fuel (.item depth) r2 with
                  | .ok (.one v, r3) =>
                    match decodeCore fuel (.entries depth n (some k)) r3 with
                    | .ok (.ents kvs, r4) => .ok (.ents (.cons k v kvs), r4)
                    | .ok (_, _) => .error .invalidDagCbor
                    | .error e => .error e
                  | .ok (_, _) => .error .invalidDagCbor
                  | .error e => .error e
                else .error .mapKeyOrder
              else .error .invalidUtf8
            | none => .error .unexpectedEof
          | .error e => .error e
        else .error .nonStringMapKey
  | fuel + 1, .multi, buf =>
    match buf with
    | [] => .ok (.vals [], [])
    | _ :: _ =>
      match decodeCore fuel (.item 0) buf with
      | .ok (.one v, r) =>
        match decodeCore fuel .multi r with
        | .ok (.vals vs, r2) => .ok (.vals (v :: vs), r2)
        | .ok (_, _) => .error .invalidDagCbor
        | .error e => .error e
      | .ok (_, _) => .error .invalidDagCbor
      | .error e => .error e

/-- `decode_dag_cbor`: decode exactly one value consuming the whole
buffer; trailing bytes are MultipleObjects. -/
def decode_dag_cbor (buf : List Nat) : Except Err Value :=
  match decodeCore (2 * buf.length + 2) (.item 0) buf with
  | .ok (.one v, []) => .ok v
  | .ok (.one _, _ :: _) => .error .multipleObjects
  | .ok (_, _) => .error .invalidDagCbor
  | .error e => .error e

/-- `decode_dag_cbor_multi`: decode values until the buffer is exhausted. -/
def decode_dag_cbor_multi (buf : List Nat) : Except Err (List Value) :=
  match decodeCore (2 * buf.length + 2) .multi buf with
  | .ok (.vals vs, _) => .ok vs
  | .ok (_, _) => .error .invalidDagCbor
  | .error e => .error e

/-! ## CAR v1 reader

Modelled from the spec (§4.5): frames are `uvarint length ‖ payload`; the
header frame must DAG-CBOR-decode to a map with `version = 1` and a
non-empty `roots` list; block frames start with an unprefixed binary CID
followed by DAG-CBOR block bytes; the mapping form is last-writer-wins
keyed by the binary CID bytes, the tuple form preserves order. -/

/-- The UTF-8 bytes of an ASCII string (used for header keys). -/
def asciiBytes (s : String) : List Nat := s.data.map Char.toNat

/-- Python-dict style lookup in a decoded map. -/
def lookupKey (k : List Nat) : List (List Nat × Value) → Option Value
  | [] => none
  | (k2, v) :: r => if k2 == k then some v else lookupKey k r

/-- Read one `uvarint length ‖ payload` frame. -/
def readFrame (buf : List Nat) : Except Err (List Nat × List Nat) :=
  match readUvarint buf with
  | .error e => .error e
  | .ok (len, r) =>
    match takeN len r with
    | some (payload, rest) => .ok (payload, rest)
    | none => .error .unexpectedEof

/-- Validate the decoded CAR header value. -/
def checkHeader (hv : Value) : Except Err (Value × List Value) :=
  match hv with
  | .vmap kvs =>
    match lookupKey (asciiBytes "version") kvs.toList with
    | none => .error .missingHeaderKey
    | some (.vint n) =>
      if n == 1 then
        match lookupKey (asciiBytes "roots") kvs.toList with
        | none => .error .missingHeaderKey
        | some (.vlist rs) =>
          match rs with
          | .nil => .error .emptyRoots
          | .cons _ _ => .ok (hv, rs.toList)
        | some _ => .error .invalidCarHeader
      else .error .unsupportedCarVersion
    | some _ => .error .invalidCarHeader
  | _ => .error .invalidCarHeader

/-- Decode the block frames; last-writer-wins association list keyed by
binary CID bytes. -/
def insertBlock (k : List Nat) (v : Value) :
    List (List Nat × Value) → List (List Nat × Value)
  | [] => [(k, v)]
  | (k2, v2) :: r => if k2 == k then (k, v) :: r else (k2, v2) :: insertBlock k v r

def decodeBlocks : Nat → List Nat → List (List Nat × Value) →
    Except Err (List (List Nat × Value))
  | _, [], acc => .ok acc
  | 0, _ :: _, _ => .error .fuelOut
  | fuel + 1, buf, acc =>
    match readFrame buf with
    | .error e => .error e
    | .ok (frame, rest) =>
      match parseCidPrefix frame with
      | .error _ => .error .invalidBlockCid
      | .ok (c, blockBytes) =>
        match decode_dag_cbor blockBytes with
        | .error e => .error e
        | .ok v => decodeBlocks fuel rest (insertBlock c.binary v acc)

/-- `decode_car`: header plus CID-keyed mapping of decoded blocks. -/
def decode_car (buf : List Nat) :
    Except Err ((Value × List Value) × List (List Nat × Value)) :=
  match readFrame buf with
  | .error e => .error e
  | .ok (payload, rest) =>
    match decode_dag_cbor payload with
    | .error e => .error e
    | .ok hv =>
      match checkHeader hv with
      | .error e => .error e
      | .ok header =>
        match decodeBlocks buf.length rest [] with
        | .error e => .error e
        | .ok blocks => .ok (header, blocks)

def decodeBlocksTuple : Nat → List Nat → Except Err (List (List Nat × Value))
  | _, [] => .ok []
  | 0, _ :: _ => .error .fuelOut
  | fuel + 1, buf =>
    match readFrame buf with
    | .error e => .error e
    | .ok (frame, rest) =>
      match parseCidPrefix frame with
      | .error _ => .error .invalidBlockCid
      | .ok (c, blockBytes) =>
        match decode_dag_cbor blockBytes with
        | .error e => .error e
        | .ok v =>
          match decodeBlocksTuple fuel rest with
          | .error e => .error e
          | .ok tl => .ok ((c.binary, v) :: tl)

/-- `decode_car_tuple`: header plus ordered block sequence. -/
def decode_car_tuple (buf : List Nat) :
    Except Err ((Value × List Value) × List (List Nat × Value)) :=
  match readFrame buf with
  | .error e => .error e
  | .ok (payload, rest) =>
    match decode_dag_cbor payload with
    | .error e => .error e
    | .ok hv =>
      match checkHeader hv with
      | .error e => .error e
      | .ok header =>
        match decodeBlocksTuple buf.length rest with
        | .error e => .error e
        | .ok blocks => .ok (header, blocks)

/-- The strict canonical order on keyed pairs. -/
def pairKeyLt {α : Type} (p q : List Nat × α) : Prop := keyLtB p.1 q.1 = true


/-! ## Equality of IPLD values up to map-entry order

The host language compares maps as unordered key-value collections, so
`decode(encode(v)) == v` is equality up to permutation of map entries.
`VEq` captures exactly that: structural equality except that each map is
compared up to a permutation of its entry list. -/

mutual
inductive VEq : Value → Value → Prop
  | vnull : VEq .vnull .vnull
  | vbool (b : Bool) : VEq (.vbool b) (.vbool b)
  | vint (i : Int) : VEq (.vint i) (.vint i)
  | vfloat (bits : Nat) : VEq (.vfloat bits) (.vfloat bits)
  | vbytes (bs : List Nat) : VEq (.vbytes bs) (.vbytes bs)
  | vstr (s : List Nat) : VEq (.vstr s) (.vstr s)
  | vlist {xs ys : VList} : VLEq xs ys → VEq (.vlist xs) (.vlist ys)
  | vmap {kvs₁ kvs₂ : VEntries} : VEPerm kvs₁ kvs₂ → VEq (.vmap kvs₁) (.vmap kvs₂)
  | vlink (cid : List Nat) : VEq (.vlink cid) (.vlink cid)

inductive VLEq : VList → VList → Prop
  | nil : VLEq .nil .nil
  | cons {v w : Value} {xs ys : VList} : VEq v w → VLEq xs ys →
      VLEq (.cons v xs) (.cons w ys)

inductive VEPerm : VEntries → VEntries → Prop
  | nil : VEPerm .nil .nil
  | cons {k : List Nat} {v w : Value} {t₁ t₂ : VEntries} : VEq v w → VEPerm t₁ t₂ →
      VEPerm (.cons k v t₁) (.cons k w t₂)
  | swap (k₁ k₂ : List Nat) (v₁ v₂ : Value) (t : VEntries) :
      VEPerm (.cons k₁ v₁ (.cons k₂ v₂ t)) (.cons k₂ v₂ (.cons k₁ v₁ t))
  | trans {a b c : VEntries} : VEPerm a b → VEPerm b c → VEPerm a c
end


/-- List-level version of `encodePairs`. -/
def encPairsL : List (List Nat × Value) → Except Err (List (List Nat × List Nat))
  | [] => .ok []
  | p :: t =>
    match encodeItem p.2 with
    | .ok b =>
      match encPairsL t with
      | .ok rest => .ok ((p.1, b) :: rest)
      | .error e => .error e
    | .error e => .error e


/-- The encoded bytes of a value, defaulting to `[]` (used only where
success is known). -/
def encBytesOf (p : List Nat × Value) : List Nat × List Nat :=
  (p.1, (encodeItem p.2).toOption.getD [])


/-! ## The round-trip theorem

Decoding an encoding of a valid value yields its canonicalisation and
consumes exactly the encoded bytes. -/

/-- The round-trip property of a single value at any depth within the cap. -/
def ItemRT (v : Value) : Prop :=
  ∀ bs d fuel rest, validV v = true → encodeItem v = .ok bs →
    d + vDepth v ≤ maxDepth → 2 * bs.length + 1 ≤ fuel →
    decodeCore fuel (.item d) (bs ++ rest) = .ok (.one (canon v), rest)


/-- The previous-key constraint threaded through map-entry decoding. -/
def PrevOk (prev : Option (List Nat)) (l : List (List Nat × Value)) : Prop :=
  match prev, l with
  | some pk, p :: _ => keyLtB pk p.1 = true
  | _, _ => True


/-! ## Deep nesting: the recursion cap -/

/-- The `n`-fold nested singleton list `[[[…[]…]]]`. -/
def nestValue : Nat → Value
  | 0 => .vlist .nil
  | n + 1 => .vlist (.cons (nestValue n) .nil)

/-- Its DAG-CBOR encoding: `n` bytes `0x81` followed by `0x80`. -/
def nestBytes (n : Nat) : List Nat := List.replicate n 0x81 ++ [0x80]


/-- The `n`-fold nested singleton map `{"a": {"a": … {}}}`. -/
def mapNestBytes : Nat → List Nat
  | 0 => [0xA0]
  | n + 1 => 0xA1 :: 0x61 :: 0x61 :: mapNestBytes n


/-- The witness map `{"aaa": 1, "x": 2}` in insertion order. -/
def c1w : Value := .vmap (.cons [0x61, 0x61, 0x61] (.vint 1) (.cons [0x78] (.vint 2) .nil))


/-! ## Multibase

Modelled from the spec (§4.2): text ⇄ bytes with a one-character code.
Bit-group bases (2, 8, 16, 32, 32hex, 64, 64url, upper and padded
variants) and big-number bases (10, 36, 58btc, 58flickr) over the
standard alphabets. -/

/-- Little-endian digits of `n` in base `b`, with structural fuel. -/
def digitsLE (b : Nat) : Nat → Nat → List Nat
  | 0, _ => []
  | fuel + 1, n => if n = 0 then [] else n % b :: digitsLE b fuel (n / b)

/-- Value of little-endian digits in base `b`. -/
def fromDigitsLE (b : Nat) (ds : List Nat) : Nat :=
  ds.foldr (fun d acc => d + b * acc) 0

/-- Big-endian bits of `n`, `w` wide. -/
def bitsBE : Nat → Nat → List Bool
  | 0, _ => []
  | w + 1, n => bitsBE w (n / 2) ++ [n % 2 == 1]

/-- Value of a big-endian bit string. -/
def valBits (l : List Bool) : Nat :=
  l.foldl (fun a b => 2 * a + (if b then 1 else 0)) 0

/-- Split into chunks of `k` bits; the last chunk may be short. -/
def toChunksAux (k : Nat) : Nat → List Bool → List (List Bool)
  | 0, _ => []
  | fuel + 1, l =>
    match l with
    | [] => []
    | _ :: _ => l.take k :: toChunksAux k fuel (l.drop k)

def toChunks (k : Nat) (l : List Bool) : List (List Bool) :=
  toChunksAux k l.length l

/-- Index of a character in an alphabet. -/
def charIdx : List Char → Char → Option Nat
  | [], _ => none
  | a :: r, c => if a = c then some 0 else (charIdx r c).map (· + 1)

/-- Indices of all characters, failing on a foreign character. -/
def mapIdx (alpha : List Char) : List Char → Option (List Nat)
  | [] => some []
  | c :: r =>
    match charIdx alpha c, mapIdx alpha r with
    | some i, some t => some (i :: t)
    | _, _ => none

/-- Count of leading zeros. -/
def countLeadZeros : List Nat → Nat
  | [] => 0
  | d :: r => if d = 0 then countLeadZeros r + 1 else 0

def alphaB2 : List Char := "01".data
def alphaB8 : List Char := "01234567".data
def alphaB10 : List Char := "0123456789".data
def alphaB16 : List Char := "0123456789abcdef".data
def alphaB16U : List Char := "0123456789ABCDEF".data
def alphaB32 : List Char := "abcdefghijklmnopqrstuvwxyz234567".data
def alphaB32U : List Char := "ABCDEFGHIJKLMNOPQRSTUVWXYZ234567".data
def alphaB32Hex : List Char := "0123456789abcdefghijklmnopqrstuv".data
def alphaB32HexU : List Char := "0123456789ABCDEFGHIJKLMNOPQRSTUV".data
def alphaB36 : List Char := "0123456789abcdefghijklmnopqrstuvwxyz".data
def alphaB36U : List Char := "0123456789ABCDEFGHIJKLMNOPQRSTUVWXYZ".data
def alphaB58 : List Char :=
  "123456789ABCDEFGHJKLMNPQRSTUVWXYZabcdefghijkmnopqrstuvwxyz".data
def alphaB58F : List Char :=
  "123456789abcdefghijkmnopqrstuvwxyzABCDEFGHJKLMNPQRSTUVWXYZ".data
def alphaB64 : List Char :=
  "ABCDEFGHIJKLMNOPQRSTUVWXYZabcdefghijklmnopqrstuvwxyz0123456789+/".data
def alphaB64Url : List Char :=
  "ABCDEFGHIJKLMNOPQRSTUVWXYZabcdefghijklmnopqrstuvwxyz0123456789-_".data

/-- Encode bytes in a bit-group base of group size `gs` (no padding). -/
def encodeBits (gs : Nat) (alpha : List Char) (bytes : List Nat) : List Char :=
  let bits := bytes.flatMap (bitsBE 8)
  (toChunks gs bits).map
    (fun c => alpha.getD (valBits (c ++ List.replicate (gs - c.length) false)) ' ')

/-- Decode a bit-group base: all characters in the alphabet, leftover
bits fewer than one group and all zero (strict RFC 4648 semantics). -/
def decodeBits (gs : Nat) (alpha : List Char) (cs : List Char) : Except Err (List Nat) :=
  match mapIdx alpha cs with
  | none => .error .invalidBaseString
  | some ds =>
    let bits := ds.flatMap (bitsBE gs)
    let used := bits.take (bits.length / 8 * 8)
    let leftover := bits.drop (bits.length / 8 * 8)
    if gs ≤ leftover.length || leftover.any (fun b => b) then .error .invalidBaseString
    else .ok ((toChunks 8 used).map valBits)

/-- Encode bytes in a big-number base (leading zero bytes become the
zero character). -/
def bignumEncode (base : Nat) (alpha : List Char) (bytes : List Nat) : List Char :=
  let z := countLeadZeros bytes
  let core := bytes.drop z
  let n := fromDigitsLE 256 core.reverse
  List.replicate z (alpha.getD 0 ' ') ++
    ((digitsLE base (8 * core.length) n).reverse.map (fun d => alpha.getD d ' '))

/-- Decode a big-number base. -/
def bignumDecode (base : Nat) (alpha : List Char) (cs : List Char) :
    Except Err (List Nat) :=
  match mapIdx alpha cs with
  | none => .error .invalidBaseString
  | some ds =>
    let z := countLeadZeros ds
    let core := ds.drop z
    let n := fromDigitsLE base core.reverse
    .ok (List.replicate z 0 ++ (digitsLE 256 core.length n).reverse)

/-- Strip and validate `=` padding for padded variants: quantum `q`
characters. -/
def stripPad (q : Nat) (cs : List Char) : Except Err (List Char) :=
  let padCount := (cs.reverse.takeWhile (fun c => c = '=')).length
  let core := cs.take (cs.length - padCount)
  if (core.length + padCount) % q = 0 then .ok core else .error .invalidBaseString

/-- A multibase base: bit-group (with or without `=` padding to a
quantum) or big-number positional. -/
inductive BaseDef where
  | bits (gs : Nat) (alpha : List Char)
  | bitsPad (gs q : Nat) (alpha : List Char)
  | big (base : Nat) (alpha : List Char)

/-- The recognised base codes (per the multibase table). -/
def baseSpec (c : Char) : Option BaseDef :=
  if c = '0' then some (.bits 1 alphaB2)
  else if c = '7' then some (.bits 3 alphaB8)
  else if c = '9' then some (.big 10 alphaB10)
  else if c = 'f' then some (.bits 4 alphaB16)
  else if c = 'F' then some (.bits 4 alphaB16U)
  else if c = 'b' then some (.bits 5 alphaB32)
  else if c = 'B' then some (.bits 5 alphaB32U)
  else if c = 'c' then some (.bitsPad 5 8 alphaB32)
  else if c = 'C' then some (.bitsPad 5 8 alphaB32U)
  else if c = 'v' then some (.bits 5 alphaB32Hex)
  else if c = 'V' then some (.bits 5 alphaB32HexU)
  else if c = 't' then some (.bitsPad 5 8 alphaB32Hex)
  else if c = 'T' then some (.bitsPad 5 8 alphaB32HexU)
  else if c = 'k' then some (.big 36 alphaB36)
  else if c = 'K' then some (.big 36 alphaB36U)
  else if c = 'z' then some (.big 58 alphaB58)
  else if c = 'Z' then some (.big 58 alphaB58F)
  else if c = 'm' then some (.bits 6 alphaB64)
  else if c = 'M' then some (.bitsPad 6 4 alphaB64)
  else if c = 'u' then some (.bits 6 alphaB64Url)
  else if c = 'U' then some (.bitsPad 6 4 alphaB64Url)
  else none

/-- Decode a multibase body in a given base. -/
def decodeBody : BaseDef → List Char → Except Err (List Nat)
  | .bits gs alpha, body => decodeBits gs alpha body
  | .bitsPad gs q alpha, body =>
    (stripPad q body).bind (fun core => decodeBits gs alpha core)
  | .big base alpha, body => bignumDecode base alpha body

/-- Pad a bit-group encoding with `=` to a multiple of `q` characters. -/
def withPad (q : Nat) (cs : List Char) : List Char :=
  cs ++ List.replicate ((q - cs.length % q) % q) '='

/-- Encode a multibase body in a given base. -/
def encodeBody : BaseDef → List Nat → List Char
  | .bits gs alpha, bytes => encodeBits gs alpha bytes
  | .bitsPad gs q alpha, bytes => withPad q (encodeBits gs alpha bytes)
  | .big base alpha, bytes => bignumEncode base alpha bytes

/-- `decode_multibase`: the first character selects the base. -/
def decodeMultibase (s : String) : Except Err (Char × List Nat) :=
  match s.data with
  | [] => .error .unknownBaseCode
  | c :: body =>
    match baseSpec c with
    | none => .error .unknownBaseCode
    | some bd => (decodeBody bd body).map (fun bs => (c, bs))

/-- The body (without the code character) of a multibase encoding. -/
def encodeMultibaseBody (c : Char) (bytes : List Nat) : Except Err (List Char) :=
  match baseSpec c with
  | none => .error .unknownBaseCode
  | some bd => .ok (encodeBody bd bytes)

/-- Input to `encode_multibase` (text or byte sequence; any other host
type is UnsupportedDataType, outside this model). -/
inductive MbData where
  | text (s : String)
  | bytes (bs : List Nat)

/-- `encode_multibase`: encode text (via its UTF-8 code units, returned
verbatim if already carrying the requested code) or bytes. -/
def encodeMultibase (code : Char) (data : MbData) : Except Err String :=
  match data with
  | .text s =>
    match s.data with
    | c :: _ =>
      if c = code then .ok s
      else (encodeMultibaseBody code (asciiBytes s)).map fun body => ⟨code :: body⟩
    | [] => (encodeMultibaseBody code []).map fun body => ⟨code :: body⟩
  | .bytes bs => (encodeMultibaseBody code bs).map fun body => ⟨code :: body⟩

/-- A string is valid multibase text when `decode_multibase` accepts it. -/
def validMultibase (s : String) : Bool := (decodeMultibase s).toOption.isSome

/-! ## CID text encoding and decoding

Modelled from the spec (§4.3). -/

/-- Render a CID as text: CIDv0 as bare base58btc of its multihash,
otherwise base32-lowercase multibase of the binary CID. -/
def renderCid (c : Cid) : String :=
  if c.version == 0 then ⟨bignumEncode 58 alphaB58 c.mhBytes⟩
  else ⟨'b' :: encodeBits 5 alphaB32 c.binary⟩

/-- `decode_cid` on text. -/
def decodeCidText (s : String) : Except Err Cid :=
  if s.data.length == 46 && s.data.take 2 == ['Q', 'm'] then
    match bignumDecode 58 alphaB58 s.data with
    | .error e => .error e
    | .ok bs => decodeCidBytes bs
  else
    match decodeMultibase s with
    | .error e => .error e
    | .ok (_, bs) => decodeCidBytes bs

/-- Input to `decode_cid` / `encode_cid`. -/
inductive CidInput where
  | text (s : String)
  | bytes (bs : List Nat)

/-- `decode_cid`. -/
def decode_cid : CidInput → Except Err Cid
  | .text s => decodeCidText s
  | .bytes bs => decodeCidBytes bs

/-- `encode_cid`: valid multibase text is returned verbatim; otherwise
the input is decoded and rendered. -/
def encode_cid : CidInput → Except Err String
  | .text s =>
    if validMultibase s then .ok s
    else
      match decodeCidText s with
      | .error e => .error e
      | .ok c => .ok (renderCid c)
  | .bytes bs =>
    match decodeCidBytes bs with
    | .error e => .error e
    | .ok c => .ok (renderCid c)

/-! ## The packaged binding surface

From `src/python/libipld/__init__.py`: the names the packaged Python
binding re-exports (its `__all__`). -/

def libipld_all : List String :=
  ["decode_cid", "encode_cid", "decode_car", "decode_dag_cbor", "decode_dag_cbor_multi"]

/-- The nine public operations named by the spec (§6 table). -/
def specPublicOperations : List String :=
  ["decode_cid", "encode_cid", "encode_multibase", "decode_multibase",
   "decode_dag_cbor", "decode_dag_cbor_multi", "encode_dag_cbor",
   "decode_car", "decode_car_tuple"]


/-- Structural facts about any successfully parsed CID over byte input. -/
def WfCid (c : Cid) : Prop :=
  (∀ x ∈ c.digest, x < 256) ∧ c.digest.length = c.hsize ∧
  c.codec < 2 ^ 64 ∧ c.hcode < 2 ^ 64 ∧ c.hsize < 2 ^ 64 ∧
  (c.version = 0 ∧ c.codec = 0x70 ∧ c.hcode = 0x12 ∧ c.hsize = 32 ∨
   c.version = 1 ∧ c.hsize ≤ 64)


/-- Inputs whose byte content is made of genuine bytes. -/
def WfCidInput : CidInput → Prop
  | .text _ => True
  | .bytes bs => ∀ x ∈ bs, x < 256


/-- The raw binary CIDv1 from the repository test `test_cid_decode_raw`. -/
def c9raw : List Nat :=
  [1, 113, 18, 32, 182, 129, 26, 29, 127, 140, 23, 145, 218, 109, 27, 79, 19, 109,
   192, 226, 38, 121, 234, 254, 170, 88, 214, 77, 126, 47, 170, 213, 137, 14, 157, 156]

/-- The CID parsed from `c9raw`. -/
def c9cid : Cid :=
  ⟨1, 113, 18, 32,
   [182, 129, 26, 29, 127, 140, 23, 145, 218, 109, 27, 79, 19, 109, 192, 226, 38,
    121, 234, 254, 170, 88, 214, 77, 126, 47, 170, 213, 137, 14, 157, 156]⟩

/-- A 34-byte raw CIDv0 (SHA-256 multihash header and a constant digest). -/
def c9v0 : List Nat := 18 :: 32 :: List.replicate 32 0xAA

/-- The CID parsed from `c9v0`. -/
def c9v0cid : Cid := ⟨0, 0x70, 0x12, 32, List.replicate 32 0xAA⟩


/-! ## Byte-level lemmas -/

theorem beBytes_length (k n : Nat) : (beBytes k n).length = k := by
  induction k generalizing n with
  | zero => rfl
  | succ k ih => simp [beBytes, ih]

theorem beVal_beBytes (k n : Nat) (h : n < 256 ^ k) : beVal (beBytes k n) = n := by
  induction k generalizing n with
  | zero =>
    simp only [Nat.pow_zero, Nat.lt_one_iff] at h
    simp [beBytes, beVal, h]
  | succ k ih =>
    have hdiv : n / 256 < 256 ^ k := by
      rw [Nat.div_lt_iff_lt_mul (by norm_num)]
      calc n < 256 ^ (k + 1) := h
        _ = 256 ^ k * 256 := by ring
    simp only [beBytes, beVal, List.foldl_append, List.foldl_cons, List.foldl_nil]
    have := ih (n / 256) hdiv
    simp only [beVal] at this
    omega

theorem takeN_exact (pre post : List Nat) : takeN pre.length (pre ++ post) = some (pre, post) := by
  simp [takeN, List.take_left, List.drop_left]

theorem takeN_of_length (k : Nat) (pre post : List Nat) (h : pre.length = k) :
    takeN k (pre ++ post) = some (pre, post) := by
  subst h; exact takeN_exact pre post

theorem readBE_beBytes (k n : Nat) (rest : List Nat) (h : n < 256 ^ k) :
    readBE k (beBytes k n ++ rest) = .ok (n, rest) := by
  simp [readBE, takeN_of_length k _ _ (beBytes_length k n), beVal_beBytes k n h]

/-- Decoding the head written by `encodeHead`: the head byte recovers the
major type, and `readArg` recovers the argument. -/
theorem encodeHead_spec (major n : Nat) (hm : major ≤ 7) (hn : n < 2 ^ 64) :
    ∃ b tail, encodeHead major n = b :: tail ∧ b < 256 ∧ b / 32 = major ∧
      ∀ rest, readArg (b % 32) (tail ++ rest) = .ok (n, rest) := by
  unfold encodeHead
  by_cases h1 : n < 24
  · refine ⟨major * 32 + n, [], by simp [h1], by omega, by omega, fun rest => ?_⟩
    have : (major * 32 + n) % 32 = n := by omega
    simp [readArg, this, h1]
  · by_cases h2 : n < 256
    · refine ⟨major * 32 + 24, [n], by simp [h1, h2], by omega, by omega, fun rest => ?_⟩
      have hmod : (major * 32 + 24) % 32 = 24 := by omega
      simp [readArg, hmod, readBE, takeN, beVal]
    · by_cases h3 : n < 65536
      · refine ⟨major * 32 + 25, beBytes 2 n, by simp [h1, h2, h3], by omega, by omega,
          fun rest => ?_⟩
        have hmod : (major * 32 + 25) % 32 = 25 := by omega
        simp only [readArg, hmod]
        norm_num
        exact readBE_beBytes 2 n rest (by norm_num at h3 ⊢; omega)
      · by_cases h4 : n < 4294967296
        · refine ⟨major * 32 + 26, beBytes 4 n, by simp [h1, h2, h3, h4], by omega, by omega,
            fun rest => ?_⟩
          have hmod : (major * 32 + 26) % 32 = 26 := by omega
          simp only [readArg, hmod]
          norm_num
          exact readBE_beBytes 4 n rest (by norm_num at h4 ⊢; omega)
        · refine ⟨major * 32 + 27, beBytes 8 n, by simp [h1, h2, h3, h4], by omega, by omega,
            fun rest => ?_⟩
          have hmod : (major * 32 + 27) % 32 = 27 := by omega
          simp only [readArg, hmod]
          norm_num
          exact readBE_beBytes 8 n rest (by norm_num at hn ⊢; omega)

theorem beVal_acc (l : List Nat) (a : Nat) :
    l.foldl (fun x b => x * 256 + b) a = a * 256 ^ l.length + beVal l := by
  induction l generalizing a with
  | nil => simp [beVal]
  | cons x t ih =>
    have hx : beVal (x :: t) = x * 256 ^ t.length + beVal t := by
      show List.foldl _ (0 * 256 + x) t = _
      rw [ih (0 * 256 + x)]; ring_nf
    simp only [List.foldl_cons, List.length_cons]
    rw [ih (a * 256 + x), hx]; ring

theorem beVal_lt (l : List Nat) (h : ∀ b ∈ l, b < 256) : beVal l < 256 ^ l.length := by
  induction l with
  | nil => simp [beVal]
  | cons x t ih =>
    have hx : beVal (x :: t) = x * 256 ^ t.length + beVal t := by
      show List.foldl _ (0 * 256 + x) t = _
      rw [beVal_acc]; ring_nf
    rw [hx]
    have h1 : x < 256 := h x (by simp)
    have h2 : beVal t < 256 ^ t.length := ih (fun b hb => h b (by simp [hb]))
    have : x * 256 ^ t.length + beVal t < (x + 1) * 256 ^ t.length := by
      have hp : 0 < 256 ^ t.length := Nat.pos_pow_of_pos t.length (by norm_num)
      nlinarith
    calc x * 256 ^ t.length + beVal t < (x + 1) * 256 ^ t.length := this
      _ ≤ 256 * 256 ^ t.length := by
        have : x + 1 ≤ 256 := by omega
        exact Nat.mul_le_mul_right _ this
      _ = 256 ^ (x :: t).length := by rw [List.length_cons, pow_succ]; ring

theorem readBE_bound (k : Nat) (l r : List Nat) (n : Nat)
    (hl : ∀ b ∈ l, b < 256) (h : readBE k l = .ok (n, r)) : n < 256 ^ k := by
  unfold readBE at h
  cases htk : takeN k l with
  | none => simp [htk] at h
  | some pr =>
    obtain ⟨pre, post⟩ := pr
    simp only [htk] at h
    cases h
    unfold takeN at htk
    by_cases hle : k ≤ l.length
    · simp only [if_pos hle, Option.some.injEq, Prod.mk.injEq] at htk
      obtain ⟨hpre, _⟩ := htk
      have hlen : pre.length = k := by
        rw [← hpre]; simp [List.length_take]; omega
      have : beVal pre < 256 ^ pre.length :=
        beVal_lt pre (fun b hb => hl b (by rw [← hpre] at hb; exact List.mem_of_mem_take hb))
      rw [hlen] at this; exact this
    · simp [hle] at htk

/-- `readArg` yields arguments below `2^64` whenever the input bytes are
real bytes. -/
theorem readArg_lt (info : Nat) (l r : List Nat) (n : Nat) (hinfo : info < 32)
    (hl : ∀ b ∈ l, b < 256) (h : readArg info l = .ok (n, r)) : n < 2 ^ 64 := by
  unfold readArg at h
  by_cases h1 : info < 24
  · simp [h1] at h; omega
  · by_cases h2 : info = 24
    · simp only [h1, if_false, h2, if_pos rfl] at h
      have := readBE_bound 1 l r n hl (by simpa using h)
      calc n < 256 ^ 1 := this
        _ ≤ 2 ^ 64 := by norm_num
    · by_cases h3 : info = 25
      · simp only [h1, if_false, h2, h3] at h
        norm_num at h
        have := readBE_bound 2 l r n hl h
        calc n < 256 ^ 2 := this
          _ ≤ 2 ^ 64 := by norm_num
      · by_cases h4 : info = 26
        · simp only [h1, if_false, h2, h3, h4] at h
          norm_num at h
          have := readBE_bound 4 l r n hl h
          calc n < 256 ^ 4 := this
            _ ≤ 2 ^ 64 := by norm_num
        · by_cases h5 : info = 27
          · simp only [h1, if_false, h2, h3, h4, h5] at h
            norm_num at h
            have := readBE_bound 8 l r n hl h
            calc n < 256 ^ 8 := this
              _ ≤ 2 ^ 64 := by norm_num
          · simp [h1, h2, h3, h4, h5] at h

/-! ## Canonical key order: order-theoretic lemmas -/

theorem lexLtB_irrefl (a : List Nat) : lexLtB a a = false := by
  induction a with
  | nil => rfl
  | cons x t ih => simp [lexLtB, ih]

theorem lexLtB_trans (a b c : List Nat) (hab : lexLtB a b = true) (hbc : lexLtB b c = true) :
    lexLtB a c = true := by
  induction a generalizing b c with
  | nil =>
    cases b with
    | nil => simp [lexLtB] at hab
    | cons y bt =>
      cases c with
      | nil => simp [lexLtB] at hbc
      | cons z ct => simp [lexLtB]
  | cons x at_ ih =>
    cases b with
    | nil => simp [lexLtB] at hab
    | cons y bt =>
      cases c with
      | nil => simp [lexLtB] at hbc
      | cons z ct =>
        simp only [lexLtB, Bool.or_eq_true, Bool.and_eq_true, beq_iff_eq,
          decide_eq_true_eq] at hab hbc ⊢
        rcases hab with h1 | ⟨h1, h2⟩
        · rcases hbc with h3 | ⟨h3, h4⟩
          · exact Or.inl (lt_trans h1 h3)
          · exact Or.inl (h3 ▸ h1)
        · rcases hbc with h3 | ⟨h3, h4⟩
          · exact Or.inl (h1 ▸ h3)
          · exact Or.inr ⟨h1.trans h3, ih bt ct h2 h4⟩

theorem lexLtB_asymm (a b : List Nat) (hab : lexLtB a b = true) : lexLtB b a = false := by
  by_contra h
  have h2 : lexLtB b a = true := by
    revert h; cases hba : lexLtB b a <;> simp
  have h3 := lexLtB_trans a b a hab h2
  rw [lexLtB_irrefl] at h3
  exact Bool.false_ne_true h3

theorem lexLtB_total (a b : List Nat) (hne : a ≠ b) :
    lexLtB a b = true ∨ lexLtB b a = true := by
  induction a generalizing b with
  | nil =>
    cases b with
    | nil => exact absurd rfl hne
    | cons y bt => exact Or.inl (by simp [lexLtB])
  | cons x at_ ih =>
    cases b with
    | nil => exact Or.inr (by simp [lexLtB])
    | cons y bt =>
      by_cases hxy : x = y
      · subst hxy
        have hne2 : at_ ≠ bt := by intro h; exact hne (by rw [h])
        rcases ih bt hne2 with h | h
        · exact Or.inl (by simp [lexLtB, h])
        · exact Or.inr (by simp [lexLtB, h])
      · rcases Nat.lt_or_ge x y with h | h
        · exact Or.inl (by simp [lexLtB]; omega)
        · exact Or.inr (by simp [lexLtB]; omega)

theorem keyLtB_irrefl (a : List Nat) : keyLtB a a = false := by
  simp [keyLtB, lexLtB_irrefl]

theorem keyLtB_trans (a b c : List Nat) (hab : keyLtB a b = true) (hbc : keyLtB b c = true) :
    keyLtB a c = true := by
  simp only [keyLtB, Bool.or_eq_true, Bool.and_eq_true, beq_iff_eq,
    decide_eq_true_eq] at hab hbc ⊢
  rcases hab with h1 | ⟨h1, h2⟩
  · rcases hbc with h3 | ⟨h3, h4⟩
    · exact Or.inl (lt_trans h1 h3)
    · exact Or.inl (h3 ▸ h1)
  · rcases hbc with h3 | ⟨h3, h4⟩
    · exact Or.inl (h1 ▸ h3)
    · exact Or.inr ⟨h1.trans h3, lexLtB_trans a b c h2 h4⟩

theorem keyLtB_asymm (a b : List Nat) (hab : keyLtB a b = true) : keyLtB b a = false := by
  by_contra h
  have h2 : keyLtB b a = true := by
    revert h; cases hba : keyLtB b a <;> simp
  have h3 := keyLtB_trans a b a hab h2
  rw [keyLtB_irrefl] at h3
  exact Bool.false_ne_true h3

theorem keyLtB_total (a b : List Nat) (hne : a ≠ b) :
    keyLtB a b = true ∨ keyLtB b a = true := by
  by_cases hlen : a.length = b.length
  · rcases lexLtB_total a b hne with h | h
    · exact Or.inl (by simp [keyLtB, hlen, h])
    · exact Or.inr (by simp [keyLtB, hlen, h])
  · rcases Nat.lt_or_ge a.length b.length with h | h
    · exact Or.inl (by simp [keyLtB, h])
    · exact Or.inr (by simp [keyLtB]; omega)

instance {α : Type} : IsTrans (List Nat × α) pairKeyLe where
  trans := by
    intro p q s hpq hqs
    unfold pairKeyLe at *
    by_cases h : keyLtB s.1 p.1 = true
    · exfalso
      by_cases hqp : q.1 = p.1
      · rw [hqp] at hqs
        rw [h] at hqs
        simp at hqs
      · rcases keyLtB_total q.1 p.1 hqp with h2 | h2
        · rw [h2] at hpq
          simp at hpq
        · have h3 := keyLtB_trans s.1 p.1 q.1 h h2
          rw [h3] at hqs
          simp at hqs
    · exact Bool.eq_false_iff.mpr h

instance {α : Type} : IsTotal (List Nat × α) pairKeyLe where
  total := by
    intro p q
    unfold pairKeyLe
    by_cases h : q.1 = p.1
    · left; rw [h]; exact keyLtB_irrefl p.1
    · rcases keyLtB_total q.1 p.1 h with h2 | h2
      · right; exact keyLtB_asymm q.1 p.1 h2
      · left; exact keyLtB_asymm p.1 q.1 h2

instance {α : Type} : IsAntisymm (List Nat × α) pairKeyLt where
  antisymm := by
    intro p q hpq hqp
    exfalso
    have h := keyLtB_asymm p.1 q.1 hpq
    rw [hqp] at h
    simp at h

/-- A canonically sorted pair list with distinct keys is strictly sorted. -/
theorem sorted_strict_of_nodup {α : Type} (l : List (List Nat × α))
    (hs : List.Sorted pairKeyLe l) (hnd : (l.map Prod.fst).Nodup) :
    List.Sorted pairKeyLt l := by
  have hnd2 : List.Pairwise (fun p q : List Nat × α => p.1 ≠ q.1) l :=
    List.pairwise_map.mp hnd
  have hboth := List.Pairwise.and hs hnd2
  refine hboth.imp ?_
  intro p q hpq
  obtain ⟨hle, hne⟩ := hpq
  unfold pairKeyLe at hle
  unfold pairKeyLt
  rcases keyLtB_total p.1 q.1 hne with h | h
  · exact h
  · rw [h] at hle; simp at hle

/-- Two strictly sorted permutations of each other are equal. -/
theorem sorted_perm_eq {α : Type} (l₁ l₂ : List (List Nat × α)) (hp : l₁.Perm l₂)
    (h₁ : List.Sorted pairKeyLt l₁) (h₂ : List.Sorted pairKeyLt l₂) : l₁ = l₂ :=
  List.eq_of_perm_of_sorted hp h₁ h₂

/-- `orderedInsert` by key commutes with re-tagging the values. -/
theorem orderedInsert_keyed {α β : Type} (f : List Nat × α → β) (a : List Nat × α)
    (l : List (List Nat × α)) :
    List.orderedInsert pairKeyLe (a.1, f a) (l.map (fun p => (p.1, f p))) =
      (List.orderedInsert pairKeyLe a l).map (fun p => (p.1, f p)) := by
  induction l with
  | nil => rfl
  | cons b t ih =>
    by_cases h : pairKeyLe a b
    · have h2 : pairKeyLe ((a.1, f a) : List Nat × β) (b.1, f b) := h
      simp only [List.map_cons, List.orderedInsert, if_pos h, if_pos h2, List.map_cons]
    · have h2 : ¬ pairKeyLe ((a.1, f a) : List Nat × β) (b.1, f b) := h
      simp only [List.map_cons, List.orderedInsert, if_neg h, if_neg h2, List.map_cons, ih]

/-- `insertionSort` by key commutes with re-tagging the values. -/
theorem insertionSort_keyed {α β : Type} (f : List Nat × α → β) (l : List (List Nat × α)) :
    List.insertionSort pairKeyLe (l.map (fun p => (p.1, f p))) =
      (List.insertionSort pairKeyLe l).map (fun p => (p.1, f p)) := by
  induction l with
  | nil => rfl
  | cons a t ih =>
    simp only [List.map_cons, List.insertionSort, ih]
    exact orderedInsert_keyed f a (List.insertionSort pairKeyLe t)

/-- Reflexivity of `VEq` (established by strong induction on size). -/
theorem vEq_refl_aux (n : Nat) :
    (∀ v : Value, sizeOf v ≤ n → VEq v v) ∧
    (∀ xs : VList, sizeOf xs ≤ n → VLEq xs xs) ∧
    (∀ kvs : VEntries, sizeOf kvs ≤ n → VEPerm kvs kvs) := by
  induction n with
  | zero =>
    refine ⟨fun v hv => ?_, fun xs hx => ?_, fun kvs hk => ?_⟩
    · cases v <;> simp at hv
    · cases xs <;> simp at hx
    · cases kvs <;> simp at hk
  | succ n ih =>
    obtain ⟨ihv, ihl, ihe⟩ := ih
    refine ⟨fun v hv => ?_, fun xs hx => ?_, fun kvs hk => ?_⟩
    · cases v with
      | vlist xs =>
        refine VEq.vlist (ihl xs ?_)
        simp at hv; omega
      | vmap kvs =>
        refine VEq.vmap (ihe kvs ?_)
        simp at hv; omega
      | vnull => exact VEq.vnull
      | vbool b => exact VEq.vbool b
      | vint i => exact VEq.vint i
      | vfloat bits => exact VEq.vfloat bits
      | vbytes bs => exact VEq.vbytes bs
      | vstr s => exact VEq.vstr s
      | vlink cid => exact VEq.vlink cid
    · cases xs with
      | nil => exact VLEq.nil
      | cons v r =>
        simp at hx
        exact VLEq.cons (ihv v (by omega)) (ihl r (by omega))
    · cases kvs with
      | nil => exact VEPerm.nil
      | cons k v r =>
        simp at hk
        exact VEPerm.cons (ihv v (by omega)) (ihe r (by omega))

theorem vEq_refl (v : Value) : VEq v v :=
  (vEq_refl_aux (sizeOf v)).1 v le_rfl

theorem vePerm_refl (kvs : VEntries) : VEPerm kvs kvs :=
  (vEq_refl_aux (sizeOf kvs)).2.2 kvs le_rfl

/-- A `List.Perm` of entry lists lifts to `VEPerm` of the corresponding
`VEntries`. -/
theorem vePerm_of_perm (l₁ l₂ : List (List Nat × Value)) (h : l₁.Perm l₂) :
    VEPerm (entriesOfList l₁) (entriesOfList l₂) := by
  induction h with
  | nil => exact VEPerm.nil
  | cons p _ ih =>
    obtain ⟨k, v⟩ := p
    exact VEPerm.cons (vEq_refl v) ih
  | swap p q _ =>
    obtain ⟨k₁, v₁⟩ := p
    obtain ⟨k₂, v₂⟩ := q
    exact VEPerm.swap k₂ k₁ v₂ v₁ _
  | trans _ _ ih₁ ih₂ => exact VEPerm.trans ih₁ ih₂

theorem entriesOfList_toList : ∀ kvs : VEntries, entriesOfList kvs.toList = kvs
  | .nil => rfl
  | .cons k v r => by simp [VEntries.toList, entriesOfList, entriesOfList_toList r]

theorem toList_entriesOfList (l : List (List Nat × Value)) :
    (entriesOfList l).toList = l := by
  induction l with
  | nil => rfl
  | cons p r ih =>
    obtain ⟨k, v⟩ := p
    simp [VEntries.toList, entriesOfList, ih]

theorem canonPairs_eq_map : ∀ kvs : VEntries,
    canonPairs kvs = kvs.toList.map (fun p => (p.1, canon p.2))
  | .nil => rfl
  | .cons k v r => by simp [canonPairs, VEntries.toList, canonPairs_eq_map r]

/-- `canon` only reorders map entries: the result is `VEq` to the input. -/
theorem canon_vEq_aux (n : Nat) :
    (∀ v : Value, sizeOf v ≤ n → VEq (canon v) v) ∧
    (∀ xs : VList, sizeOf xs ≤ n → VLEq (canonL xs) xs) ∧
    (∀ kvs : VEntries, sizeOf kvs ≤ n →
      VEPerm (entriesOfList (canonPairs kvs)) kvs) := by
  induction n with
  | zero =>
    refine ⟨fun v hv => ?_, fun xs hx => ?_, fun kvs hk => ?_⟩
    · cases v <;> simp at hv
    · cases xs <;> simp at hx
    · cases kvs <;> simp at hk
  | succ n ih =>
    obtain ⟨ihv, ihl, ihe⟩ := ih
    refine ⟨fun v hv => ?_, fun xs hx => ?_, fun kvs hk => ?_⟩
    · cases v with
      | vlist xs =>
        simp at hv
        exact VEq.vlist (ihl xs (by omega))
      | vmap kvs =>
        simp at hv
        refine VEq.vmap (VEPerm.trans ?_ (ihe kvs (by omega)))
        exact vePerm_of_perm _ _ (List.perm_insertionSort pairKeyLe (canonPairs kvs))
      | vnull => exact VEq.vnull
      | vbool b => exact VEq.vbool b
      | vint i => exact VEq.vint i
      | vfloat bits => exact VEq.vfloat bits
      | vbytes bs => exact VEq.vbytes bs
      | vstr s => exact VEq.vstr s
      | vlink cid => exact VEq.vlink cid
    · cases xs with
      | nil => exact VLEq.nil
      | cons v r =>
        simp at hx
        exact VLEq.cons (ihv v (by omega)) (ihl r (by omega))
    · cases kvs with
      | nil => exact VEPerm.nil
      | cons k v r =>
        simp at hk
        exact VEPerm.cons (ihv v (by omega)) (ihe r (by omega))

theorem canon_vEq (v : Value) : VEq (canon v) v :=
  (canon_vEq_aux (sizeOf v)).1 v le_rfl

/-! ## Supporting lemmas for the round-trip proof -/

theorem sizeOf_mem_vlist : ∀ (xs : VList) (w : Value), w ∈ xs.toList → sizeOf w < sizeOf xs
  | .nil, w, h => by simp [VList.toList] at h
  | .cons v r, w, h => by
    simp only [VList.toList, List.mem_cons] at h
    rcases h with h | h
    · subst h; simp; omega
    · have := sizeOf_mem_vlist r w h
      simp; omega

theorem sizeOf_mem_ventries : ∀ (kvs : VEntries) (p : List Nat × Value),
    p ∈ kvs.toList → sizeOf p.2 < sizeOf kvs
  | .nil, p, h => by simp [VEntries.toList] at h
  | .cons k v r, p, h => by
    simp only [VEntries.toList, List.mem_cons] at h
    rcases h with h | h
    · subst h; simp; omega
    · have := sizeOf_mem_ventries r p h
      simp; omega

theorem vDepth_mem_vlist : ∀ (xs : VList) (w : Value), w ∈ xs.toList → vDepth w ≤ depthL xs
  | .nil, w, h => by simp [VList.toList] at h
  | .cons v r, w, h => by
    simp only [VList.toList, List.mem_cons] at h
    rcases h with h | h
    · subst h; simp [depthL]
    · have := vDepth_mem_vlist r w h
      simp [depthL]; omega

theorem vDepth_mem_ventries : ∀ (kvs : VEntries) (p : List Nat × Value),
    p ∈ kvs.toList → vDepth p.2 ≤ depthE kvs
  | .nil, p, h => by simp [VEntries.toList] at h
  | .cons k v r, p, h => by
    simp only [VEntries.toList, List.mem_cons] at h
    rcases h with h | h
    · subst h; simp [depthE]
    · have := vDepth_mem_ventries r p h
      simp [depthE]; omega

theorem validL_mem : ∀ (xs : VList), validL xs = true → ∀ w ∈ xs.toList, validV w = true
  | .nil, _, w, h => by simp [VList.toList] at h
  | .cons v r, hv, w, h => by
    simp only [validL, Bool.and_eq_true] at hv
    simp only [VList.toList, List.mem_cons] at h
    rcases h with h | h
    · subst h; exact hv.1
    · exact validL_mem r hv.2 w h

theorem validE_mem : ∀ (kvs : VEntries), validE kvs = true →
    ∀ p ∈ kvs.toList, validV p.2 = true
  | .nil, _, p, h => by simp [VEntries.toList] at h
  | .cons k v r, hv, p, h => by
    simp only [validE, Bool.and_eq_true] at hv
    simp only [VEntries.toList, List.mem_cons] at h
    rcases h with h | h
    · subst h; exact hv.1
    · exact validE_mem r hv.2 p h

theorem keysValid_mem : ∀ (kvs : VEntries), keysValid kvs = true →
    ∀ p ∈ kvs.toList, p.1.all (· < 256) = true ∧ utf8Valid p.1 = true ∧ p.1.length < 2 ^ 64
  | .nil, _, p, h => by simp [VEntries.toList] at h
  | .cons k v r, hv, p, h => by
    simp only [keysValid, Bool.and_eq_true] at hv
    simp only [VEntries.toList, List.mem_cons] at h
    rcases h with h | h
    · subst h
      refine ⟨hv.1.1.1, hv.1.1.2, ?_⟩
      have := hv.1.2
      simpa using this
    · exact keysValid_mem r hv.2 p h

theorem keyMem_iff : ∀ (kvs : VEntries) (k : List Nat),
    keyMem k kvs = true ↔ k ∈ kvs.toList.map Prod.fst
  | .nil, k => by simp [keyMem, VEntries.toList]
  | .cons k2 v r, k => by
    simp only [keyMem, VEntries.toList, List.map_cons, List.mem_cons, Bool.or_eq_true,
      beq_iff_eq]
    rw [keyMem_iff r k]

theorem keysDistinct_nodup : ∀ (kvs : VEntries), keysDistinct kvs = true →
    (kvs.toList.map Prod.fst).Nodup
  | .nil, _ => by simp [VEntries.toList]
  | .cons k v r, hd => by
    simp only [keysDistinct, Bool.and_eq_true, Bool.not_eq_true] at hd
    simp only [VEntries.toList, List.map_cons, List.nodup_cons]
    refine ⟨?_, keysDistinct_nodup r hd.2⟩
    intro hmem
    have h1 := (keyMem_iff r k).mpr hmem
    have h2 : keyMem k r = false := by
      have := hd.1
      cases hkm : keyMem k r
      · rfl
      · rw [hkm] at this; simp at this
    rw [h1] at h2
    simp at h2

theorem encodeHead_length_pos (major n : Nat) : 1 ≤ (encodeHead major n).length := by
  unfold encodeHead
  split
  · simp
  · split
    · simp
    · split
      · simp
      · split
        · simp
        · simp

theorem encodeItem_length_pos (v : Value) (bs : List Nat)
    (henc : encodeItem v = .ok bs) : 1 ≤ bs.length := by
  cases v with
  | vnull =>
    simp only [encodeItem, Except.ok.injEq] at henc
    subst henc; simp
  | vbool b =>
    cases b <;>
      (simp only [encodeItem, Except.ok.injEq] at henc; subst henc; simp)
  | vint i =>
    simp only [encodeItem] at henc
    split at henc
    · simp at henc
    · split at henc <;>
        (simp only [Except.ok.injEq] at henc; subst henc; exact encodeHead_length_pos _ _)
  | vfloat bits =>
    simp only [encodeItem] at henc
    split at henc
    · simp at henc
    · simp only [Except.ok.injEq] at henc; subst henc; simp
  | vbytes bs2 =>
    simp only [encodeItem, Except.ok.injEq] at henc
    subst henc
    have := encodeHead_length_pos 2 bs2.length
    simp only [List.length_append]; omega
  | vstr s =>
    simp only [encodeItem, Except.ok.injEq] at henc
    subst henc
    have := encodeHead_length_pos 3 s.length
    simp only [List.length_append]; omega
  | vlist xs =>
    simp only [encodeItem] at henc
    cases h : encodeSeq xs with
    | error e => rw [h] at henc; simp at henc
    | ok body =>
      rw [h] at henc
      simp only [Except.ok.injEq] at henc
      subst henc
      have := encodeHead_length_pos 4 xs.length
      simp only [List.length_append]; omega
  | vmap kvs =>
    simp only [encodeItem] at henc
    cases h : encodePairs kvs with
    | error e => rw [h] at henc; simp at henc
    | ok pairs =>
      rw [h] at henc
      simp only [Except.ok.injEq] at henc
      subst henc
      have := encodeHead_length_pos 5 pairs.length
      simp only [List.length_append]; omega
  | vlink cid =>
    simp only [encodeItem, Except.ok.injEq] at henc
    subst henc
    have := encodeHead_length_pos 6 42
    simp only [List.length_append]; omega

theorem encodePairs_toList : ∀ kvs : VEntries, encodePairs kvs = encPairsL kvs.toList
  | .nil => rfl
  | .cons k v r => by
    simp only [encodePairs, VEntries.toList, encPairsL, encodePairs_toList r]

theorem encPairsL_eq_map : ∀ (l : List (List Nat × Value)) (wp : List (List Nat × List Nat)),
    encPairsL l = .ok wp → wp = l.map encBytesOf := by
  intro l
  induction l with
  | nil => intro wp h; simp [encPairsL] at h; simp [← h]
  | cons p t ih =>
    intro wp h
    simp only [encPairsL] at h
    cases he : encodeItem p.2 with
    | error e => rw [he] at h; simp at h
    | ok b =>
      rw [he] at h
      cases ht : encPairsL t with
      | error e => rw [ht] at h; simp at h
      | ok rest =>
        rw [ht] at h
        simp only [Except.ok.injEq] at h
        subst h
        rw [List.map_cons, ← ih rest ht]
        have : encBytesOf p = (p.1, b) := by
          unfold encBytesOf; rw [he]; rfl
        rw [this]

theorem encPairsL_mem_ok : ∀ (l : List (List Nat × Value)) (wp : List (List Nat × List Nat)),
    encPairsL l = .ok wp → ∀ p ∈ l, ∃ b, encodeItem p.2 = .ok b := by
  intro l
  induction l with
  | nil => intro wp _ p h; simp at h
  | cons q t ih =>
    intro wp h p hp
    simp only [encPairsL] at h
    cases he : encodeItem q.2 with
    | error e => rw [he] at h; simp at h
    | ok b =>
      rw [he] at h
      cases ht : encPairsL t with
      | error e => rw [ht] at h; simp at h
      | ok rest =>
        rcases List.mem_cons.mp hp with hq | hq
        · subst hq; exact ⟨b, he⟩
        · exact ih rest ht p hq

theorem encPairsL_of_mem_ok : ∀ (l : List (List Nat × Value)),
    (∀ p ∈ l, ∃ b, encodeItem p.2 = .ok b) →
    encPairsL l = .ok (l.map encBytesOf) := by
  intro l
  induction l with
  | nil => intro _; rfl
  | cons q t ih =>
    intro h
    obtain ⟨b, hb⟩ := h q (by simp)
    have hB : encBytesOf q = (q.1, b) := by
      unfold encBytesOf; rw [hb]; rfl
    simp only [encPairsL, hb, ih (fun p hp => h p (by simp [hp])), List.map_cons, hB]

/-- A valid value always encodes. -/
theorem encode_ok_aux (n : Nat) :
    (∀ v : Value, sizeOf v ≤ n → validV v = true → ∃ bs, encodeItem v = .ok bs) ∧
    (∀ xs : VList, sizeOf xs ≤ n → validL xs = true → ∃ bs, encodeSeq xs = .ok bs) ∧
    (∀ kvs : VEntries, sizeOf kvs ≤ n → validE kvs = true →
      ∃ ps, encodePairs kvs = .ok ps) := by
  induction n with
  | zero =>
    refine ⟨fun v hv => ?_, fun xs hx => ?_, fun kvs hk => ?_⟩
    · cases v <;> simp at hv
    · cases xs <;> simp at hx
    · cases kvs <;> simp at hk
  | succ n ih =>
    obtain ⟨ihv, ihl, ihe⟩ := ih
    refine ⟨fun v hsz hval => ?_, fun xs hsz hval => ?_, fun kvs hsz hval => ?_⟩
    · cases v with
      | vnull => exact ⟨_, rfl⟩
      | vbool b => cases b <;> exact ⟨_, rfl⟩
      | vint i =>
        simp only [validV, Bool.and_eq_true, decide_eq_true_eq] at hval
        unfold encodeItem
        rw [if_neg]
        · split <;> exact ⟨_, rfl⟩
        · simp only [Bool.or_eq_true, decide_eq_true_eq, not_or, not_lt]
          omega
      | vfloat bits =>
        simp only [validV, Bool.and_eq_true, decide_eq_true_eq, bne_iff_ne, ne_eq] at hval
        unfold encodeItem
        rw [if_neg]
        · exact ⟨_, rfl⟩
        · simp only [beq_iff_eq]
          exact hval.2
      | vbytes bs => exact ⟨_, rfl⟩
      | vstr s => exact ⟨_, rfl⟩
      | vlist xs =>
        simp only [validV, Bool.and_eq_true] at hval
        have hsx : sizeOf xs ≤ n := by simp at hsz; omega
        obtain ⟨body, hbody⟩ := ihl xs hsx hval.1
        exact ⟨encodeHead 4 xs.length ++ body, by simp only [encodeItem, hbody]⟩
      | vmap kvs =>
        simp only [validV, Bool.and_eq_true] at hval
        have hsk : sizeOf kvs ≤ n := by simp at hsz; omega
        obtain ⟨ps, hps⟩ := ihe kvs hsk hval.1.2
        exact ⟨encodeHead 5 ps.length ++ (List.insertionSort pairKeyLe ps).flatMap entryWire,
          by simp only [encodeItem, hps]⟩
      | vlink cid => exact ⟨_, rfl⟩
    · cases xs with
      | nil => exact ⟨[], rfl⟩
      | cons v r =>
        simp only [validL, Bool.and_eq_true] at hval
        simp only [VList.cons.sizeOf_spec] at hsz
        obtain ⟨b, hb⟩ := ihv v (by omega) hval.1
        obtain ⟨rest, hrest⟩ := ihl r (by omega) hval.2
        exact ⟨b ++ rest, by simp only [encodeSeq, hb, hrest]⟩
    · cases kvs with
      | nil => exact ⟨[], rfl⟩
      | cons k v r =>
        simp only [validE, Bool.and_eq_true] at hval
        simp only [VEntries.cons.sizeOf_spec] at hsz
        obtain ⟨b, hb⟩ := ihv v (by omega) hval.1
        obtain ⟨rest, hrest⟩ := ihe r (by omega) hval.2
        exact ⟨(k, b) :: rest, by simp only [encodePairs, hb, hrest]⟩

theorem encode_ok (v : Value) (hval : validV v = true) : ∃ bs, encodeItem v = .ok bs :=
  (encode_ok_aux (sizeOf v)).1 v le_rfl hval

theorem VList.length_cons (v : Value) (r : VList) :
    (VList.cons v r).length = r.length + 1 := by
  simp [VList.length, VList.toList]

theorem seq_rt : ∀ (xs : VList), (∀ w ∈ xs.toList, ItemRT w) →
    ∀ body d fuel rest, validL xs = true → encodeSeq xs = .ok body →
      d + depthL xs ≤ maxDepth → 2 * body.length + 2 ≤ fuel →
      decodeCore fuel (.seq d xs.length) (body ++ rest) = .ok (.many (canonL xs), rest)
  | .nil => by
    intro _ body d fuel rest _ henc _ hfuel
    simp only [encodeSeq, Except.ok.injEq] at henc
    subst henc
    cases fuel with
    | zero => omega
    | succ f =>
      simp [decodeCore, VList.length, VList.toList, canonL]
  | .cons v r => by
    intro hmem body d fuel rest hval henc hdepth hfuel
    simp only [encodeSeq] at henc
    cases hb : encodeItem v with
    | error e => rw [hb] at henc; simp at henc
    | ok b =>
      rw [hb] at henc
      cases hr : encodeSeq r with
      | error e => rw [hr] at henc; simp at henc
      | ok brest =>
        rw [hr] at henc
        simp only [Except.ok.injEq] at henc
        subst henc
        simp only [validL, Bool.and_eq_true] at hval
        simp only [depthL] at hdepth
        have hmax1 := Nat.le_max_left (vDepth v) (depthL r)
        have hmax2 := Nat.le_max_right (vDepth v) (depthL r)
        simp only [List.length_append] at hfuel
        have hbpos := encodeItem_length_pos v b hb
        cases fuel with
        | zero => omega
        | succ f =>
          have hitem : decodeCore f (.item d) (b ++ (brest ++ rest)) =
              .ok (.one (canon v), brest ++ rest) := by
            refine hmem v (by simp [VList.toList]) b d f (brest ++ rest) hval.1 hb ?_ ?_
            · omega
            · omega
          have hseq : decodeCore f (.seq d r.length) (brest ++ rest) =
              .ok (.many (canonL r), rest) := by
            refine seq_rt r (fun w hw => hmem w (by simp [VList.toList, hw])) brest d f rest
              hval.2 hr ?_ ?_
            · omega
            · omega
          rw [VList.length_cons, List.append_assoc]
          simp only [decodeCore, hitem, hseq, canonL]

theorem entries_rt : ∀ (l : List (List Nat × Value)), (∀ p ∈ l, ItemRT p.2) →
    ∀ d fuel rest prev,
      (∀ p ∈ l, validV p.2 = true) →
      (∀ p ∈ l, p.1.all (· < 256) = true ∧ utf8Valid p.1 = true ∧ p.1.length < 2 ^ 64) →
      (∀ p ∈ l, d + vDepth p.2 ≤ maxDepth) →
      List.Sorted pairKeyLt l →
      PrevOk prev l →
      (∀ p ∈ l, ∃ b, encodeItem p.2 = .ok b) →
      2 * ((l.map encBytesOf).flatMap entryWire).length + 2 ≤ fuel →
      decodeCore fuel (.entries d l.length prev)
          ((l.map encBytesOf).flatMap entryWire ++ rest) =
        .ok (.ents (entriesOfList (l.map (fun p => (p.1, canon p.2)))), rest) := by
  intro l
  induction l with
  | nil =>
    intro _ d fuel rest prev _ _ _ _ _ _ hfuel
    cases fuel with
    | zero => simp at hfuel
    | succ f => simp [decodeCore, entriesOfList]
  | cons p t ih =>
    intro hmem d fuel rest prev hvals hkeys hdepths hsort hprev hencs hfuel
    obtain ⟨b, hb⟩ := hencs p (by simp)
    have hB : encBytesOf p = (p.1, b) := by unfold encBytesOf; rw [hb]; rfl
    have hkey := hkeys p (by simp)
    obtain ⟨bb, tail, hhead, hblt, hbmaj, hbread⟩ :=
      encodeHead_spec 3 p.1.length (by norm_num) hkey.2.2
    have hheadlen : tail.length + 1 = (encodeHead 3 p.1.length).length := by
      rw [hhead]; simp
    have hbpos := encodeItem_length_pos p.2 b hb
    have hsort2 := List.sorted_cons.mp hsort
    simp only [List.map_cons, List.flatMap_cons, hB, entryWire, List.length_append] at hfuel ⊢
    cases fuel with
    | zero => omega
    | succ f =>
      have hitem : decodeCore f (.item d) (b ++ ((t.map encBytesOf).flatMap entryWire ++ rest)) =
          .ok (.one (canon p.2), (t.map encBytesOf).flatMap entryWire ++ rest) := by
        refine hmem p (by simp) b d f _ (hvals p (by simp)) hb (hdepths p (by simp)) ?_
        omega
      have hrec : decodeCore f (.entries d t.length (some p.1))
          ((t.map encBytesOf).flatMap entryWire ++ rest) =
          .ok (.ents (entriesOfList (t.map (fun q => (q.1, canon q.2)))), rest) := by
        refine ih (fun q hq => hmem q (by simp [hq])) d f rest (some p.1)
          (fun q hq => hvals q (by simp [hq])) (fun q hq => hkeys q (by simp [hq]))
          (fun q hq => hdepths q (by simp [hq])) hsort2.2 ?_
          (fun q hq => hencs q (by simp [hq])) ?_
        · cases t with
          | nil => exact trivial
          | cons q t2 => exact hsort2.1 q (by simp)
        · omega
      have hbuf : (encodeHead 3 p.1.length ++ p.1 ++ b) ++
          ((t.map encBytesOf).flatMap entryWire) ++ rest =
          bb :: (tail ++ (p.1 ++ (b ++ ((t.map encBytesOf).flatMap entryWire ++ rest)))) := by
        rw [hhead]; simp [List.append_assoc]
      rw [List.length_cons]
      rw [hbuf]
      simp only [decodeCore, hbmaj]
      norm_num
      rw [hbread (p.1 ++ (b ++ ((t.map encBytesOf).flatMap entryWire ++ rest)))]
      simp only [takeN_exact, hkey.2.1, hitem, hrec]
      simp [entriesOfList]
      exact match prev, hprev with
        | none, _ => rfl
        | some _, hp => hp

theorem item_rt_aux : ∀ n : Nat, ∀ v : Value, sizeOf v ≤ n → ItemRT v := by
  intro n
  induction n using Nat.strong_induction_on with
  | _ n ih =>
    intro v hsz
    unfold ItemRT
    intro bs d fuel rest hval henc hdepth hfuel
    cases v with
    | vnull =>
      simp only [encodeItem, Except.ok.injEq] at henc
      subst henc
      simp only [List.length_cons, List.length_nil] at hfuel
      cases fuel with
      | zero => omega
      | succ f => simp [decodeCore, canon]
    | vbool b =>
      cases b <;>
        (simp only [encodeItem, Except.ok.injEq] at henc
         subst henc
         simp only [List.length_cons, List.length_nil] at hfuel
         cases fuel with
         | zero => omega
         | succ f => simp [decodeCore, canon])
    | vint i =>
      simp only [validV, Bool.and_eq_true, decide_eq_true_eq] at hval
      simp only [encodeItem] at henc
      rw [if_neg (by simp only [Bool.or_eq_true, decide_eq_true_eq, not_or, not_lt]; omega)]
        at henc
      by_cases hpos : 0 ≤ i
      · rw [if_pos hpos] at henc
        simp only [Except.ok.injEq] at henc
        obtain ⟨b, tail, hh, hblt, hmaj, hread⟩ :=
          encodeHead_spec 0 i.toNat (by norm_num) (by omega)
        rw [hh] at henc
        subst henc
        simp only [List.length_cons] at hfuel
        cases fuel with
        | zero => omega
        | succ f =>
          have hbuf : (b :: tail) ++ rest = b :: (tail ++ rest) := rfl
          rw [hbuf]
          simp only [decodeCore, hmaj]
          norm_num
          rw [hread rest]
          simp only [canon]
          rw [Int.toNat_of_nonneg hpos]
      · rw [if_neg hpos] at henc
        simp only [Except.ok.injEq] at henc
        obtain ⟨b, tail, hh, hblt, hmaj, hread⟩ :=
          encodeHead_spec 1 (-1 - i).toNat (by norm_num) (by omega)
        rw [hh] at henc
        subst henc
        simp only [List.length_cons] at hfuel
        cases fuel with
        | zero => omega
        | succ f =>
          have hbuf : (b :: tail) ++ rest = b :: (tail ++ rest) := rfl
          rw [hbuf]
          simp only [decodeCore, hmaj]
          norm_num
          rw [hread rest]
          simp only [canon]
          have h3 : -1 - (((-1 - i).toNat : Int)) = i := by
            rw [Int.toNat_of_nonneg (by omega : (0 : Int) ≤ -1 - i)]
            ring
          rw [h3]
    | vfloat bits =>
      simp only [validV, Bool.and_eq_true, decide_eq_true_eq, bne_iff_ne, ne_eq] at hval
      simp only [encodeItem] at henc
      rw [if_neg (by simp only [beq_iff_eq]; exact hval.2)] at henc
      simp only [Except.ok.injEq] at henc
      subst henc
      simp only [List.length_cons, beBytes_length] at hfuel
      cases fuel with
      | zero => omega
      | succ f =>
        have hbuf : (251 :: beBytes 8 bits) ++ rest = 251 :: (beBytes 8 bits ++ rest) := rfl
        rw [hbuf]
        simp only [decodeCore]
        norm_num
        rw [readBE_beBytes 8 bits rest (by norm_num at hval ⊢; omega)]
        simp [canon]
        norm_num at hval
        exact hval.2
    | vbytes bsv =>
      simp only [validV, Bool.and_eq_true, decide_eq_true_eq] at hval
      simp only [encodeItem, Except.ok.injEq] at henc
      obtain ⟨b, tail, hh, hblt, hmaj, hread⟩ :=
        encodeHead_spec 2 bsv.length (by norm_num) hval.2
      rw [hh] at henc
      subst henc
      simp only [List.length_append, List.length_cons] at hfuel
      cases fuel with
      | zero => omega
      | succ f =>
        have hbuf : ((b :: tail) ++ bsv) ++ rest = b :: (tail ++ (bsv ++ rest)) := by
          simp
        rw [hbuf]
        simp only [decodeCore, hmaj]
        norm_num
        rw [hread (bsv ++ rest)]
        simp only [takeN_exact, canon]
    | vstr s =>
      simp only [validV, Bool.and_eq_true, decide_eq_true_eq] at hval
      simp only [encodeItem, Except.ok.injEq] at henc
      obtain ⟨b, tail, hh, hblt, hmaj, hread⟩ :=
        encodeHead_spec 3 s.length (by norm_num) hval.2
      rw [hh] at henc
      subst henc
      simp only [List.length_append, List.length_cons] at hfuel
      cases fuel with
      | zero => omega
      | succ f =>
        have hbuf : ((b :: tail) ++ s) ++ rest = b :: (tail ++ (s ++ rest)) := by
          simp
        rw [hbuf]
        simp only [decodeCore, hmaj]
        norm_num
        rw [hread (s ++ rest)]
        simp [takeN_exact, hval.1.2, canon]
    | vlist xs =>
      simp only [validV, Bool.and_eq_true, decide_eq_true_eq] at hval
      simp only [encodeItem] at henc
      cases hbody : encodeSeq xs with
      | error e => rw [hbody] at henc; simp at henc
      | ok body =>
        rw [hbody] at henc
        simp only [Except.ok.injEq] at henc
        obtain ⟨b, tail, hh, hblt, hmaj, hread⟩ :=
          encodeHead_spec 4 xs.length (by norm_num) hval.2
        rw [hh] at henc
        subst henc
        simp only [List.length_append, List.length_cons] at hfuel
        simp only [vDepth] at hdepth
        cases fuel with
        | zero => omega
        | succ f =>
          have hseq : decodeCore f (.seq (d + 1) xs.length) (body ++ rest) =
              .ok (.many (canonL xs), rest) := by
            refine seq_rt xs ?_ body (d + 1) f rest hval.1 hbody (by omega) (by omega)
            intro w hw
            refine ih (sizeOf w) ?_ w le_rfl
            have h1 := sizeOf_mem_vlist xs w hw
            have h2 : sizeOf (Value.vlist xs) = 1 + sizeOf xs := by simp
            omega
          have hbuf : ((b :: tail) ++ body) ++ rest = b :: (tail ++ (body ++ rest)) := by
            simp
          have hd2 : ¬ maxDepth ≤ d := by simp [maxDepth] at hdepth ⊢; omega
          rw [hbuf]
          simp only [decodeCore, hmaj]
          norm_num
          rw [hread (body ++ rest)]
          simp [hd2, hseq, canon]
    | vlink cid =>
      simp only [validV, Bool.and_eq_true, decide_eq_true_eq] at hval
      cases hdc : decodeCidBytes cid with
      | error e => rw [hdc] at hval; simp [Except.toOption] at hval
      | ok c =>
        simp only [encodeItem, Except.ok.injEq] at henc
        obtain ⟨b2, tail2, hh2, hb2lt, hmaj2, hread2⟩ :=
          encodeHead_spec 2 (cid.length + 1) (by norm_num) hval.2
        rw [hh2] at henc
        subst henc
        simp only [List.length_append, List.length_cons] at hfuel
        cases fuel with
        | zero => omega
        | succ f =>
          have hbuf : (encodeHead 6 42 ++ (b2 :: tail2) ++ (0 :: cid)) ++ rest =
              216 :: (42 :: (b2 :: (tail2 ++ ((0 :: cid) ++ rest)))) := by
            show (([216, 42] : List Nat) ++ (b2 :: tail2) ++ (0 :: cid)) ++ rest = _
            simp
          rw [hbuf]
          simp only [decodeCore]
          norm_num
          have hr42 : readArg (216 % 32) (42 :: (b2 :: (tail2 ++ ((0 :: cid) ++ rest)))) =
              .ok (42, b2 :: (tail2 ++ ((0 :: cid) ++ rest))) := by
            norm_num [readArg, readBE, takeN, beVal]
          norm_num at hr42
          rw [hr42]
          norm_num [hmaj2]
          rw [hread2 (0 :: (cid ++ rest))]
          have htk : takeN (cid.length + 1) (0 :: (cid ++ rest)) = some (0 :: cid, rest) := by
            have h := takeN_exact (0 :: cid) rest
            simpa using h
          simp [htk, hdc, canon]
    | vmap kvs =>
      simp only [validV, Bool.and_eq_true, decide_eq_true_eq] at hval
      obtain ⟨⟨⟨hkv, hkd⟩, hve⟩, hklen⟩ := hval
      simp only [encodeItem] at henc
      cases hps : encodePairs kvs with
      | error e => rw [hps] at henc; simp at henc
      | ok pairs =>
        rw [hps] at henc
        simp only [Except.ok.injEq] at henc
        have hpairs : pairs = kvs.toList.map encBytesOf := by
          refine encPairsL_eq_map kvs.toList pairs ?_
          rw [← encodePairs_toList]; exact hps
        have hmemok : ∀ p ∈ kvs.toList, ∃ b, encodeItem p.2 = .ok b := by
          refine encPairsL_mem_ok kvs.toList pairs ?_
          rw [← encodePairs_toList]; exact hps
        have hplen : pairs.length = kvs.length := by
          rw [hpairs]; simp [VEntries.length]
        obtain ⟨b, tail, hh, hblt, hmaj, hread⟩ :=
          encodeHead_spec 5 pairs.length (by norm_num) (by omega)
        rw [hh] at henc
        subst henc
        -- the sorted wire pairs are the re-tagged canonical sort
        have hsortcomm : List.insertionSort pairKeyLe pairs =
            (List.insertionSort pairKeyLe kvs.toList).map encBytesOf := by
          rw [hpairs]
          exact insertionSort_keyed (fun p => (encodeItem p.2).toOption.getD []) kvs.toList
        set sl := List.insertionSort pairKeyLe kvs.toList with hsl
        have hslperm : sl.Perm kvs.toList := List.perm_insertionSort pairKeyLe kvs.toList
        have hslmem : ∀ p ∈ sl, p ∈ kvs.toList := fun p hp => hslperm.mem_iff.mp hp
        have hsorted : List.Sorted pairKeyLt sl := by
          refine sorted_strict_of_nodup sl (List.sorted_insertionSort pairKeyLe kvs.toList) ?_
          have hnd := keysDistinct_nodup kvs hkd
          exact ((hslperm.map Prod.fst).nodup_iff).mpr hnd
        simp only [List.length_append, List.length_cons] at hfuel
        simp only [vDepth] at hdepth
        cases fuel with
        | zero => omega
        | succ f =>
          have hents : decodeCore f (.entries (d + 1) sl.length none)
              ((sl.map encBytesOf).flatMap entryWire ++ rest) =
              .ok (.ents (entriesOfList (sl.map (fun p => (p.1, canon p.2)))), rest) := by
            refine entries_rt sl ?_ (d + 1) f rest none ?_ ?_ ?_ hsorted trivial ?_ ?_
            · intro p hp
              refine ih (sizeOf p.2) ?_ p.2 le_rfl
              have h1 := sizeOf_mem_ventries kvs p (hslmem p hp)
              have h2 : sizeOf (Value.vmap kvs) = 1 + sizeOf kvs := by simp
              omega
            · exact fun p hp => validE_mem kvs hve p (hslmem p hp)
            · exact fun p hp => keysValid_mem kvs hkv p (hslmem p hp)
            · intro p hp
              have h1 := vDepth_mem_ventries kvs p (hslmem p hp)
              omega
            · exact fun p hp => hmemok p (hslmem p hp)
            · rw [hsortcomm] at hfuel
              omega
          have hlen2 : sl.length = pairs.length := by
            rw [hpairs]
            have := hslperm.length_eq
            simp only [List.length_map] at *
            omega
          have hbuf : ((b :: tail) ++ (List.insertionSort pairKeyLe pairs).flatMap entryWire)
              ++ rest =
              b :: (tail ++ ((sl.map encBytesOf).flatMap entryWire ++ rest)) := by
            rw [hsortcomm]; simp
          have hd2 : ¬ maxDepth ≤ d := by simp [maxDepth] at hdepth ⊢; omega
          rw [hbuf]
          simp only [decodeCore, hmaj]
          norm_num
          rw [hread ((sl.map encBytesOf).flatMap entryWire ++ rest)]
          rw [← hlen2]
          simp [hd2, hents, canon]
          have hfinal : entriesOfList (sl.map (fun p => (p.1, canon p.2))) =
              entriesOfList (List.insertionSort pairKeyLe (canonPairs kvs)) := by
            rw [canonPairs_eq_map]
            rw [insertionSort_keyed (fun p => canon p.2) kvs.toList]
          rw [hfinal]

/-- Round trip of a single item, packaged. -/
theorem item_rt (v : Value) : ItemRT v := item_rt_aux (sizeOf v) v le_rfl

/-- Round trip through the public single-value entry points. -/
theorem decode_encode_dag_cbor (v : Value) (bs : List Nat) (hval : validV v = true)
    (hdepth : vDepth v ≤ maxDepth) (henc : encode_dag_cbor v = .ok bs) :
    decode_dag_cbor bs = .ok (canon v) := by
  have h := item_rt v bs 0 (2 * bs.length + 2) [] hval henc (by omega) (by omega)
  rw [List.append_nil] at h
  unfold decode_dag_cbor
  rw [h]

/-- Round trip for a concatenated sequence of encoded values. -/
theorem multi_rt : ∀ (vs : List Value) (bss : List (List Nat)),
    List.Forall₂ (fun v bs => encodeItem v = .ok bs) vs bss →
    (∀ v ∈ vs, validV v = true) → (∀ v ∈ vs, vDepth v ≤ maxDepth) →
    ∀ fuel, 2 * bss.flatten.length + 2 ≤ fuel →
    decodeCore fuel .multi bss.flatten = .ok (.vals (vs.map canon), []) := by
  intro vs bss hfa
  induction hfa with
  | nil =>
    intro _ _ fuel hfuel
    cases fuel with
    | zero => omega
    | succ f => simp [decodeCore]
  | cons henc hfa2 ih =>
    rename_i v bs vt bst
    intro hvals hdepths fuel hfuel
    have hbpos := encodeItem_length_pos v bs henc
    simp only [List.flatten_cons, List.length_append] at hfuel ⊢
    cases fuel with
    | zero => omega
    | succ f =>
      have hitem : decodeCore f (.item 0) (bs ++ bst.flatten) =
          .ok (.one (canon v), bst.flatten) := by
        have h := item_rt v bs 0 f bst.flatten (hvals v (by simp)) henc
          (by have := hdepths v (by simp); omega) (by omega)
        exact h
      have hrec : decodeCore f .multi bst.flatten = .ok (.vals (vt.map canon), []) := by
        refine ih (fun w hw => hvals w (by simp [hw])) (fun w hw => hdepths w (by simp [hw]))
          f (by omega)
      cases hbs : bs with
      | nil => rw [hbs] at hbpos; simp at hbpos
      | cons b0 bs2 =>
        rw [hbs] at hitem
        have hbuf : (b0 :: bs2) ++ bst.flatten = b0 :: (bs2 ++ bst.flatten) := rfl
        rw [hbuf] at hitem
        simp only [hbs, hbuf, decodeCore, hitem, hrec, List.map_cons]

/-- Round trip through `decode_dag_cbor_multi`. -/
theorem decode_encode_dag_cbor_multi (vs : List Value) (bss : List (List Nat))
    (hfa : List.Forall₂ (fun v bs => encodeItem v = .ok bs) vs bss)
    (hvals : ∀ v ∈ vs, validV v = true) (hdepths : ∀ v ∈ vs, vDepth v ≤ maxDepth) :
    decode_dag_cbor_multi bss.flatten = .ok (vs.map canon) := by
  have h := multi_rt vs bss hfa hvals hdepths (2 * bss.flatten.length + 2) (by omega)
  unfold decode_dag_cbor_multi
  rw [h]

theorem encode_nestValue : ∀ n, encodeItem (nestValue n) = .ok (nestBytes n)
  | 0 => rfl
  | n + 1 => by
    simp only [nestValue, encodeItem, encodeSeq, encode_nestValue n, nestBytes]
    simp [encodeHead, VList.length, VList.toList, List.replicate_succ]

theorem valid_nestValue : ∀ n, validV (nestValue n) = true
  | 0 => rfl
  | n + 1 => by
    simp only [nestValue, validV, validL, valid_nestValue n]
    simp [VList.length, VList.toList]

theorem vDepth_nestValue : ∀ n, vDepth (nestValue n) = n + 1
  | 0 => rfl
  | n + 1 => by
    simp only [nestValue, vDepth, depthL, vDepth_nestValue n]
    omega

/-- Decoding a list nest that exceeds the remaining depth budget reports
the recursion limit. -/
theorem listNest_rl : ∀ (k d fuel : Nat) (rest : List Nat), maxDepth ≤ d + k →
    2 * k + 3 ≤ fuel →
    decodeCore fuel (.item d) (List.replicate k 0x81 ++ (0x80 :: rest)) =
      .error .recursionLimit := by
  intro k
  induction k with
  | zero =>
    intro d fuel rest hd hfuel
    cases fuel with
    | zero => omega
    | succ f =>
      have hd2 : maxDepth ≤ d := by omega
      simp [decodeCore, readArg, hd2]
  | succ k ihk =>
    intro d fuel rest hd hfuel
    cases fuel with
    | zero => omega
    | succ f =>
      cases f with
      | zero => omega
      | succ f2 =>
        by_cases hd2 : maxDepth ≤ d
        · simp [List.replicate_succ, decodeCore, readArg, hd2]
        · have hin := ihk (d + 1) f2 rest (by omega) (by omega)
          simp [List.replicate_succ, decodeCore, readArg, hd2, hin]

theorem mapNestBytes_length : ∀ n, (mapNestBytes n).length = 3 * n + 1
  | 0 => rfl
  | n + 1 => by simp [mapNestBytes, mapNestBytes_length n]; omega

/-- Decoding a map nest that exceeds the remaining depth budget reports
the recursion limit. -/
theorem mapNest_rl : ∀ (k d fuel : Nat) (rest : List Nat), maxDepth ≤ d + k →
    2 * k + 3 ≤ fuel →
    decodeCore fuel (.item d) (mapNestBytes k ++ rest) = .error .recursionLimit := by
  intro k
  induction k with
  | zero =>
    intro d fuel rest hd hfuel
    cases fuel with
    | zero => omega
    | succ f =>
      have hd2 : maxDepth ≤ d := by omega
      simp [mapNestBytes, decodeCore, readArg, hd2]
  | succ k ihk =>
    intro d fuel rest hd hfuel
    cases fuel with
    | zero => omega
    | succ f =>
      cases f with
      | zero => omega
      | succ f2 =>
        by_cases hd2 : maxDepth ≤ d
        · simp [mapNestBytes, decodeCore, readArg, hd2]
        · have hin := ihk (d + 1) f2 rest (by omega) (by omega)
          have hu : utf8Valid [97] = true := rfl
          simp [mapNestBytes, decodeCore, readArg, takeN, hu, hd2, hin]

/-- The public decoder rejects over-nested lists with RecursionLimit. -/
theorem decode_listNest_err (n : Nat) (hn : maxDepth ≤ n) :
    decode_dag_cbor (nestBytes n) = .error .recursionLimit := by
  unfold decode_dag_cbor nestBytes
  have h := listNest_rl n 0 (2 * (List.replicate n 0x81 ++ [0x80] : List Nat).length + 2) []
    (by omega) (by simp; omega)
  rw [show ((0x80 : Nat) :: []) = [0x80] from rfl] at h
  rw [h]

/-- The public decoder rejects over-nested maps with RecursionLimit. -/
theorem decode_mapNest_err (n : Nat) (hn : maxDepth ≤ n) :
    decode_dag_cbor (mapNestBytes n) = .error .recursionLimit := by
  unfold decode_dag_cbor
  have h := mapNest_rl n 0 (2 * (mapNestBytes n).length + 2) []
    (by omega) (by rw [mapNestBytes_length]; omega)
  rw [List.append_nil] at h
  rw [h]

/-- A decoded top-level integer item is always in range. -/
theorem decode_int_in_range (first : Nat) (buf : List Nat) (i : Int)
    (hmaj : first / 32 = 0 ∨ first / 32 = 1) (hb : ∀ b ∈ buf, b < 256)
    (h : decode_dag_cbor (first :: buf) = .ok (.vint i)) :
    -(2 ^ 64) ≤ i ∧ i ≤ 2 ^ 64 - 1 := by
  unfold decode_dag_cbor at h
  have hlen : 2 * (first :: buf).length + 2 = (2 * buf.length + 3) + 1 := by
    simp [List.length_cons]; ring
  rw [hlen] at h
  rcases hmaj with hm | hm
  · simp only [decodeCore, hm] at h
    norm_num at h
    cases hra : readArg (first % 32) buf with
    | error e => rw [hra] at h; simp at h
    | ok pr =>
      obtain ⟨nn, r⟩ := pr
      rw [hra] at h
      have hnn := readArg_lt (first % 32) buf r nn (by omega) hb hra
      cases r with
      | nil =>
        simp only [Except.ok.injEq, Value.vint.injEq] at h
        omega
      | cons x t => simp at h
  · simp only [decodeCore, hm] at h
    norm_num at h
    cases hra : readArg (first % 32) buf with
    | error e => rw [hra] at h; simp at h
    | ok pr =>
      obtain ⟨nn, r⟩ := pr
      rw [hra] at h
      have hnn := readArg_lt (first % 32) buf r nn (by omega) hb hra
      cases r with
      | nil =>
        simp only [Except.ok.injEq, Value.vint.injEq] at h
        omega
      | cons x t => simp at h

/-- C4: the integer boundary behaviour of the codec. -/
theorem claim_c4 :
    decode_dag_cbor [0x1B, 255, 255, 255, 255, 255, 255, 255, 255] =
      .ok (.vint (2 ^ 64 - 1)) ∧
    encode_dag_cbor (.vint (2 ^ 64 - 1)) =
      .ok [0x1B, 255, 255, 255, 255, 255, 255, 255, 255] ∧
    decode_dag_cbor [0x3B, 255, 255, 255, 255, 255, 255, 255, 255] =
      .ok (.vint (-(2 ^ 64))) ∧
    encode_dag_cbor (.vint (-(2 ^ 64))) =
      .ok [0x3B, 255, 255, 255, 255, 255, 255, 255, 255] ∧
    (∀ i : Int, (2 ^ 64 - 1 : Int) < i ∨ i < -(2 ^ 64) →
      encode_dag_cbor (.vint i) = .error .integerOutOfRange) ∧
    (∀ (first : Nat) (buf : List Nat) (i : Int), first / 32 = 0 ∨ first / 32 = 1 →
      (∀ b ∈ buf, b < 256) → decode_dag_cbor (first :: buf) = .ok (.vint i) →
      -(2 ^ 64) ≤ i ∧ i ≤ 2 ^ 64 - 1) := by
  refine ⟨?_, ?_, ?_, ?_, ?_, decode_int_in_range⟩
  · have h : (2 : Int) ^ 64 - 1 = 18446744073709551615 := by norm_num
    rw [h]; rfl
  · have h : (2 : Int) ^ 64 - 1 = 18446744073709551615 := by norm_num
    rw [h]; rfl
  · have h : -((2 : Int) ^ 64) = -18446744073709551616 := by norm_num
    rw [h]; rfl
  · have h : -((2 : Int) ^ 64) = -18446744073709551616 := by norm_num
    rw [h]; rfl
  · intro i hi
    unfold encode_dag_cbor encodeItem
    rw [if_pos]
    simp only [Bool.or_eq_true, decide_eq_true_eq]
    omega

/-- C4 witness: the universal statements at concrete inputs. -/
theorem claim_c4_witness :
    encode_dag_cbor (.vint (2 ^ 64)) = .error .integerOutOfRange ∧
    encode_dag_cbor (.vint (-(2 ^ 64) - 1)) = .error .integerOutOfRange ∧
    (-(2 ^ 64) ≤ (18446744073709551615 : Int) ∧
      (18446744073709551615 : Int) ≤ 2 ^ 64 - 1) :=
  ⟨claim_c4.2.2.2.2.1 (2 ^ 64) (by norm_num),
   claim_c4.2.2.2.2.1 (-(2 ^ 64) - 1) (by norm_num),
   claim_c4.2.2.2.2.2 0x1B [255, 255, 255, 255, 255, 255, 255, 255]
     18446744073709551615 (by norm_num) (by decide) (by rfl)⟩

/-- C5: non-finite floats are rejected on decode (float32 and float64
heads) and on encode. -/
theorem claim_c5 :
    (∀ w, w < 2 ^ 32 → w / 2 ^ 23 % 2 ^ 8 = 255 →
      decode_dag_cbor (0xFA :: beBytes 4 w) = .error .nonFiniteFloat) ∧
    (∀ w, w < 2 ^ 64 → w / 2 ^ 52 % 2 ^ 11 = 2047 →
      decode_dag_cbor (0xFB :: beBytes 8 w) = .error .nonFiniteFloat) ∧
    (∀ bits, bits < 2 ^ 64 → bits / 2 ^ 52 % 2 ^ 11 = 2047 →
      encode_dag_cbor (.vfloat bits) = .error .nonFiniteFloat) ∧
    decode_dag_cbor [0xFA, 0x7F, 0xC0, 0, 0] = .error .nonFiniteFloat ∧
    decode_dag_cbor [0xFA, 0x7F, 0x80, 0, 0] = .error .nonFiniteFloat ∧
    decode_dag_cbor [0xFA, 0xFF, 0x80, 0, 0] = .error .nonFiniteFloat ∧
    decode_dag_cbor [0xFB, 0x7F, 0xF8, 0, 0, 0, 0, 0, 0] = .error .nonFiniteFloat ∧
    decode_dag_cbor [0xFB, 0x7F, 0xF0, 0, 0, 0, 0, 0, 0] = .error .nonFiniteFloat ∧
    decode_dag_cbor [0xFB, 0xFF, 0xF0, 0, 0, 0, 0, 0, 0] = .error .nonFiniteFloat := by
  refine ⟨?_, ?_, ?_, rfl, rfl, rfl, rfl, rfl, rfl⟩
  · intro w hw hexp
    unfold decode_dag_cbor
    obtain ⟨f, hf⟩ : ∃ f, 2 * ((0xFA : Nat) :: beBytes 4 w).length + 2 = f + 1 :=
      ⟨2 * ((0xFA : Nat) :: beBytes 4 w).length + 1, by omega⟩
    rw [hf]
    simp only [decodeCore]
    norm_num
    have hbe := readBE_beBytes 4 w [] (by norm_num at hw ⊢; omega)
    rw [List.append_nil] at hbe
    rw [hbe]
    norm_num at hexp
    simp [hexp]
  · intro w hw hexp
    unfold decode_dag_cbor
    obtain ⟨f, hf⟩ : ∃ f, 2 * ((0xFB : Nat) :: beBytes 8 w).length + 2 = f + 1 :=
      ⟨2 * ((0xFB : Nat) :: beBytes 8 w).length + 1, by omega⟩
    rw [hf]
    simp only [decodeCore]
    norm_num
    have hbe := readBE_beBytes 8 w [] (by norm_num at hw ⊢; omega)
    rw [List.append_nil] at hbe
    rw [hbe]
    norm_num at hexp
    simp [hexp]
  · intro bits hb hexp
    unfold encode_dag_cbor encodeItem
    rw [if_pos]
    simp only [beq_iff_eq]
    exact hexp

/-- C5 witness: the universal statements at the canonical NaN patterns. -/
theorem claim_c5_witness :
    decode_dag_cbor (0xFA :: beBytes 4 0x7FC00000) = .error .nonFiniteFloat ∧
    decode_dag_cbor (0xFB :: beBytes 8 0x7FF8000000000000) = .error .nonFiniteFloat ∧
    encode_dag_cbor (.vfloat 0x7FF8000000000000) = .error .nonFiniteFloat :=
  ⟨claim_c5.1 0x7FC00000 (by norm_num) (by norm_num),
   claim_c5.2.1 0x7FF8000000000000 (by norm_num) (by norm_num),
   claim_c5.2.2.1 0x7FF8000000000000 (by norm_num) (by norm_num)⟩

/-- C6: a single complete item is required; trailing bytes are
MultipleObjects, while the multi-value decoder accepts sequences. -/
theorem claim_c6 :
    decode_dag_cbor [0x00, 0x00] = .error .multipleObjects ∧
    decode_dag_cbor_multi [0x00, 0x00] = .ok [.vint 0, .vint 0] ∧
    (∀ (buf rest : List Nat) (v : Value),
      decodeCore (2 * buf.length + 2) (.item 0) buf = .ok (.one v, rest) → rest ≠ [] →
      decode_dag_cbor buf = .error .multipleObjects) := by
  refine ⟨rfl, rfl, ?_⟩
  intro buf rest v h hne
  unfold decode_dag_cbor
  rw [h]
  cases rest with
  | nil => exact absurd rfl hne
  | cons x t => rfl

/-- C6 witness: the general trailing-bytes statement at `00 00`. -/
theorem claim_c6_witness : decode_dag_cbor [0x00, 0x00] = .error .multipleObjects :=
  claim_c6.2.2 [0x00, 0x00] [0x00] (.vint 0) (by rfl) (by simp)

/-- C7: inputs nested beyond the 500-frame cap (lists or maps) are
rejected with RecursionLimit, whose message mentions DAG-CBOR decoding. -/
theorem claim_c7 :
    (∀ n, maxDepth ≤ n → decode_dag_cbor (nestBytes n) = .error .recursionLimit) ∧
    (∀ n, maxDepth ≤ n → decode_dag_cbor (mapNestBytes n) = .error .recursionLimit) ∧
    maxDepth = 500 ∧
    Mentions "in DAG-CBOR decoding" (errMessage .recursionLimit) :=
  ⟨decode_listNest_err, decode_mapNest_err, rfl,
   ⟨"Recursion limit exceeded ", "", rfl⟩⟩

/-- C7 witness: torture inputs at nesting 500 (frames 501). -/
theorem claim_c7_witness :
    decode_dag_cbor (nestBytes 500) = .error .recursionLimit ∧
    decode_dag_cbor (mapNestBytes 500) = .error .recursionLimit :=
  ⟨claim_c7.1 500 (by decide), claim_c7.2.1 500 (by decide)⟩

theorem forall₂_canon : ∀ vs : List Value, List.Forall₂ VEq (vs.map canon) vs
  | [] => List.Forall₂.nil
  | v :: t => List.Forall₂.cons (canon_vEq v) (forall₂_canon t)

/-- C1 (amended): decode is a left inverse of encode, up to map-entry
order (the host compares maps as unordered collections, captured by
`VEq`), for every valid value whose array/map nesting stays within the
decoder recursion cap; similarly for concatenated streams via
`decode_dag_cbor_multi`; and every valid value encodes successfully. -/
theorem claim_c1 :
    (∀ (v : Value) (bs : List Nat), validV v = true → vDepth v ≤ maxDepth →
      encode_dag_cbor v = .ok bs →
      decode_dag_cbor bs = .ok (canon v) ∧ VEq (canon v) v) ∧
    (∀ v : Value, validV v = true → ∃ bs, encode_dag_cbor v = .ok bs) ∧
    (∀ (vs : List Value) (bss : List (List Nat)),
      List.Forall₂ (fun v bs => encode_dag_cbor v = .ok bs) vs bss →
      (∀ v ∈ vs, validV v = true) → (∀ v ∈ vs, vDepth v ≤ maxDepth) →
      decode_dag_cbor_multi bss.flatten = .ok (vs.map canon) ∧
        List.Forall₂ VEq (vs.map canon) vs) := by
  refine ⟨?_, encode_ok, ?_⟩
  · intro v bs hval hd henc
    exact ⟨decode_encode_dag_cbor v bs hval hd henc, canon_vEq v⟩
  · intro vs bss hfa hvals hds
    exact ⟨decode_encode_dag_cbor_multi vs bss hfa hvals hds, forall₂_canon vs⟩

/-- C1 counterexample: the claim as stated fails for the valid value
nested 501 list frames deep — it encodes fine but decoding its encoding
reports RecursionLimit instead of returning the value. -/
theorem claim_c1_counterexample :
    validV (nestValue 500) = true ∧
    encode_dag_cbor (nestValue 500) = .ok (nestBytes 500) ∧
    decode_dag_cbor (nestBytes 500) = .error .recursionLimit :=
  ⟨valid_nestValue 500, encode_nestValue 500, decode_listNest_err 500 (by decide)⟩

/-- C1 witness: the amended claim applied at a concrete map and a
concrete two-value stream. -/
theorem claim_c1_witness :
    (decode_dag_cbor [0xA2, 0x61, 0x78, 0x02, 0x63, 0x61, 0x61, 0x61, 0x01] =
      .ok (canon c1w) ∧ VEq (canon c1w) c1w) ∧
    (decode_dag_cbor_multi ([[0x00], [0x01]] : List (List Nat)).flatten =
      .ok ([Value.vint 0, Value.vint 1].map canon) ∧
      List.Forall₂ VEq ([Value.vint 0, Value.vint 1].map canon) [Value.vint 0, Value.vint 1]) :=
  ⟨claim_c1.1 c1w [0xA2, 0x61, 0x78, 0x02, 0x63, 0x61, 0x61, 0x61, 0x01]
      (by decide) (by decide) (by rfl),
   claim_c1.2.2 [Value.vint 0, Value.vint 1] [[0x00], [0x01]]
      (List.Forall₂.cons (by rfl) (List.Forall₂.cons (by rfl) List.Forall₂.nil))
      (by decide) (by decide)⟩

/-- C2: the encoding of a map does not depend on entry insertion order,
and the concrete vectors of the spec hold. -/
theorem claim_c2 :
    (∀ kvs₁ kvs₂ : VEntries, validV (.vmap kvs₁) = true → validV (.vmap kvs₂) = true →
      kvs₁.toList.Perm kvs₂.toList →
      encode_dag_cbor (.vmap kvs₁) = encode_dag_cbor (.vmap kvs₂)) ∧
    encode_dag_cbor (.vmap (.cons [0x61, 0x61, 0x61] (.vint 1) (.cons [0x78] (.vint 2) .nil))) =
      .ok [0xA2, 0x61, 0x78, 0x02, 0x63, 0x61, 0x61, 0x61, 0x01] ∧
    encode_dag_cbor (.vmap (.cons [0x78] (.vint 2) (.cons [0x61, 0x61, 0x61] (.vint 1) .nil))) =
      .ok [0xA2, 0x61, 0x78, 0x02, 0x63, 0x61, 0x61, 0x61, 0x01] ∧
    decode_dag_cbor [0xA2, 0x61, 0x78, 0x02, 0x63, 0x61, 0x61, 0x61, 0x01] =
      .ok (.vmap (.cons [0x78] (.vint 2) (.cons [0x61, 0x61, 0x61] (.vint 1) .nil))) := by
  refine ⟨?_, rfl, rfl, rfl⟩
  intro kvs₁ kvs₂ h1 h2 hperm
  simp only [validV, Bool.and_eq_true, decide_eq_true_eq] at h1 h2
  obtain ⟨⟨⟨hkv₁, hkd₁⟩, hve₁⟩, hlen₁⟩ := h1
  obtain ⟨⟨⟨hkv₂, hkd₂⟩, hve₂⟩, hlen₂⟩ := h2
  have hok₁ : ∀ p ∈ kvs₁.toList, ∃ b, encodeItem p.2 = .ok b :=
    fun p hp => encode_ok p.2 (validE_mem kvs₁ hve₁ p hp)
  have hok₂ : ∀ p ∈ kvs₂.toList, ∃ b, encodeItem p.2 = .ok b :=
    fun p hp => encode_ok p.2 (validE_mem kvs₂ hve₂ p hp)
  have he₁ : encodePairs kvs₁ = .ok (kvs₁.toList.map encBytesOf) := by
    rw [encodePairs_toList]; exact encPairsL_of_mem_ok kvs₁.toList hok₁
  have he₂ : encodePairs kvs₂ = .ok (kvs₂.toList.map encBytesOf) := by
    rw [encodePairs_toList]; exact encPairsL_of_mem_ok kvs₂.toList hok₂
  have hsorteq : List.insertionSort pairKeyLe kvs₁.toList =
      List.insertionSort pairKeyLe kvs₂.toList := by
    refine sorted_perm_eq _ _ ?_ ?_ ?_
    · exact ((List.perm_insertionSort pairKeyLe kvs₁.toList).trans hperm).trans
        (List.perm_insertionSort pairKeyLe kvs₂.toList).symm
    · refine sorted_strict_of_nodup _ (List.sorted_insertionSort pairKeyLe kvs₁.toList) ?_
      exact ((List.perm_insertionSort pairKeyLe kvs₁.toList).map Prod.fst).nodup_iff.mpr
        (keysDistinct_nodup kvs₁ hkd₁)
    · refine sorted_strict_of_nodup _ (List.sorted_insertionSort pairKeyLe kvs₂.toList) ?_
      exact ((List.perm_insertionSort pairKeyLe kvs₂.toList).map Prod.fst).nodup_iff.mpr
        (keysDistinct_nodup kvs₂ hkd₂)
  have hlen : kvs₁.toList.length = kvs₂.toList.length := hperm.length_eq
  have hkey₁ : List.insertionSort pairKeyLe (kvs₁.toList.map encBytesOf) =
      (List.insertionSort pairKeyLe kvs₁.toList).map encBytesOf :=
    insertionSort_keyed (fun p => (encodeItem p.2).toOption.getD []) kvs₁.toList
  have hkey₂ : List.insertionSort pairKeyLe (kvs₂.toList.map encBytesOf) =
      (List.insertionSort pairKeyLe kvs₂.toList).map encBytesOf :=
    insertionSort_keyed (fun p => (encodeItem p.2).toOption.getD []) kvs₂.toList
  simp only [encode_dag_cbor, encodeItem, he₁, he₂, List.length_map, hlen]
  rw [hkey₁, hkey₂, hsorteq]

/-- C2 witness: the order-independence statement at the spec vectors. -/
theorem claim_c2_witness :
    encode_dag_cbor (.vmap (.cons [0x61, 0x61, 0x61] (.vint 1) (.cons [0x78] (.vint 2) .nil))) =
      encode_dag_cbor (.vmap (.cons [0x78] (.vint 2) (.cons [0x61, 0x61, 0x61] (.vint 1) .nil))) :=
  claim_c2.1 (.cons [0x61, 0x61, 0x61] (.vint 1) (.cons [0x78] (.vint 2) .nil))
    (.cons [0x78] (.vint 2) (.cons [0x61, 0x61, 0x61] (.vint 1) .nil))
    (by decide) (by decide) (by decide)

/-- Decoding well-formed map entries whose key sequence is not strictly
ascending under the canonical order reports MapKeyOrder. -/
theorem entries_order_err : ∀ (l : List (List Nat × Value)) (d fuel : Nat)
    (rest : List Nat) (prev : Option (List Nat)),
    (∀ p ∈ l, validV p.2 = true) →
    (∀ p ∈ l, p.1.all (· < 256) = true ∧ utf8Valid p.1 = true ∧ p.1.length < 2 ^ 64) →
    (∀ p ∈ l, d + vDepth p.2 ≤ maxDepth) →
    (∀ p ∈ l, ∃ b, encodeItem p.2 = .ok b) →
    ¬ List.Chain' (fun a b => keyLtB a b = true) (prev.toList ++ l.map Prod.fst) →
    2 * ((l.map encBytesOf).flatMap entryWire).length + 2 ≤ fuel →
    decodeCore fuel (.entries d l.length prev)
        ((l.map encBytesOf).flatMap entryWire ++ rest) = .error .mapKeyOrder := by
  intro l
  induction l with
  | nil =>
    intro d fuel rest prev _ _ _ _ hviol _
    exfalso
    apply hviol
    cases prev with
    | none => simp
    | some pk => simp
  | cons p t ih =>
    intro d fuel rest prev hvals hkeys hdepths hencs hviol hfuel
    obtain ⟨b, hb⟩ := hencs p (by simp)
    have hB : encBytesOf p = (p.1, b) := by unfold encBytesOf; rw [hb]; rfl
    have hkey := hkeys p (by simp)
    obtain ⟨bb, tail, hhead, hblt, hbmaj, hbread⟩ :=
      encodeHead_spec 3 p.1.length (by norm_num) hkey.2.2
    have hbpos := encodeItem_length_pos p.2 b hb
    simp only [List.map_cons, List.flatMap_cons, hB, entryWire, List.length_append] at hfuel ⊢
    cases fuel with
    | zero => omega
    | succ f =>
      have hbuf : (encodeHead 3 p.1.length ++ p.1 ++ b) ++
          ((t.map encBytesOf).flatMap entryWire) ++ rest =
          bb :: (tail ++ (p.1 ++ (b ++ ((t.map encBytesOf).flatMap entryWire ++ rest)))) := by
        rw [hhead]; simp [List.append_assoc]
      rw [List.length_cons, hbuf]
      simp only [decodeCore, hbmaj]
      norm_num
      rw [hbread (p.1 ++ (b ++ ((t.map encBytesOf).flatMap entryWire ++ rest)))]
      have hchk : ∀ pk, prev = some pk → keyLtB pk p.1 = false → True := fun _ _ _ => trivial
      cases prev with
      | none =>
        have hviol2 : ¬ List.Chain' (fun a b => keyLtB a b = true)
            ((some p.1).toList ++ t.map Prod.fst) := by
          simpa using hviol
        have hitem : decodeCore f (.item d)
            (b ++ ((t.map encBytesOf).flatMap entryWire ++ rest)) =
            .ok (.one (canon p.2), (t.map encBytesOf).flatMap entryWire ++ rest) := by
          refine item_rt p.2 b d f _ (hvals p (by simp)) hb (hdepths p (by simp)) (by omega)
        have hrec : decodeCore f (.entries d t.length (some p.1))
            ((t.map encBytesOf).flatMap entryWire ++ rest) = .error .mapKeyOrder := by
          refine ih d f rest (some p.1) (fun q hq => hvals q (by simp [hq]))
            (fun q hq => hkeys q (by simp [hq])) (fun q hq => hdepths q (by simp [hq]))
            (fun q hq => hencs q (by simp [hq])) hviol2 (by omega)
        simp only [takeN_exact, hkey.2.1, hitem, hrec]
        simp
      | some pk =>
        by_cases hlt : keyLtB pk p.1 = true
        · have hviol2 : ¬ List.Chain' (fun a b => keyLtB a b = true)
              ((some p.1).toList ++ t.map Prod.fst) := by
            intro hc
            apply hviol
            simp only [Option.toList_some, List.cons_append, List.map_cons] at hc ⊢
            cases t with
            | nil => simp [hlt]
            | cons q t2 =>
              simp only [List.map_cons, List.nil_append] at hc ⊢
              rw [List.chain'_cons]
              exact ⟨hlt, hc⟩
          have hitem : decodeCore f (.item d)
              (b ++ ((t.map encBytesOf).flatMap entryWire ++ rest)) =
              .ok (.one (canon p.2), (t.map encBytesOf).flatMap entryWire ++ rest) := by
            refine item_rt p.2 b d f _ (hvals p (by simp)) hb (hdepths p (by simp)) (by omega)
          have hrec : decodeCore f (.entries d t.length (some p.1))
              ((t.map encBytesOf).flatMap entryWire ++ rest) = .error .mapKeyOrder := by
            refine ih d f rest (some p.1) (fun q hq => hvals q (by simp [hq]))
              (fun q hq => hkeys q (by simp [hq])) (fun q hq => hdepths q (by simp [hq]))
              (fun q hq => hencs q (by simp [hq])) hviol2 (by omega)
          simp only [takeN_exact, hkey.2.1, hitem, hrec]
          simp [hlt]
        · have hltf : keyLtB pk p.1 = false := by
            cases h : keyLtB pk p.1
            · rfl
            · exact absurd h hlt
          simp only [takeN_exact, hkey.2.1, hltf]
          simp [hltf]

/-- C3: decoding a map whose well-formed entries violate the canonical
key order (wrong length order, wrong lexicographic order, or equal keys
— equal keys always violate the strict order, as `keyLtB` is
irreflexive) errors with MapKeyOrder, whose message is the expected
"Map keys must be sorted"; the spec byte vectors confirm the three
violation shapes. -/
theorem claim_c3 :
    (∀ (l : List (List Nat × Value)) (wp : List (List Nat × List Nat)),
      (∀ p ∈ l, validV p.2 = true ∧ vDepth p.2 + 1 ≤ maxDepth) →
      (∀ p ∈ l, p.1.all (· < 256) = true ∧ utf8Valid p.1 = true ∧ p.1.length < 2 ^ 64) →
      l.length < 2 ^ 64 →
      ¬ List.Chain' (fun a b => keyLtB a b = true) (l.map Prod.fst) →
      encPairsL l = .ok wp →
      decode_dag_cbor (encodeHead 5 l.length ++ wp.flatMap entryWire) =
        .error .mapKeyOrder) ∧
    (∀ k : List Nat, keyLtB k k = false) ∧
    errMessage .mapKeyOrder = "Map keys must be sorted" ∧
    decode_dag_cbor [0xA2, 0x63, 0x61, 0x62, 0x63, 0x01, 0x63, 0x61, 0x62, 0x63, 0x02] =
      .error .mapKeyOrder ∧
    decode_dag_cbor [0xA2, 0x63, 0x64, 0x65, 0x66, 0x01, 0x63, 0x61, 0x62, 0x63, 0x02] =
      .error .mapKeyOrder ∧
    decode_dag_cbor [0xA2, 0x63, 0x61, 0x61, 0x61, 0x01, 0x61, 0x78, 0x02] =
      .error .mapKeyOrder := by
  refine ⟨?_, keyLtB_irrefl, rfl, rfl, rfl, rfl⟩
  intro l wp hvd hkeys hllen hviol hwp
  have hwpmap := encPairsL_eq_map l wp hwp
  subst hwpmap
  have hencs : ∀ p ∈ l, ∃ b, encodeItem p.2 = .ok b := encPairsL_mem_ok l _ hwp
  obtain ⟨bb, tail, hhead, hblt, hbmaj, hbread⟩ :=
    encodeHead_spec 5 l.length (by norm_num) hllen
  unfold decode_dag_cbor
  obtain ⟨f, hf⟩ : ∃ f, 2 * (encodeHead 5 l.length ++
      (l.map encBytesOf).flatMap entryWire).length + 2 = f + 1 :=
    ⟨2 * (encodeHead 5 l.length ++ (l.map encBytesOf).flatMap entryWire).length + 1, by omega⟩
  have hflen : 1 ≤ (encodeHead 5 l.length).length := encodeHead_length_pos 5 l.length
  rw [hf]
  have hbuf : encodeHead 5 l.length ++ (l.map encBytesOf).flatMap entryWire =
      bb :: (tail ++ (l.map encBytesOf).flatMap entryWire) := by
    rw [hhead]; simp
  rw [hbuf]
  simp only [decodeCore, hbmaj]
  norm_num
  rw [hbread ((l.map encBytesOf).flatMap entryWire)]
  have hents : decodeCore f (.entries 1 l.length none)
      ((l.map encBytesOf).flatMap entryWire) = .error .mapKeyOrder := by
    have h := entries_order_err l 1 f [] none (fun p hp => (hvd p hp).1) hkeys
      (fun p hp => by have := (hvd p hp).2; omega) hencs (by simpa using hviol) (by
        have hlen2 : (encodeHead 5 l.length ++
            (l.map encBytesOf).flatMap entryWire).length =
            (encodeHead 5 l.length).length +
              ((l.map encBytesOf).flatMap entryWire).length := by simp
        omega)
    rwa [List.append_nil] at h
  simp [maxDepth, hents]

/-- C3 witness: the universal statement at the duplicate-key map
`{"abc": 1, "abc": 2}`. -/
theorem claim_c3_witness :
    decode_dag_cbor (encodeHead 5 ([([0x61, 0x62, 0x63], Value.vint 1),
        ([0x61, 0x62, 0x63], Value.vint 2)] : List (List Nat × Value)).length ++
      (([([0x61, 0x62, 0x63], [0x01]), ([0x61, 0x62, 0x63], [0x02])] :
        List (List Nat × List Nat)).flatMap entryWire)) = .error .mapKeyOrder :=
  claim_c3.1 [([0x61, 0x62, 0x63], Value.vint 1), ([0x61, 0x62, 0x63], Value.vint 2)]
    [([0x61, 0x62, 0x63], [0x01]), ([0x61, 0x62, 0x63], [0x02])]
    (by decide) (by decide) (by decide)
    (by simp [List.chain'_cons, keyLtB_irrefl]) (by rfl)

/-! ## Varint round trip and CAR header validation -/

theorem readUvarintAux_enc : ∀ (fuel count acc n : Nat) (rest : List Nat),
    1 ≤ fuel → n < 2 ^ (7 * fuel) → fuel + count ≤ 10 →
    acc + n * 2 ^ (7 * count) < 2 ^ 64 →
    readUvarintAux (uvarEncAux fuel n ++ rest) count acc =
      .ok (acc + n * 2 ^ (7 * count), rest) := by
  intro fuel
  induction fuel with
  | zero =>
    intro count acc n rest hge _ _ _
    omega
  | succ fuel ih =>
    intro count acc n rest _ hn hcount hbound
    by_cases hsmall : n < 128
    · simp only [uvarEncAux, if_pos hsmall, List.cons_append, readUvarintAux]
      rw [if_neg (by omega)]
      have h1 : n % 128 = n := Nat.mod_eq_of_lt hsmall
      have h2 : n % 256 = n := Nat.mod_eq_of_lt (by omega)
      rw [h1, h2, if_pos hsmall, if_pos hbound]
      simp
    · simp only [uvarEncAux, if_neg hsmall, List.cons_append, readUvarintAux]
      rw [if_neg (by omega)]
      have h1 : (128 + n % 128) % 128 = n % 128 := by omega
      have h2 : (128 + n % 128) % 256 = 128 + n % 128 := by omega
      rw [h1, h2, if_neg (by omega)]
      have hdiv : n / 128 < 2 ^ (7 * fuel) := by
        rw [Nat.div_lt_iff_lt_mul (by norm_num)]
        calc n < 2 ^ (7 * (fuel + 1)) := hn
          _ = 2 ^ (7 * fuel) * 128 := by rw [Nat.mul_add]; ring
      have heq : acc + n % 128 * 2 ^ (7 * count) + n / 128 * 2 ^ (7 * (count + 1)) =
          acc + n * 2 ^ (7 * count) := by
        have : n = n % 128 + n / 128 * 128 := by omega
        calc acc + n % 128 * 2 ^ (7 * count) + n / 128 * 2 ^ (7 * (count + 1)) =
            acc + n % 128 * 2 ^ (7 * count) + n / 128 * (2 ^ (7 * count) * 128) := by
              rw [Nat.mul_add, pow_add]; ring_nf
          _ = acc + (n % 128 + n / 128 * 128) * 2 ^ (7 * count) := by ring
          _ = acc + n * 2 ^ (7 * count) := by rw [← this]
      have hfuel1 : 1 ≤ fuel := by
        rcases Nat.eq_zero_or_pos fuel with h0 | h1
        · subst h0
          norm_num at hn
          omega
        · exact h1
      rw [ih (count + 1) (acc + n % 128 * 2 ^ (7 * count)) (n / 128) rest hfuel1 hdiv
        (by omega) (by rw [heq]; exact hbound)]
      rw [heq]

/-- Reading back a written uvarint. -/
theorem readUvarint_enc (n : Nat) (rest : List Nat) (hn : n < 2 ^ 64) :
    readUvarint (uvarEnc n ++ rest) = .ok (n, rest) := by
  unfold readUvarint uvarEnc
  have h := readUvarintAux_enc 10 0 0 n rest (by omega)
    (by calc n < 2 ^ 64 := hn
          _ ≤ 2 ^ (7 * 10) := by norm_num) (by omega) (by simpa using hn)
  simpa using h

/-- Reading back a constructed frame. -/
theorem readFrame_frame (payload rest : List Nat) (hlen : payload.length < 2 ^ 64) :
    readFrame (uvarEnc payload.length ++ payload ++ rest) = .ok (payload, rest) := by
  unfold readFrame
  rw [List.append_assoc, readUvarint_enc payload.length (payload ++ rest) hlen]
  simp [takeN_exact]

/-- When the decoded header value fails validation, `decode_car` reports
exactly that error and aborts. -/
theorem decode_car_header_err (payload tail2 : List Nat) (hv : Value) (e : Err)
    (hplen : payload.length < 2 ^ 64) (hdec : decode_dag_cbor payload = .ok hv)
    (hchk : checkHeader hv = .error e) :
    decode_car (uvarEnc payload.length ++ payload ++ tail2) = .error e := by
  unfold decode_car
  simp only [readFrame_frame payload tail2 hplen, hdec, hchk]

/-- C8: CAR header validation — for any framed header payload, a non-map
header is InvalidCarHeader, a missing version key is MissingHeaderKey, an
integer version other than 1 is UnsupportedCarVersion, a missing roots
key is MissingHeaderKey, a non-list roots value is InvalidCarHeader, and
an empty roots list is EmptyRoots; in each case the whole operation
returns that error and nothing else (no partial output). -/
theorem claim_c8 :
    ∀ (payload tail2 : List Nat) (hv : Value), payload.length < 2 ^ 64 →
      decode_dag_cbor payload = .ok hv →
      ((∀ kvs, hv ≠ .vmap kvs) →
        decode_car (uvarEnc payload.length ++ payload ++ tail2) =
          .error .invalidCarHeader) ∧
      (∀ kvs, hv = .vmap kvs →
        (lookupKey (asciiBytes "version") kvs.toList = none →
          decode_car (uvarEnc payload.length ++ payload ++ tail2) =
            .error .missingHeaderKey) ∧
        (∀ n : Int, lookupKey (asciiBytes "version") kvs.toList = some (.vint n) →
          n ≠ 1 →
          decode_car (uvarEnc payload.length ++ payload ++ tail2) =
            .error .unsupportedCarVersion) ∧
        (lookupKey (asciiBytes "version") kvs.toList = some (.vint 1) →
          lookupKey (asciiBytes "roots") kvs.toList = none →
          decode_car (uvarEnc payload.length ++ payload ++ tail2) =
            .error .missingHeaderKey) ∧
        (∀ rv : Value, lookupKey (asciiBytes "version") kvs.toList = some (.vint 1) →
          lookupKey (asciiBytes "roots") kvs.toList = some rv → (∀ rs, rv ≠ .vlist rs) →
          decode_car (uvarEnc payload.length ++ payload ++ tail2) =
            .error .invalidCarHeader) ∧
        (lookupKey (asciiBytes "version") kvs.toList = some (.vint 1) →
          lookupKey (asciiBytes "roots") kvs.toList = some (.vlist .nil) →
          decode_car (uvarEnc payload.length ++ payload ++ tail2) =
            .error .emptyRoots)) := by
  intro payload tail2 hv hplen hdec
  constructor
  · intro hnm
    refine decode_car_header_err payload tail2 hv _ hplen hdec ?_
    cases hv with
    | vmap kvs => exact absurd rfl (hnm kvs)
    | vnull => rfl
    | vbool b => rfl
    | vint i => rfl
    | vfloat bits => rfl
    | vbytes bs => rfl
    | vstr s => rfl
    | vlist xs => rfl
    | vlink cid => rfl
  · intro kvs hkvs
    subst hkvs
    refine ⟨?_, ?_, ?_, ?_, ?_⟩
    · intro hver
      refine decode_car_header_err payload tail2 _ _ hplen hdec ?_
      simp only [checkHeader, hver]
    · intro n hver hne
      refine decode_car_header_err payload tail2 _ _ hplen hdec ?_
      simp only [checkHeader, hver]
      rw [if_neg (by simpa using hne)]
    · intro hver hroots
      refine decode_car_header_err payload tail2 _ _ hplen hdec ?_
      simp only [checkHeader, hver, hroots]
      rw [if_pos (by simp)]
    · intro rv hver hroots hnl
      refine decode_car_header_err payload tail2 _ _ hplen hdec ?_
      simp only [checkHeader, hver, hroots]
      cases rv with
      | vlist rs => exact absurd rfl (hnl rs)
      | vnull => rfl
      | vbool b => rfl
      | vint i => rfl
      | vfloat bits => rfl
      | vbytes bs => rfl
      | vstr s => rfl
      | vmap kvs2 => rfl
      | vlink cid => rfl
    · intro hver hroots
      refine decode_car_header_err payload tail2 _ _ hplen hdec ?_
      simp only [checkHeader, hver, hroots]
      rw [if_pos (by simp)]

/-- C8 witness: the header checks at concrete framed payloads (a string
header, `{"version": 2}`, and `{"version": 1, "roots": []}`). -/
theorem claim_c8_witness :
    decode_car (uvarEnc ([0x00] : List Nat).length ++ [0x00] ++ []) =
      .error .invalidCarHeader ∧
    decode_car (uvarEnc ([0xA1, 0x67, 0x76, 0x65, 0x72, 0x73, 0x69, 0x6F, 0x6E,
        0x02] : List Nat).length ++
      [0xA1, 0x67, 0x76, 0x65, 0x72, 0x73, 0x69, 0x6F, 0x6E, 0x02] ++ []) =
      .error .unsupportedCarVersion ∧
    decode_car (uvarEnc ([0xA2, 0x65, 0x72, 0x6F, 0x6F, 0x74, 0x73, 0x80, 0x67,
        0x76, 0x65, 0x72, 0x73, 0x69, 0x6F, 0x6E, 0x01] : List Nat).length ++
      [0xA2, 0x65, 0x72, 0x6F, 0x6F, 0x74, 0x73, 0x80, 0x67,
        0x76, 0x65, 0x72, 0x73, 0x69, 0x6F, 0x6E, 0x01] ++ []) =
      .error .emptyRoots :=
  ⟨((claim_c8 [0x00] [] (.vint 0) (by decide) (by rfl)).1 (by intro kvs h; cases h)),
   ((claim_c8 [0xA1, 0x67, 0x76, 0x65, 0x72, 0x73, 0x69, 0x6F, 0x6E, 0x02] []
      (.vmap (.cons [0x76, 0x65, 0x72, 0x73, 0x69, 0x6F, 0x6E] (.vint 2) .nil))
      (by decide) (by rfl)).2 _ rfl).2.1 2 (by rfl) (by norm_num),
   ((claim_c8 [0xA2, 0x65, 0x72, 0x6F, 0x6F, 0x74, 0x73, 0x80, 0x67,
        0x76, 0x65, 0x72, 0x73, 0x69, 0x6F, 0x6E, 0x01] []
      (.vmap (.cons [0x72, 0x6F, 0x6F, 0x74, 0x73] (.vlist .nil)
        (.cons [0x76, 0x65, 0x72, 0x73, 0x69, 0x6F, 0x6E] (.vint 1) .nil)))
      (by decide) (by rfl)).2 _ rfl).2.2.2.2 (by rfl) (by rfl)⟩

/-! ## Positional digit arithmetic -/

theorem fromDigits_nil (b : Nat) : fromDigitsLE b [] = 0 := rfl

theorem fromDigits_cons (b d : Nat) (t : List Nat) :
    fromDigitsLE b (d :: t) = d + b * fromDigitsLE b t := rfl

theorem digitsLE_zero (b : Nat) : ∀ fuel, digitsLE b fuel 0 = [] := by
  intro fuel; cases fuel <;> simp [digitsLE]

theorem digitsLE_lt (b : Nat) (hb : 0 < b) :
    ∀ (fuel n : Nat), ∀ d ∈ digitsLE b fuel n, d < b := by
  intro fuel
  induction fuel with
  | zero => intro n d hd; simp [digitsLE] at hd
  | succ f ih =>
    intro n d hd
    by_cases h0 : n = 0
    · simp [digitsLE, h0] at hd
    · simp only [digitsLE, if_neg h0, List.mem_cons] at hd
      rcases hd with h | h
      · subst h; exact Nat.mod_lt _ hb
      · exact ih _ _ h

theorem digitsLE_length_le (b : Nat) : ∀ fuel n, (digitsLE b fuel n).length ≤ fuel := by
  intro fuel
  induction fuel with
  | zero => intro n; simp [digitsLE]
  | succ f ih =>
    intro n
    by_cases h0 : n = 0
    · simp [digitsLE, h0]
    · simp only [digitsLE, if_neg h0, List.length_cons]
      exact Nat.succ_le_succ (ih _)

theorem fromDigits_lt (b : Nat) :
    ∀ ds : List Nat, (∀ d ∈ ds, d < b) → fromDigitsLE b ds < b ^ ds.length := by
  intro ds
  induction ds with
  | nil => intro _; simp [fromDigits_nil]
  | cons d t ih =>
    intro h
    have hd : d < b := h d (List.mem_cons_self d t)
    have ht : fromDigitsLE b t < b ^ t.length := ih (fun x hx => h x (List.mem_cons_of_mem d hx))
    have h3 : b * (fromDigitsLE b t + 1) ≤ b * b ^ t.length := Nat.mul_le_mul_left b ht
    rw [Nat.mul_succ] at h3
    rw [fromDigits_cons, List.length_cons, pow_succ]
    have h4 : b * b ^ t.length = b ^ t.length * b := Nat.mul_comm _ _
    omega

theorem fromDigits_digits (b : Nat) (hb : 2 ≤ b) : ∀ fuel n, n < b ^ fuel →
    fromDigitsLE b (digitsLE b fuel n) = n := by
  intro fuel
  induction fuel with
  | zero =>
    intro n hn
    rw [pow_zero] at hn
    have h0 : n = 0 := by omega
    subst h0; rfl
  | succ f ih =>
    intro n hn
    by_cases h0 : n = 0
    · subst h0; simp [digitsLE_zero, fromDigits_nil]
    · have e : digitsLE b (f + 1) n = n % b :: digitsLE b f (n / b) := by
        simp [digitsLE, h0]
      have hdiv : n / b < b ^ f := by
        rw [Nat.div_lt_iff_lt_mul (by omega : 0 < b)]
        rw [pow_succ] at hn; exact hn
      rw [e, fromDigits_cons, ih (n / b) hdiv]
      exact Nat.mod_add_div n b

theorem fromDigits_append (b : Nat) (l1 l2 : List Nat) :
    fromDigitsLE b (l1 ++ l2) = fromDigitsLE b l1 + b ^ l1.length * fromDigitsLE b l2 := by
  induction l1 with
  | nil => simp [fromDigits_nil]
  | cons d t ih =>
    simp only [List.cons_append, fromDigits_cons, ih, List.length_cons, pow_succ]
    ring

theorem fromDigits_ge (b : Nat) (hb : 1 ≤ b) :
    ∀ ds : List Nat, ds.getLast? ≠ some 0 → ds ≠ [] →
    b ^ (ds.length - 1) ≤ fromDigitsLE b ds := by
  intro ds
  induction ds with
  | nil => intro _ h; exact absurd rfl h
  | cons d t ih =>
    intro hlast _
    cases t with
    | nil =>
      have hd : d ≠ 0 := by intro h; apply hlast; simp [h]
      simp only [List.length_cons, List.length_nil, Nat.add_sub_cancel, pow_zero,
        fromDigits_cons, fromDigits_nil, Nat.mul_zero, Nat.add_zero]
      omega
    | cons r rs =>
      have hlast2 : (r :: rs).getLast? ≠ some 0 := by
        simpa [List.getLast?_cons_cons] using hlast
      have ht := ih hlast2 (by simp)
      rw [fromDigits_cons]
      have hl : (d :: r :: rs).length - 1 = ((r :: rs).length - 1) + 1 := by simp
      rw [hl, pow_succ]
      calc b ^ ((r :: rs).length - 1) * b ≤ fromDigitsLE b (r :: rs) * b :=
            Nat.mul_le_mul_right b ht
        _ = b * fromDigitsLE b (r :: rs) := Nat.mul_comm _ _
        _ ≤ d + b * fromDigitsLE b (r :: rs) := Nat.le_add_left _ _

theorem digits_fromDigits (b : Nat) (hb : 2 ≤ b) : ∀ ds : List Nat, ∀ fuel,
    (∀ d ∈ ds, d < b) → ds.getLast? ≠ some 0 → ds.length ≤ fuel →
    digitsLE b fuel (fromDigitsLE b ds) = ds := by
  intro ds
  induction ds with
  | nil => intro fuel _ _ _; rw [fromDigits_nil, digitsLE_zero]
  | cons d t ih =>
    intro fuel hlt hlast hlen
    cases fuel with
    | zero => simp at hlen
    | succ f =>
      have hd : d < b := hlt d (List.mem_cons_self d t)
      rw [fromDigits_cons]
      cases t with
      | nil =>
        have hdne : d ≠ 0 := by intro h; apply hlast; simp [h]
        simp only [fromDigits_nil, Nat.mul_zero, Nat.add_zero]
        have e : digitsLE b (f + 1) d = d % b :: digitsLE b f (d / b) := by
          simp [digitsLE, hdne]
        rw [e, Nat.mod_eq_of_lt hd, Nat.div_eq_of_lt hd, digitsLE_zero]
      | cons r rs =>
        have hlast2 : (r :: rs).getLast? ≠ some 0 := by
          simpa [List.getLast?_cons_cons] using hlast
        have hm : fromDigitsLE b (r :: rs) ≠ 0 := by
          have hge := fromDigits_ge b (by omega) (r :: rs) hlast2 (by simp)
          have h1 : 1 ≤ b ^ ((r :: rs).length - 1) := Nat.one_le_pow _ _ (by omega)
          omega
        have hne : d + b * fromDigitsLE b (r :: rs) ≠ 0 := by
          have h2 : b ≤ b * fromDigitsLE b (r :: rs) :=
            Nat.le_mul_of_pos_right b (by omega)
          omega
        have e : digitsLE b (f + 1) (d + b * fromDigitsLE b (r :: rs)) =
            (d + b * fromDigitsLE b (r :: rs)) % b ::
              digitsLE b f ((d + b * fromDigitsLE b (r :: rs)) / b) := by
          simp [digitsLE, hne]
        have hmod : (d + b * fromDigitsLE b (r :: rs)) % b = d := by
          rw [Nat.add_mul_mod_self_left, Nat.mod_eq_of_lt hd]
        have hdiv : (d + b * fromDigitsLE b (r :: rs)) / b = fromDigitsLE b (r :: rs) := by
          rw [Nat.add_mul_div_left _ _ (by omega : 0 < b), Nat.div_eq_of_lt hd, Nat.zero_add]
        have hlen2 : (r :: rs).length ≤ f := by simp at hlen ⊢; omega
        rw [e, hmod, hdiv,
          ih f (fun x hx => hlt x (List.mem_cons_of_mem d hx)) hlast2 hlen2]

theorem digitsLE_rev_head (b : Nat) (hb : 2 ≤ b) : ∀ fuel n, n ≠ 0 → n < b ^ fuel →
    ∃ d t, (digitsLE b fuel n).reverse = d :: t ∧ d ≠ 0 := by
  intro fuel
  induction fuel with
  | zero => intro n h0 hn; rw [pow_zero] at hn; omega
  | succ f ih =>
    intro n h0 hn
    have e : digitsLE b (f + 1) n = n % b :: digitsLE b f (n / b) := by
      simp [digitsLE, h0]
    by_cases hq : n / b = 0
    · have hnb : n < b := (Nat.div_eq_zero_iff (by omega : 0 < b)).mp hq
      refine ⟨n % b, [], ?_, ?_⟩
      · rw [e, hq, digitsLE_zero]; rfl
      · rw [Nat.mod_eq_of_lt hnb]; exact h0
    · have hq2 : n / b < b ^ f := by
        rw [Nat.div_lt_iff_lt_mul (by omega : 0 < b)]
        rw [pow_succ] at hn; exact hn
      obtain ⟨d, t, ht, hd⟩ := ih (n / b) hq hq2
      exact ⟨d, t ++ [n % b], by rw [e]; simp [ht], hd⟩

theorem digitsLE_getD (b : Nat) (hb : 2 ≤ b) : ∀ fuel n i, n < b ^ fuel →
    (digitsLE b fuel n).getD i 0 = n / b ^ i % b := by
  intro fuel
  induction fuel with
  | zero =>
    intro n i hn
    rw [pow_zero] at hn
    have h0 : n = 0 := by omega
    subst h0
    simp [digitsLE]
  | succ f ih =>
    intro n i hn
    by_cases h0 : n = 0
    · subst h0; simp [digitsLE_zero]
    · have e : digitsLE b (f + 1) n = n % b :: digitsLE b f (n / b) := by
        simp [digitsLE, h0]
      rw [e]
      cases i with
      | zero => simp
      | succ j =>
        have hq2 : n / b < b ^ f := by
          rw [Nat.div_lt_iff_lt_mul (by omega : 0 < b)]
          rw [pow_succ] at hn; exact hn
        simp only [List.getD_cons_succ]
        rw [ih (n / b) j hq2, Nat.div_div_eq_div_mul, pow_succ']

/-! ## Leading zeros -/

theorem clz_replicate (z : Nat) : countLeadZeros (List.replicate z 0) = z := by
  induction z with
  | zero => rfl
  | succ k ih => simp [List.replicate_succ, countLeadZeros, ih]

theorem clz_replicate_append (z d : Nat) (t : List Nat) (hd : d ≠ 0) :
    countLeadZeros (List.replicate z 0 ++ d :: t) = z := by
  induction z with
  | zero => simp [countLeadZeros, hd]
  | succ k ih => simp [List.replicate_succ, countLeadZeros, ih]

theorem clz_take (l : List Nat) :
    l.take (countLeadZeros l) = List.replicate (countLeadZeros l) 0 := by
  induction l with
  | nil => simp [countLeadZeros]
  | cons d t ih =>
    by_cases hd : d = 0
    · subst hd
      rw [show countLeadZeros (0 :: t) = countLeadZeros t + 1 from by simp [countLeadZeros]]
      rw [List.take_succ_cons, ih, List.replicate_succ]
    · simp [countLeadZeros, hd]

theorem clz_drop_head (l : List Nat) : ∀ (d : Nat) (t : List Nat),
    l.drop (countLeadZeros l) = d :: t → d ≠ 0 := by
  induction l with
  | nil => intro d t h; simp at h
  | cons x xs ih =>
    intro d t h
    by_cases hx : x = 0
    · subst hx
      rw [show countLeadZeros (0 :: xs) = countLeadZeros xs + 1 from by simp [countLeadZeros]] at h
      rw [List.drop_succ_cons] at h
      exact ih d t h
    · rw [show countLeadZeros (x :: xs) = 0 from by simp [countLeadZeros, hx]] at h
      rw [List.drop_zero] at h
      cases h
      exact hx

theorem take_append_drop_clz (l : List Nat) :
    l = List.replicate (countLeadZeros l) 0 ++ l.drop (countLeadZeros l) := by
  conv_lhs => rw [← List.take_append_drop (countLeadZeros l) l]
  rw [clz_take]

/-! ## Bit strings -/

theorem bitsBE_length : ∀ w n, (bitsBE w n).length = w := by
  intro w
  induction w with
  | zero => intro n; rfl
  | succ v ih => intro n; simp [bitsBE, ih]

theorem valBits_nil : valBits [] = 0 := rfl

theorem valBits_append_bit (l : List Bool) (b : Bool) :
    valBits (l ++ [b]) = 2 * valBits l + (if b then 1 else 0) := by
  simp [valBits, List.foldl_append]

theorem valBits_bitsBE : ∀ w n, n < 2 ^ w → valBits (bitsBE w n) = n := by
  intro w
  induction w with
  | zero =>
    intro n hn
    rw [pow_zero] at hn
    have h0 : n = 0 := by omega
    subst h0; rfl
  | succ v ih =>
    intro n hn
    have hq : n / 2 < 2 ^ v := by
      rw [Nat.div_lt_iff_lt_mul (by omega : 0 < 2)]
      rw [pow_succ] at hn; exact hn
    show valBits (bitsBE v (n / 2) ++ [n % 2 == 1]) = n
    rw [valBits_append_bit, ih (n / 2) hq]
    rcases Nat.mod_two_eq_zero_or_one n with h | h <;> rw [h] <;> simp <;> omega

theorem bitsBE_valBits : ∀ l : List Bool, bitsBE l.length (valBits l) = l := by
  intro l
  induction l using List.reverseRecOn with
  | nil => rfl
  | append_singleton t b ih =>
    rw [valBits_append_bit]
    have hl : (t ++ [b]).length = t.length + 1 := by simp
    rw [hl]
    show bitsBE t.length ((2 * valBits t + if b then 1 else 0) / 2) ++
        [(2 * valBits t + if b then 1 else 0) % 2 == 1] = t ++ [b]
    have hdiv : (2 * valBits t + if b then 1 else 0) / 2 = valBits t := by
      cases b <;> simp <;> omega
    have hmod : ((2 * valBits t + if b then 1 else 0) % 2 == 1) = b := by
      cases b <;> simp [Nat.add_mul_mod_self_left] <;> omega
    rw [hdiv, hmod, ih]

theorem valBits_aux_lt : ∀ (l : List Bool) (a : Nat),
    l.foldl (fun a b => 2 * a + (if b then 1 else 0)) a < (a + 1) * 2 ^ l.length := by
  intro l
  induction l with
  | nil => intro a; simp
  | cons b t ih =>
    intro a
    have h1 := ih (2 * a + if b then 1 else 0)
    have h2 : (2 * a + (if b then 1 else 0) + 1) * 2 ^ t.length ≤
        (a + 1) * 2 ^ (t.length + 1) := by
      rw [pow_succ]
      have hb : (if b then 1 else 0) ≤ 1 := by cases b <;> simp
      nlinarith [Nat.pos_pow_of_pos t.length (by norm_num : 0 < 2)]
    calc (b :: t).foldl (fun a b => 2 * a + (if b then 1 else 0)) a
        = t.foldl (fun a b => 2 * a + (if b then 1 else 0)) (2 * a + if b then 1 else 0) := by
          simp
      _ < (2 * a + (if b then 1 else 0) + 1) * 2 ^ t.length := h1
      _ ≤ (a + 1) * 2 ^ (t.length + 1) := h2
      _ = (a + 1) * 2 ^ (b :: t).length := by simp

theorem valBits_lt (l : List Bool) : valBits l < 2 ^ l.length := by
  have h := valBits_aux_lt l 0
  simpa [valBits] using h

theorem any_replicate_false (p : Nat) :
    (List.replicate p false).any (fun b => b) = false := by
  induction p with
  | zero => rfl
  | succ k ih => simp [List.replicate_succ, ih]

theorem flatMap_bitsBE_length (w : Nat) (bytes : List Nat) :
    (bytes.flatMap (bitsBE w)).length = w * bytes.length := by
  induction bytes with
  | nil => simp
  | cons x t ih => simp [List.flatMap_cons, ih, bitsBE_length, Nat.mul_succ, Nat.mul_comm]; ring

theorem flatMap_eq_flatten_map {α β : Type} (f : α → List β) (l : List α) :
    l.flatMap f = (l.map f).flatten := by
  induction l with
  | nil => rfl
  | cons x t ih => simp [List.flatMap_cons, ih]

theorem flatMap_map_comp {α β γ : Type} (f : α → β) (g : β → List γ) (l : List α) :
    (l.map f).flatMap g = l.flatMap (fun x => g (f x)) := by
  induction l with
  | nil => rfl
  | cons x t ih => simp [List.flatMap_cons, ih]

theorem flatMap_congr_mem {α β : Type} (f g : α → List β) (l : List α)
    (h : ∀ x ∈ l, f x = g x) : l.flatMap f = l.flatMap g := by
  induction l with
  | nil => rfl
  | cons x t ih =>
    rw [List.flatMap_cons, List.flatMap_cons, h x (List.mem_cons_self x t),
      ih (fun y hy => h y (List.mem_cons_of_mem x hy))]

/-! ## Bit chunking -/

theorem toChunksAux_nil (k : Nat) : ∀ fuel, toChunksAux k fuel ([] : List Bool) = [] := by
  intro fuel; cases fuel <;> rfl

theorem toChunksAux_mem_length (k : Nat) : ∀ (fuel : Nat) (l c : List Bool),
    c ∈ toChunksAux k fuel l → c.length ≤ k := by
  intro fuel
  induction fuel with
  | zero => intro l c hc; simp [toChunksAux] at hc
  | succ f ih =>
    intro l c hc
    cases l with
    | nil => simp [toChunksAux] at hc
    | cons x xs =>
      simp only [toChunksAux, List.mem_cons] at hc
      rcases hc with h | h
      · subst h; exact List.length_take_le k (x :: xs)
      · exact ih _ _ h

theorem chunks_join_pad (k : Nat) (hk : 0 < k) : ∀ (fuel : Nat) (l : List Bool),
    l.length ≤ fuel →
    (toChunksAux k fuel l).flatMap (fun c => c ++ List.replicate (k - c.length) false) =
      l ++ List.replicate ((k - l.length % k) % k) false := by
  intro fuel
  induction fuel with
  | zero =>
    intro l hl
    have h0 : l = [] := List.eq_nil_of_length_eq_zero (by omega)
    subst h0
    simp [toChunksAux, Nat.mod_self]
  | succ f ih =>
    intro l hl
    cases l with
    | nil => simp [toChunksAux, Nat.mod_self]
    | cons x xs =>
      simp only [toChunksAux, List.flatMap_cons]
      rcases Nat.lt_or_ge (x :: xs).length k with hlen | hlen
      · have htake : (x :: xs).take k = x :: xs := List.take_of_length_le (by omega)
        have hdrop : (x :: xs).drop k = [] := List.drop_eq_nil_of_le (by omega)
        rw [htake, hdrop, toChunksAux_nil]
        simp only [List.flatMap_nil, List.append_nil]
        have h1 : (x :: xs).length % k = (x :: xs).length := Nat.mod_eq_of_lt hlen
        have h2 : (k - (x :: xs).length) % k = k - (x :: xs).length := by
          apply Nat.mod_eq_of_lt
          have : 0 < (x :: xs).length := by simp
          omega
        rw [h1, h2]
      · have hpad : k - ((x :: xs).take k).length = 0 := by rw [List.length_take]; omega
        rw [hpad]
        simp only [List.replicate_zero, List.append_nil]
        have hdl : ((x :: xs).drop k).length ≤ f := by
          rw [List.length_drop]
          have : 0 < k := hk
          omega
        rw [ih _ hdl, ← List.append_assoc, List.take_append_drop]
        have hmods : ((x :: xs).drop k).length % k = (x :: xs).length % k := by
          rw [List.length_drop]
          conv_rhs => rw [Nat.mod_eq_sub_mod hlen]
        rw [hmods]

theorem chunks_of_blocks (k : Nat) (hk : 0 < k) : ∀ (blocks : List (List Bool)) (fuel : Nat),
    (∀ b ∈ blocks, b.length = k) → blocks.flatten.length ≤ fuel →
    toChunksAux k fuel blocks.flatten = blocks := by
  intro blocks
  induction blocks with
  | nil => intro fuel _ _; simp only [List.flatten_nil]; exact toChunksAux_nil k fuel
  | cons b rest ih =>
    intro fuel hlen hfuel
    have hb : b.length = k := hlen b (List.mem_cons_self b rest)
    rw [List.flatten_cons] at hfuel ⊢
    have hflen : (b ++ rest.flatten).length = k + rest.flatten.length := by
      rw [List.length_append, hb]
    cases fuel with
    | zero => omega
    | succ f =>
      obtain ⟨x, xs, hx⟩ : ∃ x xs, b ++ rest.flatten = x :: xs := by
        cases hcase : b ++ rest.flatten with
        | nil =>
          exfalso
          have hc := congrArg List.length hcase
          rw [hflen] at hc
          simp at hc
          omega
        | cons x xs => exact ⟨x, xs, rfl⟩
      have e : toChunksAux k (f + 1) (b ++ rest.flatten) =
          (b ++ rest.flatten).take k :: toChunksAux k f ((b ++ rest.flatten).drop k) := by
        rw [hx]; simp [toChunksAux]
      have htake : (b ++ rest.flatten).take k = b := by
        rw [← hb]; exact List.take_left b _
      have hdrop : (b ++ rest.flatten).drop k = rest.flatten := by
        rw [← hb]; exact List.drop_left b _
      rw [e, htake, hdrop,
        ih f (fun c hc => hlen c (List.mem_cons_of_mem b hc)) (by omega)]

/-! ## Alphabet index facts -/

theorem charIdx_b32_getD : ∀ i, i < 32 → charIdx alphaB32 (alphaB32.getD i ' ') = some i := by
  decide

theorem charIdx_b58_getD : ∀ i, i < 58 → charIdx alphaB58 (alphaB58.getD i ' ') = some i := by
  decide

theorem mapIdx_map_getD (alpha : List Char) : ∀ ds : List Nat,
    (∀ i ∈ ds, charIdx alpha (alpha.getD i ' ') = some i) →
    mapIdx alpha (ds.map (fun i => alpha.getD i ' ')) = some ds := by
  intro ds
  induction ds with
  | nil => intro _; rfl
  | cons i t ih =>
    intro h
    have hi := h i (List.mem_cons_self i t)
    have ht := ih (fun x hx => h x (List.mem_cons_of_mem i hx))
    simp only [List.map_cons, mapIdx, hi, ht]

/-! ## Base32 roundtrip -/

theorem encodeBits_eq_map (bytes : List Nat) :
    encodeBits 5 alphaB32 bytes =
      ((toChunks 5 (bytes.flatMap (bitsBE 8))).map
        (fun c => valBits (c ++ List.replicate (5 - c.length) false))).map
        (fun i => alphaB32.getD i ' ') := by
  rw [List.map_map]
  rfl

theorem bits_rt (bytes : List Nat) (hbytes : ∀ x ∈ bytes, x < 256) :
    decodeBits 5 alphaB32 (encodeBits 5 alphaB32 bytes) = .ok bytes := by
  have hlen5 : ∀ c ∈ toChunks 5 (bytes.flatMap (bitsBE 8)),
      (c ++ List.replicate (5 - c.length) false).length = 5 := by
    intro c hc
    have h1 : c.length ≤ 5 := toChunksAux_mem_length 5 _ _ c hc
    rw [List.length_append, List.length_replicate]; omega
  have hidx : ∀ i ∈ (toChunks 5 (bytes.flatMap (bitsBE 8))).map
      (fun c => valBits (c ++ List.replicate (5 - c.length) false)), i < 32 := by
    intro i hi
    rw [List.mem_map] at hi
    obtain ⟨c, hc, hrfl⟩ := hi
    subst hrfl
    have h2 := valBits_lt (c ++ List.replicate (5 - c.length) false)
    rw [hlen5 c hc] at h2
    norm_num at h2
    exact h2
  have hmap : mapIdx alphaB32 (encodeBits 5 alphaB32 bytes) =
      some ((toChunks 5 (bytes.flatMap (bitsBE 8))).map
        (fun c => valBits (c ++ List.replicate (5 - c.length) false))) := by
    rw [encodeBits_eq_map]
    exact mapIdx_map_getD alphaB32 _ (fun i hi => charIdx_b32_getD i (hidx i hi))
  have hexp : ((toChunks 5 (bytes.flatMap (bitsBE 8))).map
        (fun c => valBits (c ++ List.replicate (5 - c.length) false))).flatMap (bitsBE 5) =
      bytes.flatMap (bitsBE 8) ++
        List.replicate ((5 - (bytes.flatMap (bitsBE 8)).length % 5) % 5) false := by
    rw [flatMap_map_comp]
    have hcongr : (toChunks 5 (bytes.flatMap (bitsBE 8))).flatMap
        (fun c => bitsBE 5 (valBits (c ++ List.replicate (5 - c.length) false))) =
        (toChunks 5 (bytes.flatMap (bitsBE 8))).flatMap
        (fun c => c ++ List.replicate (5 - c.length) false) := by
      apply flatMap_congr_mem
      intro c hc
      have h5 := hlen5 c hc
      have hbv := bitsBE_valBits (c ++ List.replicate (5 - c.length) false)
      rw [h5] at hbv
      exact hbv
    rw [hcongr]
    exact chunks_join_pad 5 (by norm_num) _ _ (le_refl _)
  have hout : (toChunks 8 (bytes.flatMap (bitsBE 8))).map valBits = bytes := by
    have h1 : bytes.flatMap (bitsBE 8) = (bytes.map (bitsBE 8)).flatten :=
      flatMap_eq_flatten_map _ _
    have hblocks : toChunksAux 8 (bytes.flatMap (bitsBE 8)).length (bytes.flatMap (bitsBE 8))
        = bytes.map (bitsBE 8) := by
      rw [h1]
      apply chunks_of_blocks 8 (by norm_num)
      · intro b hb
        rw [List.mem_map] at hb
        obtain ⟨x, _, hrfl⟩ := hb
        subst hrfl
        exact bitsBE_length 8 x
      · exact le_refl _
    rw [show toChunks 8 (bytes.flatMap (bitsBE 8)) =
        toChunksAux 8 (bytes.flatMap (bitsBE 8)).length (bytes.flatMap (bitsBE 8)) from rfl,
      hblocks, List.map_map]
    have hpt : ∀ x ∈ bytes, (valBits ∘ bitsBE 8) x = x := by
      intro x hx
      simp only [Function.comp]
      refine valBits_bitsBE 8 x ?_
      have := hbytes x hx
      norm_num
      omega
    rw [List.map_congr_left hpt]
    exact List.map_id' bytes
  simp only [decodeBits, hmap]
  rw [hexp]
  rw [List.length_append, List.length_replicate]
  have hdiv : ((bytes.flatMap (bitsBE 8)).length +
      (5 - (bytes.flatMap (bitsBE 8)).length % 5) % 5) / 8 * 8
      = (bytes.flatMap (bitsBE 8)).length := by
    rw [flatMap_bitsBE_length]
    omega
  rw [hdiv, List.take_left, List.drop_left, List.length_replicate]
  rw [decide_eq_false
    (by omega : ¬ (5 ≤ (5 - (bytes.flatMap (bitsBE 8)).length % 5) % 5))]
  rw [any_replicate_false]
  simp [hout]

/-! ## Base58 roundtrip -/

theorem bignumEncode_eq_map (bytes : List Nat) :
    bignumEncode 58 alphaB58 bytes =
      (List.replicate (countLeadZeros bytes) 0 ++
        (digitsLE 58 (8 * (bytes.drop (countLeadZeros bytes)).length)
          (fromDigitsLE 256 (bytes.drop (countLeadZeros bytes)).reverse)).reverse).map
        (fun i => alphaB58.getD i ' ') := by
  simp [bignumEncode, List.map_append, List.map_replicate]

theorem bignumDecode_of_mapIdx (cs : List Char) (ds : List Nat)
    (h : mapIdx alphaB58 cs = some ds) :
    bignumDecode 58 alphaB58 cs = .ok (List.replicate (countLeadZeros ds) 0 ++
      (digitsLE 256 (ds.drop (countLeadZeros ds)).length
        (fromDigitsLE 58 (ds.drop (countLeadZeros ds)).reverse)).reverse) := by
  simp only [bignumDecode, h]

theorem bignum_rt (bytes : List Nat) (hbytes : ∀ x ∈ bytes, x < 256) :
    bignumDecode 58 alphaB58 (bignumEncode 58 alphaB58 bytes) = .ok bytes := by
  have hidx : ∀ i ∈ List.replicate (countLeadZeros bytes) 0 ++
      (digitsLE 58 (8 * (bytes.drop (countLeadZeros bytes)).length)
        (fromDigitsLE 256 (bytes.drop (countLeadZeros bytes)).reverse)).reverse, i < 58 := by
    intro i hi
    rw [List.mem_append] at hi
    rcases hi with h | h
    · have h0 := List.eq_of_mem_replicate h
      omega
    · rw [List.mem_reverse] at h
      exact digitsLE_lt 58 (by norm_num) _ _ i h
  have hmapIdx : mapIdx alphaB58 (bignumEncode 58 alphaB58 bytes) =
      some (List.replicate (countLeadZeros bytes) 0 ++
        (digitsLE 58 (8 * (bytes.drop (countLeadZeros bytes)).length)
          (fromDigitsLE 256 (bytes.drop (countLeadZeros bytes)).reverse)).reverse) := by
    rw [bignumEncode_eq_map]
    exact mapIdx_map_getD alphaB58 _ (fun i hi => charIdx_b58_getD i (hidx i hi))
  rw [bignumDecode_of_mapIdx _ _ hmapIdx]
  have hsplit := take_append_drop_clz bytes
  cases hcore : bytes.drop (countLeadZeros bytes) with
  | nil =>
    rw [hcore] at hsplit
    rw [List.append_nil] at hsplit
    simp only [List.reverse_nil, fromDigits_nil, digitsLE_zero, List.append_nil]
    rw [clz_replicate]
    have hdz : (List.replicate (countLeadZeros bytes) 0).drop (countLeadZeros bytes) = [] :=
      List.drop_eq_nil_of_le (by simp)
    rw [hdz]
    simp only [List.reverse_nil, fromDigits_nil, digitsLE_zero, List.append_nil]
    rw [← hsplit]
  | cons cb ct =>
    have hcb : cb ≠ 0 := clz_drop_head bytes cb ct hcore
    have hcore_lt : ∀ x ∈ (cb :: ct).reverse, x < 256 := by
      intro x hx
      rw [List.mem_reverse, ← hcore] at hx
      exact hbytes x (List.mem_of_mem_drop hx)
    have hlastrev : ((cb :: ct).reverse).getLast? = some cb := by
      rw [List.getLast?_reverse]
      rfl
    have hrevne : (cb :: ct).reverse ≠ [] := by simp
    have hn_lt : fromDigitsLE 256 (cb :: ct).reverse < 256 ^ (cb :: ct).length := by
      have h1 := fromDigits_lt 256 (cb :: ct).reverse hcore_lt
      rwa [List.length_reverse] at h1
    have hn_lt58 : fromDigitsLE 256 (cb :: ct).reverse < 58 ^ (8 * (cb :: ct).length) := by
      calc fromDigitsLE 256 (cb :: ct).reverse < 256 ^ (cb :: ct).length := hn_lt
        _ ≤ (58 ^ 8) ^ (cb :: ct).length :=
            Nat.pow_le_pow_left (by norm_num) _
        _ = 58 ^ (8 * (cb :: ct).length) := by rw [← pow_mul]
    have hn_ne : fromDigitsLE 256 (cb :: ct).reverse ≠ 0 := by
      have hge := fromDigits_ge 256 (by norm_num) (cb :: ct).reverse
        (by rw [hlastrev]; simp [hcb]) hrevne
      have h1 : 1 ≤ (256 : Nat) ^ ((cb :: ct).reverse.length - 1) :=
        Nat.one_le_pow _ _ (by norm_num)
      omega
    obtain ⟨d, t, hdt, hd⟩ := digitsLE_rev_head 58 (by norm_num) _ _ hn_ne hn_lt58
    rw [hdt]
    rw [clz_replicate_append _ _ _ hd]
    have hdrop : (List.replicate (countLeadZeros bytes) 0 ++ d :: t).drop (countLeadZeros bytes)
        = d :: t := by
      have h1 := List.drop_left (List.replicate (countLeadZeros bytes) (0 : Nat)) (d :: t)
      rwa [List.length_replicate] at h1
    rw [hdrop, ← hdt, List.reverse_reverse]
    rw [fromDigits_digits 58 (by norm_num) _ _ hn_lt58]
    have hdigits_lt : ∀ x ∈ digitsLE 58 (8 * (cb :: ct).length)
        (fromDigitsLE 256 (cb :: ct).reverse), x < 58 :=
      fun x hx => digitsLE_lt 58 (by norm_num) _ _ x hx
    have hdlen_lt : fromDigitsLE 256 (cb :: ct).reverse <
        58 ^ (digitsLE 58 (8 * (cb :: ct).length)
          (fromDigitsLE 256 (cb :: ct).reverse)).length := by
      have h1 := fromDigits_lt 58 _ hdigits_lt
      rwa [fromDigits_digits 58 (by norm_num) _ _ hn_lt58] at h1
    have hLle : (cb :: ct).reverse.length ≤
        (digitsLE 58 (8 * (cb :: ct).length)
          (fromDigitsLE 256 (cb :: ct).reverse)).length := by
      have hge := fromDigits_ge 256 (by norm_num) (cb :: ct).reverse
        (by rw [hlastrev]; simp [hcb]) hrevne
      have h58 : (58 : Nat) ^ ((cb :: ct).reverse.length - 1) ≤
          (256 : Nat) ^ ((cb :: ct).reverse.length - 1) :=
        Nat.pow_le_pow_left (by norm_num) _
      have hlt : (58 : Nat) ^ ((cb :: ct).reverse.length - 1) <
          58 ^ (digitsLE 58 (8 * (cb :: ct).length)
            (fromDigitsLE 256 (cb :: ct).reverse)).length := by
        calc (58 : Nat) ^ ((cb :: ct).reverse.length - 1)
            ≤ 256 ^ ((cb :: ct).reverse.length - 1) := h58
          _ ≤ fromDigitsLE 256 (cb :: ct).reverse := hge
          _ < _ := hdlen_lt
      have h2 := (Nat.pow_lt_pow_iff_right (by norm_num : 1 < 58)).mp hlt
      have h3 : (cb :: ct).reverse.length ≠ 0 := by simp
      omega
    have hrevlen : ((digitsLE 58 (8 * (cb :: ct).length)
        (fromDigitsLE 256 (cb :: ct).reverse)).reverse).length =
        (digitsLE 58 (8 * (cb :: ct).length)
          (fromDigitsLE 256 (cb :: ct).reverse)).length := List.length_reverse _
    rw [hrevlen]
    rw [digits_fromDigits 256 (by norm_num) (cb :: ct).reverse _ hcore_lt
      (by rw [hlastrev]; simp [hcb]) hLle]
    rw [List.reverse_reverse]
    rw [hcore] at hsplit
    rw [← hsplit]

/-! ## Byte-boundedness and structure of parsed CIDs -/

theorem uvarEncAux_lt : ∀ (fuel n : Nat), ∀ x ∈ uvarEncAux fuel n, x < 256 := by
  intro fuel
  induction fuel with
  | zero => intro n x hx; simp [uvarEncAux] at hx
  | succ f ih =>
    intro n x hx
    by_cases h : n < 128
    · simp only [uvarEncAux, if_pos h, List.mem_singleton] at hx
      omega
    · simp only [uvarEncAux, if_neg h, List.mem_cons] at hx
      rcases hx with h1 | h1
      · have := Nat.mod_lt n (by omega : 0 < 128)
        omega
      · exact ih _ x h1

theorem uvarEnc_lt (n : Nat) : ∀ x ∈ uvarEnc n, x < 256 :=
  uvarEncAux_lt 10 n

theorem readUvarintAux_ok : ∀ (l : List Nat) (count acc n : Nat) (rest : List Nat),
    readUvarintAux l count acc = .ok (n, rest) → n < 2 ^ 64 ∧ ∀ x ∈ rest, x ∈ l := by
  intro l
  induction l with
  | nil => intro count acc n rest h; simp [readUvarintAux] at h
  | cons b t ih =>
    intro count acc n rest h
    simp only [readUvarintAux] at h
    by_cases h10 : 10 ≤ count
    · rw [if_pos h10] at h; simp at h
    · rw [if_neg h10] at h
      by_cases hb : b % 256 < 128
      · rw [if_pos hb] at h
        by_cases hacc : acc + b % 128 * 2 ^ (7 * count) < 2 ^ 64
        · rw [if_pos hacc] at h
          injection h with h
          injection h with h1 h2
          subst h1; subst h2
          exact ⟨hacc, fun x hx => List.mem_cons_of_mem b hx⟩
        · rw [if_neg hacc] at h; simp at h
      · rw [if_neg hb] at h
        obtain ⟨hn, hmem⟩ := ih _ _ _ _ h
        exact ⟨hn, fun x hx => List.mem_cons_of_mem b (hmem x hx)⟩

theorem readUvarint_ok (l : List Nat) (n : Nat) (rest : List Nat)
    (h : readUvarint l = .ok (n, rest)) : n < 2 ^ 64 ∧ ∀ x ∈ rest, x ∈ l :=
  readUvarintAux_ok l 0 0 n rest h

theorem takeN_some (k : Nat) (l pre post : List Nat) (h : takeN k l = some (pre, post)) :
    pre.length = k ∧ (∀ x ∈ pre, x ∈ l) ∧ (∀ x ∈ post, x ∈ l) := by
  rw [takeN] at h
  by_cases hk : k ≤ l.length
  · rw [if_pos hk] at h
    injection h with h
    injection h with h1 h2
    subst h1; subst h2
    refine ⟨by rw [List.length_take]; omega, ?_, ?_⟩
    · exact fun x hx => List.mem_of_mem_take hx
    · exact fun x hx => List.mem_of_mem_drop hx
  · rw [if_neg hk] at h; simp at h

theorem parseCidPrefix_wf (bs : List Nat) (hbs : ∀ x ∈ bs, x < 256) (c : Cid)
    (rest : List Nat) (h : parseCidPrefix bs = .ok (c, rest)) : WfCid c := by
  rw [parseCidPrefix] at h
  cases hr1 : readUvarint bs with
  | error e => simp [hr1] at h
  | ok p1 =>
    obtain ⟨a, r1⟩ := p1
    simp only [hr1] at h
    obtain ⟨ha64, hmem1⟩ := readUvarint_ok bs a r1 hr1
    cases hr2 : readUvarint r1 with
    | error e => simp [hr2] at h
    | ok p2 =>
      obtain ⟨b, r2⟩ := p2
      simp only [hr2] at h
      obtain ⟨hb64, hmem2⟩ := readUvarint_ok r1 b r2 hr2
      by_cases hv0 : (a == 0x12 && b == 0x20) = true
      · rw [if_pos hv0] at h
        cases ht : takeN 32 r2 with
        | none => simp [ht] at h
        | some pq =>
          obtain ⟨dg, rest2⟩ := pq
          simp only [ht] at h
          injection h with h
          injection h with h1 h2
          subst h1
          obtain ⟨hdl, hdmem, _⟩ := takeN_some 32 r2 dg rest2 ht
          refine ⟨?_, by simpa using hdl, by norm_num, by norm_num, by norm_num, ?_⟩
          · intro x hx
            exact hbs x (hmem1 x (hmem2 x (hdmem x hx)))
          · left; exact ⟨rfl, rfl, rfl, rfl⟩
      · rw [if_neg hv0] at h
        by_cases hv1 : (a == 1) = true
        · rw [if_pos hv1] at h
          cases hr3 : readUvarint r2 with
          | error e => simp [hr3] at h
          | ok p3 =>
            obtain ⟨hc, r3⟩ := p3
            simp only [hr3] at h
            obtain ⟨hc64, hmem3⟩ := readUvarint_ok r2 hc r3 hr3
            cases hr4 : readUvarint r3 with
            | error e => simp [hr4] at h
            | ok p4 =>
              obtain ⟨hs, r4⟩ := p4
              simp only [hr4] at h
              obtain ⟨hs64, hmem4⟩ := readUvarint_ok r3 hs r4 hr4
              by_cases h64 : 64 < hs
              · rw [if_pos h64] at h; simp at h
              · rw [if_neg h64] at h
                cases ht : takeN hs r4 with
                | none => simp [ht] at h
                | some pq =>
                  obtain ⟨dg, rest2⟩ := pq
                  simp only [ht] at h
                  injection h with h
                  injection h with h1 h2
                  subst h1
                  obtain ⟨hdl, hdmem, _⟩ := takeN_some hs r4 dg rest2 ht
                  refine ⟨?_, by simpa using hdl, hb64, hc64, hs64, ?_⟩
                  · intro x hx
                    exact hbs x (hmem1 x (hmem2 x (hmem3 x (hmem4 x (hdmem x hx)))))
                  · right
                    refine ⟨rfl, ?_⟩
                    show hs ≤ 64
                    omega
        · rw [if_neg hv1] at h; simp at h

theorem decodeCidBytes_wf (bs : List Nat) (hbs : ∀ x ∈ bs, x < 256) (c : Cid)
    (h : decodeCidBytes bs = .ok c) : WfCid c := by
  rw [decodeCidBytes] at h
  by_cases hg : (bs.length == 34 && bs.take 2 == [0x12, 0x20]) = true
  · rw [if_pos hg] at h
    injection h with h
    subst h
    rw [Bool.and_eq_true, beq_iff_eq, beq_iff_eq] at hg
    refine ⟨?_, ?_, by norm_num, by norm_num, by norm_num, ?_⟩
    · intro x hx
      exact hbs x (List.mem_of_mem_drop hx)
    · show (bs.drop 2).length = 32
      rw [List.length_drop, hg.1]
    · left; exact ⟨rfl, rfl, rfl, rfl⟩
  · rw [if_neg hg] at h
    cases hp : parseCidPrefix bs with
    | error e => simp [hp] at h
    | ok pr =>
      obtain ⟨c0, rest⟩ := pr
      simp only [hp] at h
      cases rest with
      | nil =>
        injection h with h
        subst h
        exact parseCidPrefix_wf bs hbs c0 [] hp
      | cons y ys => simp at h

theorem decodeBits_lt (gs : Nat) (alpha : List Char) (cs : List Char) (bs : List Nat)
    (h : decodeBits gs alpha cs = .ok bs) : ∀ x ∈ bs, x < 256 := by
  rw [decodeBits] at h
  cases hm : mapIdx alpha cs with
  | none => simp [hm] at h
  | some ds =>
    simp only [hm] at h
    split at h
    · simp at h
    · injection h with h
      subst h
      intro x hx
      rw [List.mem_map] at hx
      obtain ⟨ch, hch, hrfl⟩ := hx
      subst hrfl
      have hle : ch.length ≤ 8 := toChunksAux_mem_length 8 _ _ ch hch
      have hv := valBits_lt ch
      have hpow : (2 : Nat) ^ ch.length ≤ 2 ^ 8 := Nat.pow_le_pow_right (by norm_num) hle
      norm_num at hpow
      omega

theorem bignumDecode_lt (base : Nat) (alpha : List Char) (cs : List Char) (bs : List Nat)
    (h : bignumDecode base alpha cs = .ok bs) : ∀ x ∈ bs, x < 256 := by
  rw [bignumDecode] at h
  cases hm : mapIdx alpha cs with
  | none => simp [hm] at h
  | some ds =>
    simp only [hm] at h
    injection h with h
    subst h
    intro x hx
    rw [List.mem_append] at hx
    rcases hx with h1 | h1
    · have h0 := List.eq_of_mem_replicate h1
      omega
    · rw [List.mem_reverse] at h1
      exact digitsLE_lt 256 (by norm_num) _ _ x h1

theorem decodeBody_lt (bd : BaseDef) (body : List Char) (bs : List Nat)
    (h : decodeBody bd body = .ok bs) : ∀ x ∈ bs, x < 256 := by
  cases bd with
  | bits gs alpha => exact decodeBits_lt gs alpha body bs h
  | bitsPad gs q alpha =>
    rw [decodeBody] at h
    cases hs : stripPad q body with
    | error e => simp [hs, Except.bind] at h
    | ok core =>
      simp only [hs, Except.bind] at h
      exact decodeBits_lt gs alpha core bs h
  | big base alpha => exact bignumDecode_lt base alpha body bs h

theorem decodeMultibase_lt (s : String) (c : Char) (bs : List Nat)
    (h : decodeMultibase s = .ok (c, bs)) : ∀ x ∈ bs, x < 256 := by
  rw [decodeMultibase] at h
  cases hd : s.data with
  | nil => simp [hd] at h
  | cons c0 body =>
    simp only [hd] at h
    cases hb : baseSpec c0 with
    | none => simp [hb] at h
    | some bd =>
      simp only [hb] at h
      cases hdb : decodeBody bd body with
      | error e => simp [hdb, Except.map] at h
      | ok out =>
        simp only [hdb, Except.map] at h
        injection h with h
        injection h with h1 h2
        subst h2
        exact decodeBody_lt bd body out hdb

theorem decodeCidText_wf (s : String) (c : Cid) (h : decodeCidText s = .ok c) : WfCid c := by
  rw [decodeCidText] at h
  by_cases hg : (s.data.length == 46 && s.data.take 2 == ['Q', 'm']) = true
  · rw [if_pos hg] at h
    cases hb : bignumDecode 58 alphaB58 s.data with
    | error e => simp [hb] at h
    | ok bs =>
      simp only [hb] at h
      exact decodeCidBytes_wf bs (bignumDecode_lt 58 alphaB58 s.data bs hb) c h
  · rw [if_neg hg] at h
    cases hm : decodeMultibase s with
    | error e => simp [hm] at h
    | ok pr =>
      obtain ⟨c0, bs⟩ := pr
      simp only [hm] at h
      exact decodeCidBytes_wf bs (decodeMultibase_lt s c0 bs hm) c h

theorem mhBytes_lt (c : Cid) (hdig : ∀ x ∈ c.digest, x < 256) :
    ∀ x ∈ c.mhBytes, x < 256 := by
  intro x hx
  simp only [Cid.mhBytes, List.mem_append] at hx
  rcases hx with (h | h) | h
  · exact uvarEnc_lt _ x h
  · exact uvarEnc_lt _ x h
  · exact hdig x h

theorem binary_lt (c : Cid) (hdig : ∀ x ∈ c.digest, x < 256) :
    ∀ x ∈ c.binary, x < 256 := by
  intro x hx
  rw [Cid.binary] at hx
  by_cases hv : (c.version == 0) = true
  · rw [if_pos hv] at hx
    exact mhBytes_lt c hdig x hx
  · rw [if_neg hv] at hx
    simp only [List.mem_append] at hx
    rcases hx with (h | h) | h
    · exact uvarEnc_lt _ x h
    · exact uvarEnc_lt _ x h
    · exact mhBytes_lt c hdig x h

theorem uvarEnc_small (n : Nat) (h : n < 128) : uvarEnc n = [n] := by
  simp [uvarEnc, uvarEncAux, h]

theorem mhBytes_v0 (c : Cid) (hh : c.hcode = 0x12) (hs : c.hsize = 32) :
    c.mhBytes = 18 :: 32 :: c.digest := by
  rw [Cid.mhBytes, hh, hs]
  rfl

theorem decodeCidBytes_mh_v0 (co : Nat) (dg : List Nat) (hco : co = 0x70)
    (hdl : dg.length = 32) :
    decodeCidBytes (Cid.mhBytes ⟨0, co, 0x12, 32, dg⟩) = .ok ⟨0, co, 0x12, 32, dg⟩ := by
  subst hco
  rw [mhBytes_v0 ⟨0, 0x70, 0x12, 32, dg⟩ rfl rfl]
  rw [decodeCidBytes]
  have hg : ((18 :: 32 :: dg).length == 34 &&
      (18 :: 32 :: dg).take 2 == [0x12, 0x20]) = true := by
    simp [hdl]
  rw [if_pos hg]
  rfl

theorem binary_v1_eq (co hc hs : Nat) (dg : List Nat) :
    Cid.binary ⟨1, co, hc, hs, dg⟩ =
      uvarEnc 1 ++ (uvarEnc co ++ (uvarEnc hc ++ (uvarEnc hs ++ dg))) := by
  rw [Cid.binary]
  rw [if_neg (by simp)]
  simp [Cid.mhBytes, List.append_assoc]

theorem decodeCidBytes_binary_v1 (c : Cid) (hwf : WfCid c) (hv : c.version = 1) :
    decodeCidBytes c.binary = .ok c := by
  obtain ⟨v, co, hc, hs, dg⟩ := c
  obtain ⟨hdig, hdl, hco64, hhc64, hhs64, hcase⟩ := hwf
  have hv1 : v = 1 := hv
  subst hv1
  have hdl2 : dg.length = hs := hdl
  have hhs_le : hs ≤ 64 := by
    rcases hcase with ⟨h0, _⟩ | ⟨_, h⟩
    · exact absurd h0 (by simp)
    · exact h
  have e := binary_v1_eq co hc hs dg
  have h1 : readUvarint (Cid.binary ⟨1, co, hc, hs, dg⟩) =
      .ok (1, uvarEnc co ++ (uvarEnc hc ++ (uvarEnc hs ++ dg))) := by
    rw [e]
    exact readUvarint_enc 1 _ (by norm_num)
  have h2 : readUvarint (uvarEnc co ++ (uvarEnc hc ++ (uvarEnc hs ++ dg))) =
      .ok (co, uvarEnc hc ++ (uvarEnc hs ++ dg)) := readUvarint_enc co _ hco64
  have h3 : readUvarint (uvarEnc hc ++ (uvarEnc hs ++ dg)) =
      .ok (hc, uvarEnc hs ++ dg) := readUvarint_enc hc _ hhc64
  have h4 : readUvarint (uvarEnc hs ++ dg) = .ok (hs, dg) := readUvarint_enc hs dg hhs64
  have h5 : takeN hs dg = some (dg, []) := by
    have h6 := takeN_of_length hs dg [] hdl2
    rwa [List.append_nil] at h6
  have hp : parseCidPrefix (Cid.binary ⟨1, co, hc, hs, dg⟩) =
      .ok (⟨1, co, hc, hs, dg⟩, []) := by
    rw [parseCidPrefix]
    simp only [h1, h2]
    rw [if_neg (by simp)]
    rw [if_pos (by simp)]
    simp only [h3, h4]
    rw [if_neg (by omega : ¬ 64 < hs)]
    simp only [h5]
  rw [decodeCidBytes]
  have hguard : ¬ (((Cid.binary ⟨1, co, hc, hs, dg⟩).length == 34 &&
      (Cid.binary ⟨1, co, hc, hs, dg⟩).take 2 == [0x12, 0x20]) = true) := by
    intro hgt
    rw [Bool.and_eq_true, beq_iff_eq, beq_iff_eq] at hgt
    have htk := hgt.2
    rw [e, show uvarEnc 1 = [1] from rfl] at htk
    simp at htk
  rw [if_neg hguard]
  simp only [hp]

theorem fromDigits_pair (b x y : Nat) : fromDigitsLE b [x, y] = x + b * y := by
  rw [fromDigits_cons, fromDigits_cons, fromDigits_nil]
  ring

theorem qm_string (digest : List Nat) (hdl : digest.length = 32)
    (hdig : ∀ x ∈ digest, x < 256) :
    ∃ t44 : List Char, bignumEncode 58 alphaB58 (18 :: 32 :: digest) = 'Q' :: 'm' :: t44 ∧
      t44.length = 44 := by
  have hz : countLeadZeros (18 :: 32 :: digest) = 0 := by simp [countLeadZeros]
  have henc : bignumEncode 58 alphaB58 (18 :: 32 :: digest) =
      (digitsLE 58 272 (fromDigitsLE 256 (18 :: 32 :: digest).reverse)).reverse.map
        (fun i => alphaB58.getD i ' ') := by
    rw [bignumEncode_eq_map, hz]
    simp only [List.replicate_zero, List.nil_append, List.drop_zero]
    norm_num [hdl]
  have hm := fromDigits_lt 256 digest.reverse
    (by intro x hx; rw [List.mem_reverse] at hx; exact hdig x hx)
  rw [List.length_reverse, hdl] at hm
  have hrev : (18 :: 32 :: digest).reverse = digest.reverse ++ [32, 18] := by simp
  have hn_eq : fromDigitsLE 256 (18 :: 32 :: digest).reverse =
      fromDigitsLE 256 digest.reverse + 256 ^ 32 * 4640 := by
    rw [hrev, fromDigits_append, List.length_reverse, hdl, fromDigits_pair]
  set n : Nat := fromDigitsLE 256 (18 :: 32 :: digest).reverse with hn
  set m : Nat := fromDigitsLE 256 digest.reverse with hmm
  have hA : (58 : Nat) ^ 45 ≤ 4640 * 256 ^ 32 := by decide
  have hB : 4640 * 256 ^ 32 + 256 ^ 32 ≤ 58 ^ 46 := by decide
  have hD1 : 1378 * 58 ^ 44 ≤ 4640 * 256 ^ 32 := by decide
  have hD2 : 4640 * 256 ^ 32 + 256 ^ 32 ≤ 1379 * 58 ^ 44 := by decide
  have hn_lt46 : n < 58 ^ 46 := by omega
  have hn_ge : (58 : Nat) ^ 45 ≤ n := by omega
  have hone : (1 : Nat) ≤ 58 ^ 45 := Nat.one_le_pow _ _ (by norm_num)
  have hn_ne : n ≠ 0 := by omega
  have hn_lt272 : n < 58 ^ 272 :=
    lt_of_lt_of_le hn_lt46 (Nat.pow_le_pow_right (by norm_num) (by norm_num))
  have hfull : fromDigitsLE 58 (digitsLE 58 272 n) = n :=
    fromDigits_digits 58 (by norm_num) 272 n hn_lt272
  have hDlt : ∀ x ∈ digitsLE 58 272 n, x < 58 :=
    fun x hx => digitsLE_lt 58 (by norm_num) 272 n x hx
  have hn_ltD : n < 58 ^ (digitsLE 58 272 n).length := by
    have h1 := fromDigits_lt 58 (digitsLE 58 272 n) hDlt
    rwa [hfull] at h1
  have hD45 : 45 < (digitsLE 58 272 n).length :=
    (Nat.pow_lt_pow_iff_right (by norm_num : 1 < 58)).mp (lt_of_le_of_lt hn_ge hn_ltD)
  obtain ⟨d0, t0, hd0t, hd0⟩ := digitsLE_rev_head 58 (by norm_num) 272 n hn_ne hn_lt272
  have hDne : digitsLE 58 272 n ≠ [] := by
    intro hcon
    rw [hcon] at hd0t
    simp at hd0t
  have hlast : (digitsLE 58 272 n).getLast? ≠ some 0 := by
    rw [← List.head?_reverse, hd0t]
    simp [hd0]
  have hge : (58 : Nat) ^ ((digitsLE 58 272 n).length - 1) ≤ n := by
    have h1 := fromDigits_ge 58 (by norm_num) (digitsLE 58 272 n) hlast hDne
    rwa [hfull] at h1
  have hDlen46 : (digitsLE 58 272 n).length = 46 := by
    have h1 : (58 : Nat) ^ ((digitsLE 58 272 n).length - 1) < 58 ^ 46 :=
      lt_of_le_of_lt hge hn_lt46
    have h2 := (Nat.pow_lt_pow_iff_right (by norm_num : 1 < 58)).mp h1
    omega
  have hrevlen : (digitsLE 58 272 n).reverse.length = 46 := by
    rw [List.length_reverse, hDlen46]
  rw [hd0t] at hrevlen
  cases t0 with
  | nil => simp at hrevlen
  | cons b1 t =>
    have htlen : t.length = 44 := by simp at hrevlen; omega
    have hDrevrev : digitsLE 58 272 n = t.reverse ++ [b1, d0] := by
      have h1 : (digitsLE 58 272 n).reverse.reverse = digitsLE 58 272 n :=
        List.reverse_reverse _
      rw [hd0t] at h1
      rw [← h1]
      simp
    have hmem_t : ∀ x ∈ t, x < 58 := by
      intro x hx
      apply hDlt
      rw [hDrevrev]
      rw [List.mem_append, List.mem_reverse]
      left; exact hx
    have hb1 : b1 < 58 := by
      apply hDlt
      rw [hDrevrev]
      rw [List.mem_append]
      right; simp
    have hd0lt : d0 < 58 := by
      apply hDlt
      rw [hDrevrev]
      rw [List.mem_append]
      right; simp
    have hmR := fromDigits_lt 58 t.reverse
      (by intro x hx; rw [List.mem_reverse] at hx; exact hmem_t x hx)
    rw [List.length_reverse, htlen] at hmR
    have hn_split : n = fromDigitsLE 58 t.reverse + 58 ^ 44 * (b1 + 58 * d0) := by
      conv_lhs => rw [← hfull, hDrevrev]
      rw [fromDigits_append, List.length_reverse, htlen, fromDigits_pair]
    have hdivX : n / 58 ^ 44 = b1 + 58 * d0 := by
      rw [hn_split, Nat.add_mul_div_left _ _ (Nat.pos_pow_of_pos 44 (by norm_num)),
        Nat.div_eq_of_lt hmR, Nat.zero_add]
    have hdiv1378 : n / 58 ^ 44 = 1378 := by
      apply Nat.div_eq_of_lt_le
      · omega
      · have hsucc : Nat.succ 1378 * 58 ^ 44 = 1379 * 58 ^ 44 := by norm_num
        rw [hsucc]
        omega
    have hvals : d0 = 23 ∧ b1 = 44 := by
      rw [hdivX] at hdiv1378
      omega
    obtain ⟨hd23, hb44⟩ := hvals
    subst hd23; subst hb44
    refine ⟨t.map (fun i => alphaB58.getD i ' '), ?_, by simp [htlen]⟩
    rw [henc, hd0t]
    rw [List.map_cons, List.map_cons]
    rfl

theorem decodeMultibase_b32 (bytes : List Nat) (hb : ∀ x ∈ bytes, x < 256) :
    decodeMultibase ⟨'b' :: encodeBits 5 alphaB32 bytes⟩ = .ok ('b', bytes) := by
  have h1 : decodeBody (.bits 5 alphaB32) (encodeBits 5 alphaB32 bytes) = .ok bytes :=
    bits_rt bytes hb
  show (decodeBody (.bits 5 alphaB32) (encodeBits 5 alphaB32 bytes)).map
      (fun bs => (('b' : Char), bs)) = .ok ('b', bytes)
  rw [h1]
  rfl

theorem validMultibase_qm (t44 : List Char) :
    validMultibase ⟨'Q' :: 'm' :: t44⟩ = false := rfl

theorem renderCid_v0 (c : Cid) (hv : c.version = 0) :
    renderCid c = ⟨bignumEncode 58 alphaB58 c.mhBytes⟩ := by
  rw [renderCid, hv]
  rfl

theorem renderCid_v1 (c : Cid) (hv : c.version = 1) :
    renderCid c = ⟨'b' :: encodeBits 5 alphaB32 c.binary⟩ := by
  rw [renderCid, hv]
  rfl

theorem renderCid_decode (c : Cid) (hwf : WfCid c) :
    decodeCidText (renderCid c) = .ok c ∧
      (c.version = 0 → validMultibase (renderCid c) = false) ∧
      (c.version ≠ 0 → validMultibase (renderCid c) = true) := by
  obtain ⟨v, co, hcd, hsz, dg⟩ := c
  obtain ⟨hdig, hdl, hco64, hhc64, hhs64, hcase⟩ := hwf
  rcases hcase with ⟨hv, hco, hhc, hhs⟩ | ⟨hv, hsle⟩
  · have hv0 : v = 0 := hv
    have hco0 : co = 0x70 := hco
    have hhc0 : hcd = 0x12 := hhc
    have hhs0 : hsz = 32 := hhs
    subst hv0; subst hco0; subst hhc0; subst hhs0
    have hdl32 : dg.length = 32 := hdl
    have hdig2 : ∀ x ∈ dg, x < 256 := hdig
    rw [renderCid_v0 ⟨0, 0x70, 0x12, 32, dg⟩ rfl]
    have hmh : Cid.mhBytes ⟨0, 0x70, 0x12, 32, dg⟩ = 18 :: 32 :: dg := mhBytes_v0 _ rfl rfl
    rw [hmh]
    obtain ⟨t44, hq, ht44⟩ := qm_string dg hdl32 hdig2
    rw [hq]
    refine ⟨?_, fun _ => validMultibase_qm t44, fun hne => absurd rfl hne⟩
    rw [decodeCidText]
    have hcond : ((⟨'Q' :: 'm' :: t44⟩ : String).data.length == 46 &&
        (⟨'Q' :: 'm' :: t44⟩ : String).data.take 2 == ['Q', 'm']) = true := by
      show (('Q' :: 'm' :: t44).length == 46 &&
        ('Q' :: 'm' :: t44).take 2 == ['Q', 'm']) = true
      simp [ht44]
    rw [if_pos hcond]
    have hmem : ∀ x ∈ 18 :: 32 :: dg, x < 256 := by
      intro x hx
      simp only [List.mem_cons] at hx
      rcases hx with h | h | h
      · omega
      · omega
      · exact hdig2 x h
    have hbd : bignumDecode 58 alphaB58 (⟨'Q' :: 'm' :: t44⟩ : String).data =
        .ok (18 :: 32 :: dg) := by
      show bignumDecode 58 alphaB58 ('Q' :: 'm' :: t44) = .ok (18 :: 32 :: dg)
      rw [← hq]
      exact bignum_rt (18 :: 32 :: dg) hmem
    simp only [hbd]
    have hfin := decodeCidBytes_mh_v0 0x70 dg rfl hdl32
    rw [hmh] at hfin
    exact hfin
  · have hv1 : v = 1 := hv
    subst hv1
    rw [renderCid_v1 ⟨1, co, hcd, hsz, dg⟩ rfl]
    have hblt : ∀ x ∈ Cid.binary ⟨1, co, hcd, hsz, dg⟩, x < 256 := binary_lt _ hdig
    have hdm := decodeMultibase_b32 _ hblt
    have hvm : validMultibase
        ⟨'b' :: encodeBits 5 alphaB32 (Cid.binary ⟨1, co, hcd, hsz, dg⟩)⟩ = true := by
      rw [validMultibase, hdm]
      rfl
    refine ⟨?_, fun h0 => absurd h0 (by simp), fun _ => hvm⟩
    rw [decodeCidText]
    have hguard : ¬ (((⟨'b' :: encodeBits 5 alphaB32 (Cid.binary ⟨1, co, hcd, hsz, dg⟩)⟩ :
        String).data.length == 46 &&
        (⟨'b' :: encodeBits 5 alphaB32 (Cid.binary ⟨1, co, hcd, hsz, dg⟩)⟩ :
          String).data.take 2 == ['Q', 'm']) = true) := by
      intro hgt
      rw [Bool.and_eq_true, beq_iff_eq, beq_iff_eq] at hgt
      have h2 : ('b' :: encodeBits 5 alphaB32 (Cid.binary ⟨1, co, hcd, hsz, dg⟩)).take 2 =
          ['Q', 'm'] := hgt.2
      simp at h2
    rw [if_neg hguard]
    simp only [hdm]
    exact decodeCidBytes_binary_v1 ⟨1, co, hcd, hsz, dg⟩
      ⟨hdig, hdl, hco64, hhc64, hhs64, Or.inr ⟨rfl, hsle⟩⟩ rfl

theorem encode_cid_bytes_eq (bs : List Nat) (c : Cid) (h : decodeCidBytes bs = .ok c) :
    encode_cid (.bytes bs) = .ok (renderCid c) := by
  simp only [encode_cid, h]

theorem encode_cid_valid (s : String) (h : validMultibase s = true) :
    encode_cid (.text s) = .ok s := by
  simp [encode_cid, h]

theorem renderCid_ne0 (c : Cid) (hv : c.version ≠ 0) :
    renderCid c = ⟨'b' :: encodeBits 5 alphaB32 c.binary⟩ := by
  rw [renderCid]
  rw [if_neg (by intro h; exact hv (by simpa using h))]

theorem renderCid_idem (c : Cid) (hwf : WfCid c) :
    encode_cid (.text (renderCid c)) = .ok (renderCid c) := by
  obtain ⟨hdec, hv0, hv1⟩ := renderCid_decode c hwf
  by_cases hv : c.version = 0
  · simp only [encode_cid, hv0 hv, hdec]
    simp
  · simp only [encode_cid, hv1 hv]
    simp

/-- C9 (amended): `encode_cid` returns valid multibase text verbatim; on raw
CID bytes it parses the CID and renders it — as the base32-lowercase `b`
multibase of the binary CID when the version is nonzero, but as bare base58btc
of the multihash when the version is 0 (contrary to the claim, which asserts
the `b` multibase for all raw CID bytes).  Idempotence
`encode_cid (encode_cid x) = encode_cid x` and the compatibility
`decode_cid (encode_cid raw) = decode_cid raw` hold for well-formed inputs. -/
theorem claim_c9 :
    (∀ s : String, validMultibase s = true → encode_cid (.text s) = .ok s) ∧
    (∀ (bs : List Nat) (c : Cid), decodeCidBytes bs = .ok c → c.version ≠ 0 →
      encode_cid (.bytes bs) = .ok ⟨'b' :: encodeBits 5 alphaB32 c.binary⟩) ∧
    (∀ (bs : List Nat) (c : Cid), decodeCidBytes bs = .ok c → c.version = 0 →
      encode_cid (.bytes bs) = .ok ⟨bignumEncode 58 alphaB58 c.mhBytes⟩) ∧
    (∀ (x : CidInput) (t : String), WfCidInput x → encode_cid x = .ok t →
      encode_cid (.text t) = .ok t) ∧
    (∀ (bs : List Nat) (t : String), (∀ y ∈ bs, y < 256) →
      encode_cid (.bytes bs) = .ok t → decode_cid (.text t) = decode_cid (.bytes bs)) := by
  refine ⟨?_, ?_, ?_, ?_, ?_⟩
  · exact fun s h => encode_cid_valid s h
  · intro bs c h hv
    rw [encode_cid_bytes_eq bs c h, renderCid_ne0 c hv]
  · intro bs c h hv
    rw [encode_cid_bytes_eq bs c h, renderCid_v0 c hv]
  · intro x t hwfi h
    cases x with
    | text s =>
      by_cases hvm : validMultibase s = true
      · have he := encode_cid_valid s hvm
        rw [he] at h
        injection h with h
        subst h
        exact he
      · have hvm2 : validMultibase s = false := by
          cases hb : validMultibase s
          · rfl
          · exact absurd hb hvm
        simp only [encode_cid, hvm2] at h
        simp only [Bool.false_eq_true, if_false] at h
        cases hd : decodeCidText s with
        | error e => simp [hd] at h
        | ok c =>
          simp only [hd] at h
          injection h with h
          subst h
          exact renderCid_idem c (decodeCidText_wf s c hd)
    | bytes bs =>
      have hwfb : ∀ y ∈ bs, y < 256 := hwfi
      cases hd : decodeCidBytes bs with
      | error e => simp [encode_cid, hd] at h
      | ok c =>
        rw [encode_cid_bytes_eq bs c hd] at h
        injection h with h
        subst h
        exact renderCid_idem c (decodeCidBytes_wf bs hwfb c hd)
  · intro bs t hb h
    cases hd : decodeCidBytes bs with
    | error e => simp [encode_cid, hd] at h
    | ok c =>
      rw [encode_cid_bytes_eq bs c hd] at h
      injection h with h
      subst h
      obtain ⟨hdec, _, _⟩ := renderCid_decode c (decodeCidBytes_wf bs hb c hd)
      show decodeCidText (renderCid c) = decodeCidBytes bs
      rw [hdec, hd]

set_option maxRecDepth 100000 in
/-- C9 counterexample: the raw CIDv0 bytes `12 20` followed by 32 `0xAA` bytes
encode to bare base58btc text starting `Qm`, which differs from the base32 `b`
multibase of the binary CID that the claim asserts. -/
theorem claim_c9_counterexample :
    decodeCidBytes c9v0 = .ok c9v0cid ∧
    encode_cid (.bytes c9v0) = .ok "QmZprxSLAFJgy9K2wTBzAg7yvg1Ucp9TH64gKQbn2ADKuB" ∧
    (⟨'b' :: encodeBits 5 alphaB32 c9v0cid.binary⟩ : String) =
      "bciqkvkvkvkvkvkvkvkvkvkvkvkvkvkvkvkvkvkvkvkvkvkvkvkvkvkq" ∧
    "QmZprxSLAFJgy9K2wTBzAg7yvg1Ucp9TH64gKQbn2ADKuB" ≠
      "bciqkvkvkvkvkvkvkvkvkvkvkvkvkvkvkvkvkvkvkvkvkvkvkvkvkvkq" :=
  ⟨by rfl, by rfl, by rfl, by decide⟩

set_option maxRecDepth 100000 in
/-- C9 witness: the repository test vector raw CIDv1 renders to the expected
base32 multibase text, re-encoding that text is the identity, and decoding it
agrees with decoding the raw bytes. -/
theorem claim_c9_witness :
    encode_cid (.bytes c9raw) =
      .ok "bafyreifwqenb274mc6i5u3i3j4jw3qhcez46v7vkldle27rpvlkysdu5tq" ∧
    encode_cid (.text "bafyreifwqenb274mc6i5u3i3j4jw3qhcez46v7vkldle27rpvlkysdu5tq") =
      .ok "bafyreifwqenb274mc6i5u3i3j4jw3qhcez46v7vkldle27rpvlkysdu5tq" ∧
    decode_cid (.text "bafyreifwqenb274mc6i5u3i3j4jw3qhcez46v7vkldle27rpvlkysdu5tq") =
      decode_cid (.bytes c9raw) := by
  have h1 : encode_cid (.bytes c9raw) =
      .ok "bafyreifwqenb274mc6i5u3i3j4jw3qhcez46v7vkldle27rpvlkysdu5tq" :=
    (claim_c9.2.1 c9raw c9cid (by rfl) (by decide)).trans (by rfl)
  refine ⟨h1, ?_, ?_⟩
  · exact claim_c9.2.2.2.1 (.bytes c9raw) _ (show ∀ y ∈ c9raw, y < 256 by decide) h1
  · exact claim_c9.2.2.2.2 c9raw _ (show ∀ y ∈ c9raw, y < 256 by decide) h1

/-- C10: the spec names nine stable public operations, but the packaged
binding re-exports only five of them — `encode_multibase`, `decode_multibase`,
`encode_dag_cbor` and `decode_car_tuple` are absent from its `__all__`, even
though the repository test suite calls the first three. -/
theorem claim_c10 :
    ¬ (∀ op ∈ specPublicOperations, op ∈ libipld_all) ∧
    "encode_dag_cbor" ∈ specPublicOperations ∧
    "encode_dag_cbor" ∉ libipld_all ∧
    "encode_multibase" ∉ libipld_all ∧
    "decode_multibase" ∉ libipld_all ∧
    "decode_car_tuple" ∉ libipld_all := by
  decide
